import Mathlib

/-!
Verification development for the NeuroPlan task manager core: the entity
model (`Task`, `Status`, `Priority`), the outline codec (`org_storage.py`),
the in-memory tree manager (`task_manager.py`), the flexible date parser,
and the background reminder scheduler (`reminder_system.py`).

Text is modelled as `List Char` (`Str`) so that every operation of the
Python sources (strip, split, startswith, string formatting) is an
executable structural function.  `datetime.datetime` is modelled by the
`DT` structure of calendar fields together with proleptic-Gregorian
ordinal arithmetic, mirroring CPython's `datetime` internals (field tuple
comparison, timedelta arithmetic over absolute microseconds).
-/

namespace NeuroPlan

/-- Text: Python `str` as a list of characters. -/
abbrev Str := List Char

/-- Python `str.strip()` on the left. -/
def trimLeft (s : Str) : Str := s.dropWhile (fun c => c.isWhitespace)

/-- Python `str.strip()` on the right. -/
def trimRight (s : Str) : Str := (s.reverse.dropWhile (fun c => c.isWhitespace)).reverse

/-- Python `str.strip()`. -/
def trim (s : Str) : Str := trimRight (trimLeft s)

/-- Split a character stream into lines at each `'\n'` (Python `str.split("\n")`). -/
def splitLines : Str → List Str
  | [] => [[]]
  | c :: cs =>
    let r := splitLines cs
    if c = '\n' then [] :: r
    else (c :: r.headD []) :: r.tail

/-- Join lines, terminating each with `'\n'` (the shape of the writer's output). -/
def renderLines (ls : List Str) : Str := ls.foldr (fun l acc => l ++ '\n' :: acc) []

/-- Split on a separator character (used for tag groups `:a:b:`). -/
def splitOnChar (sep : Char) : Str → List Str
  | [] => [[]]
  | c :: cs =>
    let r := splitOnChar sep cs
    if c = sep then [] :: r
    else (c :: r.headD []) :: r.tail

/-- Exactly `w` decimal digits of `n` (most significant first). -/
def fixedDigits : Nat → Nat → Str
  | 0, _ => []
  | w + 1, n => fixedDigits w (n / 10) ++ [Char.ofNat (48 + n % 10)]

/-- Zero-padded decimal rendering, as produced by `%0Nd` / `strftime`: for
an in-range value, the `w`-digit zero-padded decimal; wider values print in
full (Python never truncates). -/
def padNum (w n : Nat) : Str :=
  if n < 10 ^ w then fixedDigits w n
  else (Nat.repr n).data

/-- Decimal value of a digit run (the semantics of Python `int(...)` on digits). -/
def digitsVal (s : Str) : Nat := s.foldl (fun acc c => acc * 10 + (c.toNat - 48)) 0

/-! ## Calendar and datetime model -/

def isLeap (y : Nat) : Bool := (y % 4 == 0 && y % 100 != 0) || (y % 400 == 0)

def daysInMonth (y m : Nat) : Nat :=
  if m = 2 then (if isLeap y then 29 else 28)
  else if m = 4 ∨ m = 6 ∨ m = 9 ∨ m = 11 then 30
  else 31

def daysBeforeMonth (y m : Nat) : Nat :=
  (List.range (m - 1)).foldl (fun acc i => acc + daysInMonth y (i + 1)) 0

/-- Proleptic-Gregorian day number, 0 for 0001-01-01 (CPython `toordinal() - 1`). -/
def toOrd (y m d : Nat) : Nat :=
  365 * (y - 1) + (y - 1) / 4 - (y - 1) / 100 + (y - 1) / 400 + daysBeforeMonth y m + (d - 1)

/-- Inverse of `toOrd` (civil-from-days), total on `Int`. -/
def fromOrd (n : Int) : Nat × Nat × Nat :=
  let z := n + 306
  let era := Int.fdiv z 146097
  let doe := z - era * 146097
  let yoe := (doe - doe / 1460 + doe / 36524 - doe / 146096) / 365
  let doy := doe - (365 * yoe + yoe / 4 - yoe / 100)
  let mp := (5 * doy + 2) / 153
  let d := doy - (153 * mp + 2) / 5 + 1
  let m := mp + (if mp < 10 then 3 else -9)
  let y := yoe + era * 400 + (if m ≤ 2 then 1 else 0)
  (y.toNat, m.toNat, d.toNat)

/-- `datetime.datetime`: a tuple of calendar fields (naive local time). -/
structure DT where
  year : Nat
  month : Nat
  day : Nat
  hour : Nat
  minute : Nat
  second : Nat := 0
  micro : Nat := 0
deriving DecidableEq

/-- Field-tuple comparison, exactly how CPython compares naive datetimes. -/
def DT.cmp (a b : DT) : Ordering :=
  (compare a.year b.year).then <| (compare a.month b.month).then <|
  (compare a.day b.day).then <| (compare a.hour b.hour).then <|
  (compare a.minute b.minute).then <| (compare a.second b.second).then <|
  compare a.micro b.micro

def DT.ltb (a b : DT) : Bool := a.cmp b == Ordering.lt
def DT.leb (a b : DT) : Bool := a.cmp b != Ordering.gt

/-- Absolute microsecond count (ordinal day · 86400·10⁶ + time of day). -/
def DT.toAbs (t : DT) : Int :=
  ((toOrd t.year t.month t.day : Int) * 86400
    + t.hour * 3600 + t.minute * 60 + t.second) * 1000000 + t.micro

/-- Rebuild calendar fields from an absolute microsecond count. -/
def ofAbs (x : Int) : DT :=
  let day := Int.fdiv x 86400000000
  let rem := x - day * 86400000000
  let ymd := fromOrd day
  let us := rem % 1000000
  let s2 := rem / 1000000
  ⟨ymd.1, ymd.2.1, ymd.2.2, ((s2 / 60) / 60).toNat, ((s2 / 60) % 60).toNat,
    (s2 % 60).toNat, us.toNat⟩

/-- `dt + timedelta(microseconds=k)`: CPython timedelta arithmetic is exact
absolute arithmetic over the proleptic-Gregorian ordinal. -/
def DT.addMicro (t : DT) (k : Int) : DT := ofAbs (t.toAbs + k)

def DT.addMinutes (t : DT) (k : Int) : DT := t.addMicro (k * 60000000)
def DT.addHours (t : DT) (k : Int) : DT := t.addMicro (k * 3600000000)
def DT.addDays (t : DT) (k : Int) : DT := t.addMicro (k * 86400000000)

/-- `dt.replace(hour=h, minute=mi, second=0, microsecond=0)`. -/
def DT.replaceHM (t : DT) (h mi : Nat) : DT :=
  { t with hour := h, minute := mi, second := 0, micro := 0 }

/-- Truncation to the minute (for "due dates compared to the minute"). -/
def DT.truncMin (t : DT) : DT := { t with second := 0, micro := 0 }

/-- `datetime.isoformat()`: seconds always present, microseconds iff nonzero. -/
def DT.iso (t : DT) : Str :=
  padNum 4 t.year ++ '-' :: padNum 2 t.month ++ '-' :: padNum 2 t.day
    ++ 'T' :: padNum 2 t.hour ++ ':' :: padNum 2 t.minute ++ ':' :: padNum 2 t.second
    ++ (if t.micro ≠ 0 then '.' :: padNum 6 t.micro else [])

/-- Weekday abbreviation for `strftime("%a")`; ordinal 0 (0001-01-01) is a Monday. -/
def weekdayAbbr (y m d : Nat) : Str :=
  (["Mon", "Tue", "Wed", "Thu", "Fri", "Sat", "Sun"].map String.data).getD
    (toOrd y m d % 7) []

/-- `due_date.strftime("%Y-%m-%d %a %H:%M")` as written on the SCHEDULED line. -/
def DT.schedFmt (t : DT) : Str :=
  padNum 4 t.year ++ '-' :: padNum 2 t.month ++ '-' :: padNum 2 t.day
    ++ ' ' :: weekdayAbbr t.year t.month t.day
    ++ ' ' :: padNum 2 t.hour ++ ':' :: padNum 2 t.minute

/-- Calendar-validity of a datetime (the range CPython accepts, with the
4-digit year used by all formatted output in this codebase). -/
def DT.Valid (t : DT) : Prop :=
  1 ≤ t.year ∧ t.year ≤ 9999 ∧ 1 ≤ t.month ∧ t.month ≤ 12 ∧
  1 ≤ t.day ∧ t.day ≤ daysInMonth t.year t.month ∧
  t.hour ≤ 23 ∧ t.minute ≤ 59 ∧ t.second ≤ 59 ∧ t.micro ≤ 999999

instance (t : DT) : Decidable t.Valid := by unfold DT.Valid; infer_instance

/-! ## Entity model (`task_manager.py`) -/

/-- `class Status(str, Enum)`. -/
inductive Status
  | TODO | DONE | WAITING
deriving DecidableEq

def Status.value : Status → Str
  | .TODO => "TODO".data
  | .DONE => "DONE".data
  | .WAITING => "WAITING".data

/-- `Status(s)`: enum lookup by value; raises `ValueError` (here `none`) otherwise. -/
def Status.ofStr (s : Str) : Option Status :=
  if s = "TODO".data then some .TODO
  else if s = "DONE".data then some .DONE
  else if s = "WAITING".data then some .WAITING
  else none

/-- `class Priority(str, Enum)`: HIGH="A", MEDIUM="B", LOW="C", NONE="D". -/
inductive Priority
  | HIGH | MEDIUM | LOW | NONE
deriving DecidableEq

def Priority.value : Priority → Str
  | .HIGH => "A".data
  | .MEDIUM => "B".data
  | .LOW => "C".data
  | .NONE => "D".data

def Priority.ofStr (s : Str) : Option Priority :=
  if s = "A".data then some .HIGH
  else if s = "B".data then some .MEDIUM
  else if s = "C".data then some .LOW
  else if s = "D".data then some .NONE
  else none

/-- The `Task` dataclass.  `children` holds the ids of the child tasks: in the
Python source it holds the `Task` objects themselves, but every child object
stored there is the very object held in the manager's id-keyed map, so ids
are a faithful rendering of the aliasing. -/
structure Task where
  title : Str
  id : Str
  description : Str := []
  author : Option Str := none
  status : Status := .TODO
  priority : Priority := .NONE
  due_date : Option DT := none
  scheduled_date : Option DT := none
  reminder_minutes : Nat := 30
  reminder_enabled : Bool := true
  tags : List Str := []
  children : List Str := []
  parent_id : Option Str := none
  created_at : DT
  file : Option Str := none
deriving DecidableEq

/-- Association-list lookup (Python `dict` access by key). -/
def alookup (m : List (Str × Task)) (k : Str) : Option Task :=
  match m with
  | [] => none
  | (k', v) :: r => if k' = k then some v else alookup r k

/-- `d[k] = v` on an insertion-ordered dict: overwrite in place if the key
exists (keeping its original position), else append. -/
def aupsert (m : List (Str × Task)) (k : Str) (v : Task) : List (Str × Task) :=
  match m with
  | [] => [(k, v)]
  | (k', v') :: r => if k' = k then (k, v) :: r else (k', v') :: aupsert r k v

/-- The `TaskManager`'s state: its insertion-ordered id → Task map. -/
structure Manager where
  tasks : List (Str × Task)
deriving DecidableEq

/-! ## Reminder scheduler (`reminder_system.py`) -/

inductive ReminderType
  | DUE_DATE | BEFORE_DUE | OVERDUE
deriving DecidableEq

/-- `ReminderConfig` (sound-file field omitted: delivery side effects are out
of the modelled state). -/
structure ReminderConfig where
  task_id : Str
  reminder_type : ReminderType
  trigger_time : DT
  message : Str
  enabled : Bool := true
  sent : Bool := false
deriving DecidableEq

/-- An emitted notification, as observed by the delivery layer. -/
structure Event where
  identity : Str
  reminder_type : ReminderType
  trigger_time : DT
  message : Str
deriving DecidableEq

/-- `ReminderSystem._generate_reminders_for_task`. -/
def generateRemindersForTask (t : Task) (now : DT) : List ReminderConfig :=
  match t.due_date with
  | none => []
  | some due =>
    let base := t.id ++ '_' :: due.iso
    let l1 :=
      if now.leb due then
        [{ task_id := base ++ "_due".data, reminder_type := .DUE_DATE,
           trigger_time := due, message := "Task due now: ".data ++ t.title }]
      else []
    let beforeTime := due.addMinutes (-30)
    let l2 :=
      if now.leb beforeTime then
        [{ task_id := base ++ "_before".data, reminder_type := .BEFORE_DUE,
           trigger_time := beforeTime,
           message := "Task due in 30 minutes: ".data ++ t.title }]
      else []
    let overdueTime := due.addMinutes 30
    let l3 :=
      if due.ltb now && now.leb overdueTime then
        [{ task_id := base ++ "_overdue".data, reminder_type := .OVERDUE,
           trigger_time := overdueTime,
           message := "Task is overdue: ".data ++ t.title }]
      else []
    l1 ++ l2 ++ l3

/-- `ReminderSystem._send_reminder`: recover the task by splitting the
reminder identity at `'_'`; if found, emit one notification (appending
author/description details to the message) and record the identity as sent. -/
def sendReminder (mgr : Manager) (sent : List Str) (r : ReminderConfig) :
    List Str × List Event :=
  let tid := r.task_id.takeWhile (fun c => c ≠ '_')
  match alookup mgr.tasks tid with
  | none => (sent, [])
  | some task =>
    let msg1 := r.message ++
      (match task.author with
       | some a => "\nAuthor: ".data ++ a
       | none => [])
    let msg2 := msg1 ++
      (if task.description ≠ [] then
         "\nDescription: ".data ++
           (if task.description.length > 100 then
              task.description.take 100 ++ "...".data
            else task.description)
       else [])
    (r.task_id :: sent,
     [{ identity := r.task_id, reminder_type := r.reminder_type,
        trigger_time := r.trigger_time, message := msg2 }])

/-- `ReminderSystem._check_all_reminders`: one tick at instant `now`. -/
def checkAllReminders (mgr : Manager) (sent : List Str) (now : DT) :
    List Str × List Event :=
  mgr.tasks.foldl
    (fun st kv =>
      let t := kv.2
      if t.due_date = none ∨ t.status.value = "DONE".data then st
      else
        (generateRemindersForTask t now).foldl
          (fun st r =>
            if r.enabled && !r.sent && r.trigger_time.leb now
                && !(st.1.contains r.task_id) then
              let out := sendReminder mgr st.1 r
              (out.1, st.2 ++ out.2)
            else st)
          st)
    (sent, [])

/-- A sequence of scheduler ticks, threading the sent-set and collecting
every emitted event. -/
def runTicks (mgr : Manager) (sent : List Str) : List DT → List Str × List Event
  | [] => (sent, [])
  | now :: rest =>
    let out := checkAllReminders mgr sent now
    let tail := runTicks mgr out.1 rest
    (tail.1, out.2 ++ tail.2)

/-! ## Flexible date parser (`parse_flexible_date` in `task_manager.py`)

The Python function reads the clock once (`now = datetime.datetime.now()`);
the embedding takes that single clock reading as the explicit reference
argument `now`. -/

def isWS (c : Char) : Bool := c.isWhitespace

/-- The unit group `(h|m|d)` of the relative-date regex: it must match at
the current position; anything may follow it. -/
def unitOf : Str → Option Char
  | c :: _ => if c = 'h' ∨ c = 'm' ∨ c = 'd' then some c else none
  | [] => none

/-- The part of `re.match(r'in\s+(\d+)\s*(h|m|d)', s)` after the literal
`in`: at least one whitespace, a digit run, optional whitespace, the unit. -/
def matchRelBody (rest : Str) : Option (Nat × Char) :=
  if (rest.takeWhile isWS).isEmpty then none
  else
    let r1 := rest.dropWhile isWS
    let ds := r1.takeWhile Char.isDigit
    if ds.isEmpty then none
    else
      match unitOf ((r1.dropWhile Char.isDigit).dropWhile isWS) with
      | some c => some (digitsVal ds, c)
      | none => none

/-- `re.match(r'in\s+(\d+)\s*(h|m|d)', s)`: a prefix match. -/
def matchRel (s : Str) : Option (Nat × Char) :=
  match s with
  | c1 :: c2 :: rest => if c1 = 'i' ∧ c2 = 'n' then matchRelBody rest else none
  | _ => none

/-- One numeric `strptime` field: CPython's `_strptime` patterns accept one
or two digits (two-digit forms within the valid range, excluding the
out-of-range ones); a run of three or more digits can never complete the
surrounding format. -/
def fieldVal (run : Str) (lo1 hi1 lo2 hi2 : Nat) : Option Nat :=
  match run.length with
  | 1 => if lo1 ≤ digitsVal run ∧ digitsVal run ≤ hi1 then some (digitsVal run) else none
  | 2 => if lo2 ≤ digitsVal run ∧ digitsVal run ≤ hi2 then some (digitsVal run) else none
  | _ => none

/-- `datetime.strptime(s, "%Y-%m-%d %H:%M")`: `%Y` is exactly four digits,
literal whitespace in the format matches a whitespace run, no unconverted
data may remain, and the `datetime` constructor validates the calendar
date (year ≥ 1, day within the month). -/
def parseYMDHM (s : Str) : Option DT :=
  let yrun := s.takeWhile Char.isDigit
  if yrun.length ≠ 4 then none
  else
    match s.dropWhile Char.isDigit with
    | '-' :: r2 =>
      match fieldVal (r2.takeWhile Char.isDigit) 1 9 1 12 with
      | none => none
      | some m =>
        match r2.dropWhile Char.isDigit with
        | '-' :: r4 =>
          match fieldVal (r4.takeWhile Char.isDigit) 1 9 1 31 with
          | none => none
          | some d =>
            let r5 := r4.dropWhile Char.isDigit
            if (r5.takeWhile isWS).isEmpty then none
            else
              let r6 := r5.dropWhile isWS
              match fieldVal (r6.takeWhile Char.isDigit) 0 9 0 23 with
              | none => none
              | some hh =>
                match r6.dropWhile Char.isDigit with
                | ':' :: r8 =>
                  match fieldVal (r8.takeWhile Char.isDigit) 0 9 0 59 with
                  | none => none
                  | some mi =>
                    if r8.dropWhile Char.isDigit ≠ ([] : Str) then none
                    else if 1 ≤ digitsVal yrun ∧ d ≤ daysInMonth (digitsVal yrun) m then
                      some ⟨digitsVal yrun, m, d, hh, mi, 0, 0⟩
                    else none
                | _ => none
        | _ => none
    | _ => none

/-- `datetime.strptime(s, "%Y-%m-%d")` (result at midnight). -/
def parseYMD (s : Str) : Option DT :=
  let yrun := s.takeWhile Char.isDigit
  if yrun.length ≠ 4 then none
  else
    match s.dropWhile Char.isDigit with
    | '-' :: r2 =>
      match fieldVal (r2.takeWhile Char.isDigit) 1 9 1 12 with
      | none => none
      | some m =>
        match r2.dropWhile Char.isDigit with
        | '-' :: r4 =>
          match fieldVal (r4.takeWhile Char.isDigit) 1 9 1 31 with
          | none => none
          | some d =>
            if r4.dropWhile Char.isDigit ≠ ([] : Str) then none
            else if 1 ≤ digitsVal yrun ∧ d ≤ daysInMonth (digitsVal yrun) m then
              some ⟨digitsVal yrun, m, d, 0, 0, 0, 0⟩
            else none
        | _ => none
    | _ => none

/-- `dt.replace(hour=h, minute=mi)` — seconds and microseconds untouched. -/
def DT.replaceHMKeep (t : DT) (h mi : Nat) : DT := { t with hour := h, minute := mi }

/-- `parse_flexible_date(date_string)` with the ambient clock reading passed
as `now`. -/
def parse_flexible_date (now : DT) (s0 : Str) : Option DT :=
  let s := trim (s0.map Char.toLower)
  if s = "tomorrow".data then some ((now.addDays 1).replaceHM 9 0)
  else if s = "today".data then some (now.replaceHM 23 59)
  else
    match matchRel s with
    | some vu =>
      if vu.2 = 'h' then some (now.addHours vu.1)
      else if vu.2 = 'm' then some (now.addMinutes vu.1)
      else some (now.addDays vu.1)
    | none =>
      match parseYMDHM s with
      | some d => some d
      | none =>
        match parseYMD s with
        | some d => some (d.replaceHMKeep 9 0)
        | none => none

/-! ## Outline codec (`org_storage.py`)

The writer side (`OrgStorage.save` / `_write_task_node`) is translated
directly from the source.  The reader side delegates heading/drawer/body
parsing to the external `orgparse` library, which is not part of the
repository sources; that layer is therefore modelled from the spec (§4.2
Load and the §6 file format): a node is a heading line (depth stars, an
optional TODO/DONE/WAITING token before the title, trailing `:tag:` labels),
an optional SCHEDULED timestamp line, a `:PROPERTIES:`…`:END:` key/value
drawer, and body text running until the next heading.  The record
extraction on top of the parsed nodes (`OrgStorage.load`) is translated
from the source. -/

/-- Stable insertion sort — the order produced by Python's stable `sorted`
for a total boolean preorder. -/
def insertBy (le : Task → Task → Bool) (x : Task) : List Task → List Task
  | [] => [x]
  | y :: ys => if le x y then x :: y :: ys else y :: insertBy le x ys

def sortBy (le : Task → Task → Bool) : List Task → List Task
  | [] => []
  | x :: xs => insertBy le x (sortBy le xs)

/-- `sorted(tasks, key=lambda t: t.created_at)`. -/
def sortByCreated (ts : List Task) : List Task :=
  sortBy (fun a b => a.created_at.leb b.created_at) ts

/-- A flat task record, the dictionaries produced by `OrgStorage.load`. -/
structure RawRecord where
  id : Str
  title : Str
  description : Str
  author : Option Str
  status : Status
  priority : Priority
  due_date : Option DT
  tags : List Str
  parent_id : Option Str
  created_at : DT
  file : Str
deriving DecidableEq

/-- Modelled from the spec: a parsed outline node (the shape `orgparse`
hands to `OrgStorage.load`): heading text with the status token removed,
trailing tag labels, the SCHEDULED timestamp, the metadata drawer, and the
body text between the metadata block and the next heading. -/
structure OrgNode where
  heading : Str
  tags : List Str
  scheduled : Option DT
  properties : List (Str × Str)
  body : Str
deriving DecidableEq

/-- A line introducing a new node: one or more depth markers then a space. -/
def isHeadingLine (l : Str) : Bool :=
  match l with
  | '*' :: rest =>
    match rest.dropWhile (fun c => c = '*') with
    | ' ' :: _ => true
    | _ => false
  | _ => false

/-- Split a file's lines into (heading line, following lines) chunks,
dropping any preamble before the first heading. -/
def chunkAux : List Str → Option (Str × List Str) → List (Str × List Str)
  | [], none => []
  | [], some cur => [cur]
  | l :: rest, acc =>
    if isHeadingLine l then
      match acc with
      | none => chunkAux rest (some (l, []))
      | some cur => cur :: chunkAux rest (some (l, []))
    else
      match acc with
      | none => chunkAux rest none
      | some cur => chunkAux rest (some (cur.1, cur.2 ++ [l]))

def chunkNodes (ls : List Str) : List (Str × List Str) := chunkAux ls none

/-- Tag label characters (word characters and `@`, `#`, `%`). -/
def tagChar (c : Char) : Bool := c.isAlphanum || c = '_' || c = '@' || c = '#' || c = '%'

/-- A trailing tag group `:a:b:`: colon-delimited, every label nonempty and
made of tag characters. -/
def validTagGroup (g : Str) : Bool :=
  match g with
  | c :: rest =>
    c = ':' && !rest.isEmpty && rest.getLast? = some ':' &&
      (splitOnChar ':' rest.dropLast).all (fun seg => !seg.isEmpty && seg.all tagChar)
  | [] => false

/-- Modelled from the spec: split heading text (already stripped, status
token already removed) into title and trailing tag labels.  The tag group
candidate is the segment after the last space. -/
def splitTags (s : Str) : Str × List Str :=
  let cand := (s.reverse.takeWhile (fun c => c ≠ ' ')).reverse
  if validTagGroup cand then
    (trim (s.take (s.length - cand.length)), splitOnChar ':' (cand.drop 1).dropLast)
  else (s, [])

/-- Modelled from the spec: strip the optional status token (TODO / DONE /
WAITING followed by a space) from the front of the heading text. -/
def stripStatusToken (s : Str) : Str :=
  if (("TODO ").data).isPrefixOf s then s.drop 5
  else if (("DONE ").data).isPrefixOf s then s.drop 5
  else if (("WAITING ").data).isPrefixOf s then s.drop 8
  else s

/-- Modelled from the spec: parse a heading line into depth, title, tags. -/
def parseHeading (l : Str) : Nat × Str × List Str :=
  let stars := l.takeWhile (fun c => c = '*')
  let rest := trim (l.drop (stars.length + 1))
  let s1 := trim (stripStatusToken rest)
  let tt := splitTags s1
  (stars.length, tt.1, tt.2)

/-- Take a run of exactly `w` digits (a fixed-width numeric field). -/
def eatFixedNum (w : Nat) (s : Str) : Option (Nat × Str) :=
  let run := s.takeWhile Char.isDigit
  if run.length = w then some (digitsVal run, s.drop w) else none

/-- Take a nonempty run of digits (a variable-width numeric field). -/
def eatNum (s : Str) : Option (Nat × Str) :=
  let run := s.takeWhile Char.isDigit
  if run.isEmpty then none else some (digitsVal run, s.dropWhile Char.isDigit)

/-- Require a literal character. -/
def eatChar (c : Char) (s : Str) : Option Str :=
  match s with
  | c' :: r => if c' = c then some r else none
  | [] => none

/-- The timestamp inside a `<...>` range: `YYYY-MM-DD Day HH:MM` (the
day-of-week word is ignored, as the spec's format prescribes). -/
def parseSchedTS (inner : Str) : Option DT :=
  match eatNum inner with
  | none => none
  | some (y, r1) =>
    match eatChar '-' r1 with
    | none => none
    | some r2 =>
      match eatNum r2 with
      | none => none
      | some (mo, r3) =>
        match eatChar '-' r3 with
        | none => none
        | some r4 =>
          match eatNum r4 with
          | none => none
          | some (dd, r5) =>
            let r7 := ((r5.dropWhile isWS).dropWhile (fun c => isWS c = false)).dropWhile isWS
            match eatNum r7 with
            | none => none
            | some (hh, r8) =>
              match eatChar ':' r8 with
              | none => none
              | some r9 =>
                match eatNum r9 with
                | none => none
                | some (mi, _) => some ⟨y, mo, dd, hh, mi, 0, 0⟩

/-- Modelled from the spec: recognize a `SCHEDULED: <...>` planning line. -/
def parseSched (l : Str) : Option DT :=
  let s := trimLeft l
  if (("SCHEDULED:").data).isPrefixOf s then
    match trim (s.drop 10) with
    | '<' :: rest => parseSchedTS (rest.takeWhile (fun c => c ≠ '>'))
    | _ => none
  else none

/-- A drawer line `:key: value` (key up to the next colon, value stripped). -/
def parsePropLine (l : Str) : Option (Str × Str) :=
  match trimLeft l with
  | ':' :: rest =>
    let key := rest.takeWhile (fun c => c ≠ ':')
    match rest.dropWhile (fun c => c ≠ ':') with
    | ':' :: val => some (key, trim val)
    | _ => none
  | _ => none

def joinNL : List Str → Str
  | [] => []
  | [l] => l
  | l :: r => l ++ '\n' :: joinNL r

/-- Modelled from the spec: parse one chunk (heading + following lines)
into a node: optional SCHEDULED line first, then the properties drawer,
then the body (outer whitespace stripped). -/
def parseChunk (hl : Str) (bl : List Str) : OrgNode :=
  let ht := parseHeading hl
  let sb :=
    match bl with
    | l :: r =>
      match parseSched l with
      | some d => (some d, r)
      | none => ((none : Option DT), bl)
    | [] => (none, [])
  let pb :=
    match sb.2 with
    | l :: r =>
      if trim l = ((":PROPERTIES:").data) then
        (((r.takeWhile (fun l2 => trim l2 ≠ ((":END:").data))).filterMap parsePropLine),
         ((r.dropWhile (fun l2 => trim l2 ≠ ((":END:").data))).drop 1))
      else (([] : List (Str × Str)), sb.2)
    | [] => ([], [])
  { heading := ht.2.1, tags := ht.2.2, scheduled := sb.1,
    properties := pb.1, body := trim (joinNL pb.2) }

/-- Modelled from the spec: parse a whole outline file into its nodes. -/
def parseOrgFile (content : Str) : List OrgNode :=
  (chunkNodes (splitLines content)).map (fun c => parseChunk c.1 c.2)

/-- First-match property lookup (`node.properties.get(key)`). -/
def plookup (ps : List (Str × Str)) (k : Str) : Option Str :=
  match ps with
  | [] => none
  | (k', v) :: r => if k' = k then some v else plookup r k

/-- Construct a datetime if the fields form a valid calendar instant
(`datetime(...)` raises `ValueError` otherwise). -/
def mkValidDT (y mo d h mi s us : Nat) : Option DT :=
  if 1 ≤ y ∧ y ≤ 9999 ∧ 1 ≤ mo ∧ mo ≤ 12 ∧ 1 ≤ d ∧ d ≤ daysInMonth y mo
      ∧ h ≤ 23 ∧ mi ≤ 59 ∧ s ≤ 59 ∧ us ≤ 999999 then
    some ⟨y, mo, d, h, mi, s, us⟩
  else none

/-- `datetime.fromisoformat`: the formats `isoformat()` emits — a
zero-padded date, optionally a separator char and `HH:MM[:SS[.fff|.ffffff]]`,
validated by the `datetime` constructor. -/
def parseIso (s : Str) : Option DT :=
  match eatFixedNum 4 s with
  | none => none
  | some (y, s1) =>
    match eatChar '-' s1 with
    | none => none
    | some s2 =>
      match eatFixedNum 2 s2 with
      | none => none
      | some (mo, s3) =>
        match eatChar '-' s3 with
        | none => none
        | some s4 =>
          match eatFixedNum 2 s4 with
          | none => none
          | some (dd, s5) =>
            match s5 with
            | [] => mkValidDT y mo dd 0 0 0 0
            | _ :: tr =>
              match eatFixedNum 2 tr with
              | none => none
              | some (hh, t1) =>
                match eatChar ':' t1 with
                | none => none
                | some t2 =>
                  match eatFixedNum 2 t2 with
                  | none => none
                  | some (mi, t3) =>
                    match t3 with
                    | [] => mkValidDT y mo dd hh mi 0 0
                    | ':' :: t4 =>
                      match eatFixedNum 2 t4 with
                      | none => none
                      | some (ss, t5) =>
                        match t5 with
                        | [] => mkValidDT y mo dd hh mi ss 0
                        | '.' :: t6 =>
                          let fs := t6.takeWhile Char.isDigit
                          if (fs.length = 3 ∨ fs.length = 6)
                              ∧ t6.drop fs.length = ([] : Str) then
                            mkValidDT y mo dd hh mi ss
                              (if fs.length = 3 then digitsVal fs * 1000 else digitsVal fs)
                          else none
                        | _ => none
                    | _ => none

/-- `OrgStorage.load`, per node: build the task dictionary.  `Status(...)`
and `Priority(...)` raise `ValueError` on unrecognized tokens — inside the
per-file node loop, outside any handler, so the error propagates out of
`load` itself. -/
def recordOfNode (fn : Str) (now : DT) (n : OrgNode) : Except String RawRecord :=
  let props := n.properties
  let status_val := (plookup props (("status").data)).getD (("TODO").data)
  let priority_val := (plookup props (("priority").data)).getD (("D").data)
  match Status.ofStr status_val with
  | none => .error "ValueError: invalid status"
  | some st =>
    match Priority.ofStr priority_val with
    | none => .error "ValueError: invalid priority"
    | some pr =>
      let due : Option DT :=
        match n.scheduled with
        | some d => some d
        | none =>
          match plookup props (("due_date").data) with
          | some v => parseIso v
          | none => none
      let created : DT :=
        match plookup props (("created_at").data) with
        | some v => (parseIso v).getD now
        | none => now
      .ok { id := (plookup props (("id").data)).getD (("N/A").data),
            title := n.heading, description := n.body,
            author := plookup props (("author").data),
            status := st, priority := pr, due_date := due,
            tags := n.tags, parent_id := plookup props (("parent_id").data),
            created_at := created, file := fn }

/-- `OrgStorage.load` over one file's parsed nodes. -/
def orgLoadFile (fn : Str) (content : Str) (now : DT) : Except String (List RawRecord) :=
  (parseOrgFile content).foldl
    (fun acc n =>
      match acc with
      | .error e => .error e
      | .ok rs =>
        match recordOfNode fn now n with
        | .error e => .error e
        | .ok r => .ok (rs ++ [r]))
    (.ok [])

/-- `OrgStorage.load`: scan the directory (a list of filename/content
pairs in listing order), reading only `.org` files.  The `try/except`
around `orgparse.load` skips files the parser rejects; the modelled parser
is total, so that branch never fires — but a `ValueError` from a record's
status/priority conversion propagates out of the whole scan. -/
def orgLoad (dir : List (Str × Str)) (now : DT) : Except String (List RawRecord) :=
  dir.foldl
    (fun acc p =>
      match acc with
      | .error e => .error e
      | .ok rs =>
        if ((".org").data).isSuffixOf p.1 then
          match orgLoadFile p.1 p.2 now with
          | .error e => .error e
          | .ok r2 => .ok (rs ++ r2)
        else .ok rs)
    (.ok [])

/-! ## Task tree manager (`task_manager.py`) -/

/-- `TaskManager.load_tasks`, first phase: build `temp_tasks` keyed by id
(`temp_tasks[data['id']] = Task(**filtered_data)`; every record carries an
id, defaulted to `"N/A"` upstream, so the `'id' in filtered_data` guard is
always satisfied on this path). -/
def taskOfRecord (r : RawRecord) : Task :=
  { title := r.title, id := r.id, description := r.description,
    author := r.author, status := r.status, priority := r.priority,
    due_date := r.due_date, scheduled_date := none,
    reminder_minutes := 30, reminder_enabled := true,
    tags := r.tags, children := [], parent_id := r.parent_id,
    created_at := r.created_at, file := some r.file }

def buildTemp (records : List RawRecord) : List (Str × Task) :=
  records.foldl (fun m r => aupsert m r.id (taskOfRecord r)) []

/-- The linking part of one rebuild iteration: with the task under `k`
already cleared (to `cleared`, stored in `m1`), either append `k` to its
parent's `children` (when `parent_id` is truthy and resolves in the map)
or null out `parent_id`. -/
def rebuildLink (m1 : List (Str × Task)) (k : Str) (cleared : Task) :
    Option Str → List (Str × Task)
  | some p =>
    if p ≠ [] then
      match alookup m1 p with
      | some pt => aupsert m1 p { pt with children := pt.children ++ [k] }
      | none => aupsert m1 k { cleared with parent_id := none }
    else aupsert m1 k { cleared with parent_id := none }
  | none => aupsert m1 k { cleared with parent_id := none }

/-- One iteration of the link-rebuild loop for the task under key `k`:
clear its `children`, then link it. -/
def rebuildStep (m : List (Str × Task)) (k : Str) : List (Str × Task) :=
  match alookup m k with
  | none => m
  | some t =>
    let cleared := { t with children := ([] : List Str) }
    rebuildLink (aupsert m k cleared) k cleared t.parent_id

/-- The rebuild loop, iterating the map's keys in insertion order while
mutating entries in place. -/
def rebuildLinks (m : List (Str × Task)) : List (Str × Task) :=
  (m.map Prod.fst).foldl rebuildStep m

/-- `TaskManager.load_tasks` from the loaded record dictionaries. -/
def load_tasks (records : List RawRecord) : Manager :=
  ⟨rebuildLinks (buildTemp records)⟩

/-- The full load pipeline: `TaskManager.load_tasks` over `OrgStorage.load`. -/
def loadFromDir (dir : List (Str × Str)) (now : DT) : Except String Manager :=
  match orgLoad dir now with
  | .error e => .error e
  | .ok recs => .ok (load_tasks recs)

/-- `TaskManager.add_task`: build the Task (fresh id and timestamp are the
ambient `uuid4()` / `now()` passed explicitly), insert it, link it into a
resolvable parent's children, persist. -/
def add_task (mgr : Manager) (title : Str) (parent_id : Option Str)
    (filename : Option Str) (freshId : Str) (now : DT) : Manager × Task :=
  let new_task : Task :=
    { title := title, id := freshId, parent_id := parent_id,
      file := filename, created_at := now }
  let m1 := aupsert mgr.tasks freshId new_task
  let m2 :=
    match parent_id with
    | some p =>
      if p ≠ [] then
        match alookup m1 p with
        | some pt => aupsert m1 p { pt with children := pt.children ++ [freshId] }
        | none => m1
      else m1
    | none => m1
  (⟨m2⟩, new_task)

/-- A keyword patch entry for `update_task`.  An entry whose key names a
`Task` field carries the typed value `setattr` stores; `unknown k` stands
for an entry whose key `k` is not an attribute of `Task` (so
`hasattr(task, key)` is false and the entry is skipped). -/
inductive FieldPatch
  | titleF (v : Str)
  | descriptionF (v : Str)
  | authorF (v : Option Str)
  | statusF (v : Status)
  | priorityF (v : Priority)
  | dueDateF (v : Option DT)
  | reminderMinutesF (v : Nat)
  | reminderEnabledF (v : Bool)
  | tagsF (v : List Str)
  | unknown (key : Str)
deriving DecidableEq

/-- One `setattr` application of the update loop. -/
def applyEntry (t : Task) : FieldPatch → Task
  | .titleF v => { t with title := v }
  | .descriptionF v => { t with description := v }
  | .authorF v => { t with author := v }
  | .statusF v => { t with status := v }
  | .priorityF v => { t with priority := v }
  | .dueDateF v => { t with due_date := v }
  | .reminderMinutesF v => { t with reminder_minutes := v }
  | .reminderEnabledF v => { t with reminder_enabled := v }
  | .tagsF v => { t with tags := v }
  | .unknown _ => t

/-- `TaskManager.update_task`: no-op when the id is absent; otherwise apply
each recognized entry in order, then persist. -/
def update_task (mgr : Manager) (task_id : Str) (patch : List FieldPatch) : Manager :=
  match alookup mgr.tasks task_id with
  | none => mgr
  | some t => ⟨aupsert mgr.tasks task_id (patch.foldl applyEntry t)⟩

/-! ## Outline writer (`OrgStorage.save` / `_write_task_node`) -/

/-- `filename.replace(".org", "")` for the `#+TITLE:` header. -/
def replaceDotOrg : Str → Str
  | [] => []
  | c :: cs =>
    if ((".org").data).isPrefixOf (c :: cs) then
      match cs with
      | _ :: _ :: _ :: rest => replaceDotOrg rest
      | _ => []
    else c :: replaceDotOrg cs

/-- `OrgStorage._write_task_node`: one task's heading, planning line,
drawer and body, then its children recursively (sorted by `created_at`),
one level deeper.  `fuel` bounds the recursion depth (the Python recursion
is unbounded; any forest's depth is below the fuel the caller passes). -/
def writeTaskNode (m : List (Str × Task)) : Nat → Task → Nat → Str
  | 0, _, _ => []
  | fuel + 1, t, level =>
    let stars : Str := List.replicate level '*'
    let statusTok : Str := if t.status ≠ .TODO then t.status.value ++ [' '] else []
    let tagStr : Str :=
      if t.tags ≠ [] then ':' :: (List.intercalate [':'] t.tags) ++ [':'] else []
    let heading := stars ++ ' ' :: (statusTok ++ t.title ++ ' ' :: tagStr) ++ ['\n']
    let sched : Str :=
      match t.due_date with
      | some d => (("SCHEDULED: <").data) ++ d.schedFmt ++ ('>' :: '\n' :: [])
      | none => []
    let drawer : Str :=
      ((":PROPERTIES:\n:id: ").data) ++ t.id ++ '\n' ::
      ((match t.parent_id with
        | some p => if p ≠ [] then ((":parent_id: ").data) ++ p ++ ['\n'] else []
        | none => []) ++
       (match t.author with
        | some a => if a ≠ [] then ((":author: ").data) ++ a ++ ['\n'] else []
        | none => []) ++
       ((":status: ").data) ++ t.status.value ++ '\n' ::
       ((":priority: ").data) ++ t.priority.value ++ '\n' ::
       ((":created_at: ").data) ++ t.created_at.iso ++ '\n' ::
       ((":END:\n\n").data))
    let desc : Str :=
      if t.description ≠ [] then trim t.description ++ ('\n' :: '\n' :: []) else []
    let kids :=
      (sortByCreated (t.children.filterMap (alookup m))).foldl
        (fun acc c => acc ++ writeTaskNode m fuel c (level + 1)) []
    heading ++ sched ++ drawer ++ desc ++ kids

/-- Append a task to its file's group (`tasks_by_file`, insertion-ordered). -/
def gupsert (acc : List (Option Str × List Task)) (fn : Option Str) (t : Task) :
    List (Option Str × List Task) :=
  match acc with
  | [] => [(fn, [t])]
  | (f, l) :: r => if f = fn then (f, l ++ [t]) :: r else (f, l) :: gupsert r fn t

def groupByFile (ts : List Task) : List (Option Str × List Task) :=
  ts.foldl (fun a t => gupsert a t.file t) []

/-- One file's full content: the `#+TITLE:` header, then every grouped task
at depth 1 (sorted by `created_at`), each with its subtree. -/
def orgSaveFile (m : List (Str × Task)) (fuel : Nat) (fn : Str) (ts : List Task) : Str :=
  (("#+TITLE: ").data) ++ replaceDotOrg fn ++ '\n' :: '\n' ::
  (sortByCreated ts).foldl (fun acc t => acc ++ writeTaskNode m fuel t 1) []

/-- `TaskManager.save_tasks` + `OrgStorage.save`: pass every task in the
map to the codec, group by `file`, write each group's file.  A task whose
`file` is `None` reaches `os.path.join(directory, None)`, a `TypeError`. -/
def save_tasks (mgr : Manager) : Except String (List (Str × Str)) :=
  let ts := mgr.tasks.map Prod.snd
  let fuel := mgr.tasks.length + 1
  (groupByFile ts).foldl
    (fun acc g =>
      match acc with
      | .error e => .error e
      | .ok outs =>
        match g.1 with
        | none => .error "TypeError: path join with None"
        | some fn => .ok (outs ++ [(fn, orgSaveFile mgr.tasks fuel fn g.2)]))
    (.ok [])

/-- The round trip of claim C1: save the manager's forest, then load the
resulting directory. -/
def roundTrip (mgr : Manager) (now : DT) : Except String Manager :=
  match save_tasks mgr with
  | .error e => .error e
  | .ok dir => loadFromDir dir now

/-! ## Well-formedness for the round-trip claim

The round-trip contract is stated for forests whose textual fields survive
the outline syntax: single-line strip-stable colon-free titles that do not
begin with a status token, strip-stable descriptions containing no
heading-shaped line, tag labels made of tag characters, single-line
strip-stable nonempty ids, calendar-valid timestamps, and `.org` file
names. -/

def noNL (s : Str) : Prop := s.all (fun c => c ≠ '\n') = true

/-- The heading text written after the depth markers and before the
right-trim: status token, title, and (when tags exist) the tag group. -/
def headingBody (t : Task) : Str :=
  (if t.status ≠ .TODO then t.status.value ++ [' '] else []) ++ t.title ++
    (if t.tags ≠ [] then ' ' :: ':' :: (List.intercalate [':'] t.tags) ++ [':'] else [])

/-- Fields of one task that the outline format can carry faithfully. -/
def WFTask (t : Task) : Prop :=
  t.title ≠ [] ∧ trimLeft t.title = t.title ∧ trimRight t.title = t.title ∧
    t.title.all (fun c => c ≠ '\n' ∧ c ≠ ':') = true ∧
  (t.status = .TODO →
    (("TODO ").data).isPrefixOf (headingBody t) = false ∧
    (("DONE ").data).isPrefixOf (headingBody t) = false ∧
    (("WAITING ").data).isPrefixOf (headingBody t) = false) ∧
  trimLeft t.description = t.description ∧ trimRight t.description = t.description ∧
    (splitLines t.description).all (fun l => !isHeadingLine l) = true ∧
  (∀ tg ∈ t.tags, tg ≠ [] ∧ tg.all tagChar = true) ∧
  t.id ≠ [] ∧ trimLeft t.id = t.id ∧ trimRight t.id = t.id ∧ noNL t.id ∧
  (∀ a, t.author = some a → noNL a) ∧
  (∀ d, t.due_date = some d → d.Valid) ∧
  t.created_at.Valid ∧
  (∃ f, t.file = some f ∧ ((".org").data).isSuffixOf f = true ∧ noNL f)

/-- The manager invariant of a well-formed task forest: distinct ids keying
their own tasks, well-formed fields, resolvable truthy parents, and
`children` exactly the inverse of `parent_id`. -/
def InvState (m : List (Str × Task)) : Prop :=
  (m.map Prod.fst).Nodup ∧
  (∀ kv ∈ m, kv.2.id = kv.1 ∧ WFTask kv.2) ∧
  (∀ kv ∈ m, ∀ p, kv.2.parent_id = some p → p ≠ [] ∧ (alookup m p).isSome = true) ∧
  (∀ kv ∈ m, kv.2.children.Nodup ∧
    (∀ c, c ∈ kv.2.children ↔ ∃ kv2 ∈ m, kv2.1 = c ∧ kv2.2.parent_id = some kv.1))

/-- The record `OrgStorage.load` recovers for a task saved into file `fn`. -/
def recordOf (fn : Str) (t : Task) : RawRecord :=
  { id := t.id, title := t.title, description := t.description,
    author :=
      match t.author with
      | some a => if a ≠ [] then some (trim a) else none
      | none => none,
    status := t.status, priority := t.priority,
    due_date := t.due_date.map DT.truncMin,
    tags := t.tags,
    parent_id :=
      match t.parent_id with
      | some p => if p ≠ [] then some p else none
      | none => none,
    created_at := t.created_at, file := fn }

/-- The drawer key/value pairs the parser recovers for a saved task. -/
def propsOf (t : Task) : List (Str × Str) :=
  ((("id").data, t.id)) ::
  ((match t.parent_id with
    | some p => if p ≠ [] then [((("parent_id").data, p))] else []
    | none => []) ++
   (match t.author with
    | some a => if a ≠ [] then [((("author").data, trim a))] else []
    | none => []) ++
   [((("status").data, t.status.value)),
    ((("priority").data, t.priority.value)),
    ((("created_at").data, t.created_at.iso))])

/-- The node the spec-modelled parser recovers for a saved task. -/
def orgNodeOf (t : Task) : OrgNode :=
  { heading := t.title, tags := t.tags,
    scheduled := t.due_date.map DT.truncMin,
    properties := propsOf t, body := t.description }

/-- The written trailing tag group of a task with tags. -/
def tagStrOf (t : Task) : Str := ':' :: (List.intercalate [':'] t.tags) ++ [':']

/-- The written heading line of a task at a depth. -/
def headingLineOf (t : Task) (level : Nat) : Str :=
  List.replicate level '*' ++ ' ' ::
    ((if t.status ≠ .TODO then t.status.value ++ [' '] else []) ++ t.title ++ ' ' ::
      (if t.tags ≠ [] then ':' :: (List.intercalate [':'] t.tags) ++ [':'] else []))

/-- The lines of one task's block (heading, planning line, drawer, body),
children not included. -/
def nodeLines (t : Task) (level : Nat) : List Str :=
  headingLineOf t level ::
  ((match t.due_date with
    | some d => [(("SCHEDULED: <").data) ++ d.schedFmt ++ ['>']]
    | none => []) ++
   ([((":PROPERTIES:").data), ((":id: ").data) ++ t.id] ++
    (match t.parent_id with
     | some p => if p ≠ [] then [((":parent_id: ").data) ++ p] else []
     | none => []) ++
    (match t.author with
     | some a => if a ≠ [] then [((":author: ").data) ++ a] else []
     | none => []) ++
    [((":status: ").data) ++ t.status.value,
     ((":priority: ").data) ++ t.priority.value,
     ((":created_at: ").data) ++ t.created_at.iso,
     ((":END:").data), []]) ++
   (if t.description ≠ [] then splitLines (trim t.description) ++ [[]] else []))

/-- The (task, depth) blocks `_write_task_node` emits, pre-order. -/
def blocksOf (m : List (Str × Task)) : Nat → Task → Nat → List (Task × Nat)
  | 0, _, _ => []
  | fuel + 1, t, level =>
    (t, level) ::
      (sortByCreated (t.children.filterMap (alookup m))).foldl
        (fun acc c => acc ++ blocksOf m fuel c (level + 1)) []

/-- The planning lines of one block (empty when no due date). -/
def schedLinesOf (t : Task) : List Str :=
  match t.due_date with
  | some d => [(("SCHEDULED: <").data) ++ d.schedFmt ++ ['>']]
  | none => []

/-- The written drawer lines between `:PROPERTIES:` and `:END:`. -/
def drawerPropLines (t : Task) : List Str :=
  (((":id: ").data) ++ t.id) ::
  ((match t.parent_id with
    | some p => if p ≠ [] then [((":parent_id: ").data) ++ p] else []
    | none => []) ++
   (match t.author with
    | some a => if a ≠ [] then [((":author: ").data) ++ a] else []
    | none => []) ++
   [((":status: ").data) ++ t.status.value,
    ((":priority: ").data) ++ t.priority.value,
    ((":created_at: ").data) ++ t.created_at.iso])

/-- The written body lines after the drawer. -/
def descLinesOf (t : Task) : List Str :=
  if t.description ≠ [] then splitLines (trim t.description) ++ [[]] else []

/-- The heading suffix written after the title. -/
def titleSuffix (t : Task) : Str := if t.tags = [] then [] else ' ' :: tagStrOf t

/-- Concatenation of a list-valued map (`foldl (· ++ f ·)` flattened). -/
def catMap {α β : Type} (f : α → List β) : List α → List β
  | [] => []
  | a :: r => f a ++ catMap f r

/-- All lines of a pre-order block list. -/
def linesOfBlocks (bs : List (Task × Nat)) : List Str :=
  catMap (fun b => nodeLines b.1 b.2) bs

/-- The lines of one saved file: header, blank, then every depth-1 task's
subtree blocks. -/
def fileLines (m : List (Str × Task)) (fuel : Nat) (fn : Str) (ts : List Task) :
    List Str :=
  ((("#+TITLE: ").data) ++ replaceDotOrg fn) :: [] ::
    linesOfBlocks (catMap (fun t => blocksOf m fuel t 1) (sortByCreated ts))

/-- The lines of one block after its heading line. -/
def nodeTail (t : Task) : List Str :=
  schedLinesOf t
    ++ (((":PROPERTIES:").data) :: (drawerPropLines t ++ [((":END:").data), []]))
    ++ descLinesOf t

/-- One block's chunk: heading line and following lines. -/
def blockChunk (b : Task × Nat) : Str × List Str :=
  (headingLineOf b.1 b.2, nodeTail b.1)

/-- All lines of a chunk list. -/
def flattenChunks (bs : List (Str × List Str)) : List Str :=
  catMap (fun b => b.1 :: b.2) bs

/-- The chunk list with trailing lines `ext` attached to the last chunk. -/
def chunksExt : List (Str × List Str) → List Str → List (Str × List Str)
  | [], _ => []
  | [b], ext => [(b.1, b.2 ++ ext)]
  | b :: b2 :: r, ext => b :: chunksExt (b2 :: r) ext

/-- A task the writer serializes faithfully: well-formed fields and a
strip-stable newline-free parent key. -/
def SavedTaskOK (t : Task) : Prop :=
  WFTask t ∧ ∀ p, t.parent_id = some p → trim p = p ∧ noNL p

/-- The record list `OrgStorage.load` recovers from a saved manager's
directory: per file group, the pre-order blocks' records. -/
def savedRecords (m : List (Str × Task)) : List RawRecord :=
  catMap
    (fun g => (catMap (fun t => blocksOf m (m.length + 1) t 1)
        (sortByCreated g.2)).map (fun b => recordOf ((g.1).getD []) b.1))
    (groupByFile (m.map Prod.snd))

/-- Every stored parent pointer is truthy and resolves in the map, so the
rebuild loop never nulls a `parent_id`. -/
def ResolvedParents (m : List (Str × Task)) : Prop :=
  ∀ k t, alookup m k = some t → ∀ p, t.parent_id = some p →
    p ≠ [] ∧ (alookup m p).isSome = true

/-- Agreement on every field the round-trip claim compares (due dates to
the minute) plus the fields the rebuild loop must not disturb. -/
def sameCore (a b : Task) : Prop :=
  a.title = b.title ∧ a.status = b.status ∧ a.priority = b.priority ∧
  a.due_date = b.due_date ∧ a.description = b.description ∧
  a.tags = b.tags ∧ a.parent_id = b.parent_id

/-- The decimal digit characters. -/
def decDigits : Str := ['0', '1', '2', '3', '4', '5', '6', '7', '8', '9']

/-- The action `parse_flexible_date` takes for a matched relative pattern,
by unit character. -/
def relAction (ref : DT) (v : Nat) (u : Char) : DT :=
  if u = 'h' then ref.addHours v
  else if u = 'm' then ref.addMinutes v
  else ref.addDays v

/-! ## Concrete fixtures for the reminder claims -/

/-- A task due 2024-01-01 12:00 with the default `reminder_minutes = 30`. -/
def c2Task : Task :=
  { title := "write report".data, id := "t1".data,
    due_date := some ⟨2024, 1, 1, 12, 0, 0, 0⟩,
    created_at := ⟨2024, 1, 1, 0, 0, 0, 0⟩ }

def c2Mgr : Manager := ⟨[("t1".data, c2Task)]⟩

/-- Ticks at T−31min, T−29min, T, T+1min for T = 12:00, plus a repeat of the
tick at T (the claim's "even when a tick repeats at the same instant"). -/
def c2Ticks : List DT :=
  [⟨2024, 1, 1, 11, 29, 0, 0⟩, ⟨2024, 1, 1, 11, 31, 0, 0⟩,
   ⟨2024, 1, 1, 12, 0, 0, 0⟩, ⟨2024, 1, 1, 12, 1, 0, 0⟩,
   ⟨2024, 1, 1, 12, 0, 0, 0⟩]

/-- A task with a non-default reminder lead: `reminder_minutes = 10`. -/
def c3Task : Task :=
  { title := "call".data, id := "t3".data,
    reminder_minutes := 10,
    due_date := some ⟨2024, 1, 1, 12, 0, 0, 0⟩,
    created_at := ⟨2024, 1, 1, 0, 0, 0, 0⟩ }

def c3Now : DT := ⟨2024, 1, 1, 11, 0, 0, 0⟩

/-- The second reminder generated for `c3Task` at 11:00 (the BEFORE_DUE one). -/
def c3Before : ReminderConfig :=
  (generateRemindersForTask c3Task c3Now).getD 1
    { task_id := [], reminder_type := .DUE_DATE,
      trigger_time := ⟨1, 1, 1, 0, 0, 0, 0⟩, message := [] }

/-- The spec's reference instant for the date-parsing examples. -/
def c5Ref : DT := ⟨2024, 1, 1, 10, 0, 0, 0⟩

/-- A task with `reminder_enabled = False` and a due date. -/
def c4Task : Task :=
  { title := "quiet".data, id := "t4".data,
    reminder_enabled := false,
    due_date := some ⟨2024, 1, 1, 12, 0, 0, 0⟩,
    created_at := ⟨2024, 1, 1, 0, 0, 0, 0⟩ }

def c4Mgr : Manager := ⟨[("t4".data, c4Task)]⟩

/-! ## Concrete fixtures for the codec and manager claims -/

def cLoadNow : DT := ⟨2025, 1, 1, 0, 0, 0, 0⟩

/-- Project the successful result of a directory load. -/
def loadOk (dir : List (Str × Str)) (now : DT) : Option Manager :=
  match loadFromDir dir now with
  | .ok m => some m
  | .error _ => none

/-- Project the error of a failed directory load. -/
def loadErr (dir : List (Str × Str)) (now : DT) : Option String :=
  match loadFromDir dir now with
  | .ok _ => none
  | .error e => some e

/-- Project a successfully built record (fallback record otherwise). -/
def okRecordOf (e : Except String RawRecord) : RawRecord :=
  match e with
  | .ok r => r
  | .error _ =>
    { id := [], title := [], description := [], author := none,
      status := .TODO, priority := .NONE, due_date := none,
      tags := [], parent_id := none, created_at := ⟨1, 1, 1, 0, 0, 0, 0⟩, file := [] }

/-- A file whose single record has no `:id:` property. -/
def c6Dir : List (Str × Str) :=
  [(("f.org").data,
    ("#+TITLE: x\n\n* DONE orphan :a:\n:PROPERTIES:\n:status: DONE\n:priority: B\n:END:\n\nsome body\n").data)]

/-- A well-formed record followed by a record with an unrecognized status
token, in one otherwise-valid file. -/
def c7Dir : List (Str × Str) :=
  [(("f.org").data,
    ("#+TITLE: x\n\n* good\n:PROPERTIES:\n:id: g1\n:status: TODO\n:priority: D\n:END:\n\n* bad\n:PROPERTIES:\n:id: b1\n:status: BOGUS\n:priority: D\n:END:\n").data)]

/-- The same first record alone (loads fine without the malformed one). -/
def c7GoodDir : List (Str × Str) :=
  [(("f.org").data,
    ("#+TITLE: x\n\n* good\n:PROPERTIES:\n:id: g1\n:status: TODO\n:priority: D\n:END:\n").data)]

/-- A directory in which the child's record is scanned before its parent's:
`a.org` holds the child (parent_id = c9p), `b.org` holds the parent. -/
def c9Dir : List (Str × Str) :=
  [(("a.org").data,
    ("#+TITLE: a\n\n* child\n:PROPERTIES:\n:id: c9c\n:parent_id: c9p\n:status: TODO\n:priority: D\n:created_at: 2024-01-02T00:00:00\n:END:\n").data),
   (("b.org").data,
    ("#+TITLE: b\n\n* parent\n:PROPERTIES:\n:id: c9p\n:status: TODO\n:priority: D\n:created_at: 2024-01-01T00:00:00\n:END:\n").data)]

/-- A one-task manager for the update counterexample. -/
def c8Task : Task :=
  { title := ("old").data, id := ("t8").data,
    created_at := ⟨2024, 1, 1, 0, 0, 0, 0⟩, file := some (("tasks.org").data) }

def c8Mgr : Manager := ⟨[(("t8").data, c8Task)]⟩

/-- The single node of the `c6Dir` fixture. -/
def c6Node : OrgNode :=
  (parseOrgFile (c6Dir.headD ([], [])).2).headD
    { heading := [], tags := [], scheduled := none, properties := [], body := [] }

/-- Project the successful result of a round trip. -/
def rtOk (mgr : Manager) (now : DT) : Option Manager :=
  match roundTrip mgr now with
  | .ok m => some m
  | .error _ => none

/-- A fully well-formed one-task manager for the round-trip witness. -/
def c1WTask : Task :=
  { title := ("Alpha").data, id := ("a1").data,
    description := ("notes").data, author := none,
    status := .TODO, priority := .NONE, due_date := none,
    tags := [], parent_id := none,
    created_at := ⟨2024, 1, 1, 10, 0, 0, 0⟩,
    file := some (("tasks.org").data) }

def c1WMgr : Manager := ⟨[((("a1").data), c1WTask)]⟩

/-- A task whose description starts with a space: the writer strips it. -/
def c1BadTask : Task :=
  { title := ("T").data, id := ("b1").data,
    description := (" x").data, author := none,
    status := .TODO, priority := .NONE, due_date := none,
    tags := [], parent_id := none,
    created_at := ⟨2024, 1, 1, 10, 0, 0, 0⟩,
    file := some (("tasks.org").data) }

def c1BadMgr : Manager := ⟨[((("b1").data), c1BadTask)]⟩

/-- A parent task for the double-serialization claim. -/
def c10P : Task :=
  { title := ("Parent").data, id := ("p1").data,
    description := [], author := none,
    status := .TODO, priority := .NONE, due_date := none,
    tags := [], children := [(("c1").data)], parent_id := none,
    created_at := ⟨2024, 1, 1, 9, 0, 0, 0⟩,
    file := some (("tasks.org").data) }

/-- Its child, stored in the same file. -/
def c10C : Task :=
  { title := ("Child").data, id := ("c1").data,
    description := [], author := none,
    status := .TODO, priority := .NONE, due_date := none,
    tags := [], children := [], parent_id := some (("p1").data),
    created_at := ⟨2024, 1, 1, 10, 0, 0, 0⟩,
    file := some (("tasks.org").data) }

def c10Mgr : Manager :=
  ⟨[((("p1").data), c10P), ((("c1").data), c10C)]⟩

/-! ## Theorems -/

/-- Claim C2: the claim demands exactly 3 distinct reminder events from the
tick sequence T−31, T−29, T, T+1 for a non-DONE task due at T with
`reminder_minutes = 30`.  Evaluating the scheduler embedding at that input
(with the T tick even repeated) emits exactly one event, the DUE_DATE one:
`BEFORE_DUE` is generated only while `now ≤ due−30min` yet emitted only once
`now ≥ due−30min`, so it can fire only at the exact instant `due−30min`
(and OVERDUE likewise only at exactly `due+30min`). -/
theorem c2_tick_sequence_emits_single_due_event :
    ((runTicks c2Mgr [] c2Ticks).2.map (fun e => e.reminder_type))
      = [ReminderType.DUE_DATE] := by decide

/-- Claim C3, counterexample: for a task with `reminder_minutes = 10` due at
12:00, checked at 11:00, the generated BEFORE_DUE reminder's trigger time is
11:30 (`due − 30min`, hard-coded), not `due − reminder_minutes` = 11:50. -/
theorem c3_before_due_ignores_reminder_minutes :
    (generateRemindersForTask c3Task c3Now).map
        (fun r => (r.reminder_type, r.trigger_time))
      = [(ReminderType.DUE_DATE, ⟨2024, 1, 1, 12, 0, 0, 0⟩),
         (ReminderType.BEFORE_DUE, ⟨2024, 1, 1, 11, 30, 0, 0⟩)]
    ∧ DT.addMinutes ⟨2024, 1, 1, 12, 0, 0, 0⟩ (-(c3Task.reminder_minutes : Int))
        = ⟨2024, 1, 1, 11, 50, 0, 0⟩
    ∧ (⟨2024, 1, 1, 11, 30, 0, 0⟩ : DT) ≠ ⟨2024, 1, 1, 11, 50, 0, 0⟩ := by decide

/-- Claim C3 as amended: every reminder the scheduler generates for a task
with a due date has its trigger at `due − 30min` (BEFORE_DUE, a fixed lead
ignoring the task's `reminder_minutes` field), at `due` (DUE_DATE), or at
`due + 30min` (OVERDUE). -/
theorem c3_trigger_times (t : Task) (now d : DT) (r : ReminderConfig)
    (hd : t.due_date = some d) (hr : r ∈ generateRemindersForTask t now) :
    (r.reminder_type = .BEFORE_DUE → r.trigger_time = d.addMinutes (-30)) ∧
    (r.reminder_type = .DUE_DATE → r.trigger_time = d) ∧
    (r.reminder_type = .OVERDUE → r.trigger_time = d.addMinutes 30) := by
  unfold generateRemindersForTask at hr
  rw [hd] at hr
  simp only [List.mem_append] at hr
  rcases hr with (hr | hr) | hr <;> split at hr <;> simp_all

/-- Witness for `c3_trigger_times` at the concrete BEFORE_DUE reminder of
`c3Task`. -/
theorem c3_trigger_times_witness :
    c3Before.trigger_time = DT.addMinutes ⟨2024, 1, 1, 12, 0, 0, 0⟩ (-30) :=
  (c3_trigger_times c3Task c3Now ⟨2024, 1, 1, 12, 0, 0, 0⟩ c3Before rfl
    (by decide)).1 (by decide)

/-- Claim C4: the claim says a task with `reminder_enabled = false` never
produces any scheduler event.  Evaluating the embedding: a single tick at the
due instant of such a task emits a DUE_DATE event — the scheduler never reads
the task's `reminder_enabled` field. -/
theorem c4_disabled_task_still_emits :
    ((checkAllReminders c4Mgr [] ⟨2024, 1, 1, 12, 0, 0, 0⟩).2.map
        (fun e => e.reminder_type))
      = [ReminderType.DUE_DATE] := by decide

/-! ### Helper lemmas for the date-parser claim -/

theorem digitChar_spec {c : Char} (h : c ∈ decDigits) :
    c.isDigit = true ∧ c.toLower = c ∧ c.isWhitespace = false := by
  have h' : c = '0' ∨ c = '1' ∨ c = '2' ∨ c = '3' ∨ c = '4' ∨ c = '5' ∨ c = '6'
      ∨ c = '7' ∨ c = '8' ∨ c = '9' := by
    simpa [decDigits] using h
  rcases h' with rfl | rfl | rfl | rfl | rfl | rfl | rfl | rfl | rfl | rfl <;>
    exact ⟨by decide, by decide, by decide⟩

theorem cons_ne_of_head {a b : Char} {xs ys : Str} (h : a ≠ b) :
    (a :: xs) ≠ (b :: ys) := by
  intro he
  injection he with h1 _
  exact h h1

theorem takeWhile_run (p : Char → Bool) (ds : Str) (hd : ∀ c ∈ ds, p c = true)
    (u : Char) (hu : p u = false) (r : Str) :
    ((ds ++ u :: r).takeWhile p = ds) ∧ ((ds ++ u :: r).dropWhile p = u :: r) := by
  induction ds with
  | nil => simp [List.takeWhile_cons, List.dropWhile_cons, hu]
  | cons a t ih =>
    have ha := hd a (by simp)
    have iht := ih (fun c hc => hd c (by simp [hc]))
    simp [List.takeWhile_cons, List.dropWhile_cons, ha, iht.1, iht.2]

theorem trimRight_append (a b : Str) :
    trimRight (a ++ b)
      = if trimRight b = [] then trimRight a else a ++ trimRight b := by
  unfold trimRight
  rw [List.reverse_append, List.dropWhile_append]
  by_cases h : (List.dropWhile (fun c => c.isWhitespace) b.reverse).isEmpty = true
  · rw [if_pos h]
    have : (List.dropWhile (fun c => c.isWhitespace) b.reverse).reverse = [] := by
      rw [List.isEmpty_iff] at h
      simp [h]
    rw [if_pos this]
  · rw [if_neg h]
    have hne : (List.dropWhile (fun c => c.isWhitespace) b.reverse).reverse ≠ [] := by
      rw [List.isEmpty_iff] at h
      simp [h]
    rw [if_neg hne, List.reverse_append, List.reverse_reverse]

theorem trimRight_last_not_ws (xs : Str) (u : Char) (hu : u.isWhitespace = false) :
    trimRight (xs ++ [u]) = xs ++ [u] := by
  unfold trimRight
  rw [List.reverse_append]
  simp [List.dropWhile_cons, hu]

theorem matchRel_cons2 (c1 c2 : Char) (rest : Str) :
    matchRel (c1 :: c2 :: rest)
      = if c1 = 'i' ∧ c2 = 'n' then matchRelBody rest else none := rfl

theorem unitOf_cons (c : Char) (r : Str) :
    unitOf (c :: r) = if c = 'h' ∨ c = 'm' ∨ c = 'd' then some c else none := rfl

theorem matchRel_run (ds r : Str) (u : Char) (hds : ds ≠ [])
    (hd : ∀ c ∈ ds, c ∈ decDigits) (hu : u = 'h' ∨ u = 'm' ∨ u = 'd') :
    matchRel ('i' :: 'n' :: ' ' :: (ds ++ u :: r)) = some (digitsVal ds, u) := by
  have hdig : ∀ c ∈ ds, c.isDigit = true := fun c hc => (digitChar_spec (hd c hc)).1
  have hudig : u.isDigit = false := by rcases hu with h | h | h <;> subst h <;> decide
  have huws : isWS u = false := by rcases hu with h | h | h <;> subst h <;> decide
  obtain ⟨c0, t0, rfl⟩ : ∃ c0 t0, ds = c0 :: t0 := by
    cases ds with
    | nil => exact absurd rfl hds
    | cons a t => exact ⟨a, t, rfl⟩
  have hc0 := digitChar_spec (hd c0 (by simp))
  have hc0ws : isWS c0 = false := by simp [isWS, hc0.2.2]
  have hrun := takeWhile_run Char.isDigit (c0 :: t0) hdig u hudig r
  have e1 : List.takeWhile isWS (' ' :: c0 :: (t0 ++ u :: r)) = [' '] := by
    simp [List.takeWhile_cons, show isWS ' ' = true from rfl, hc0ws]
  have e2 : List.dropWhile isWS (' ' :: c0 :: (t0 ++ u :: r)) = c0 :: (t0 ++ u :: r) := by
    simp [List.dropWhile_cons, show isWS ' ' = true from rfl, hc0ws]
  have hrun1 : List.takeWhile Char.isDigit (c0 :: (t0 ++ u :: r)) = c0 :: t0 := by
    have h1 := hrun.1
    rwa [List.cons_append] at h1
  have hrun2 : List.dropWhile Char.isDigit (c0 :: (t0 ++ u :: r)) = u :: r := by
    have h2 := hrun.2
    rwa [List.cons_append] at h2
  have e3 : List.dropWhile isWS (u :: r) = u :: r := by
    simp [List.dropWhile_cons, huws]
  rw [matchRel_cons2, if_pos ⟨rfl, rfl⟩]
  unfold matchRelBody
  simp only [List.cons_append, e1, e2, hrun1, hrun2, e3, List.isEmpty_cons,
    Bool.false_eq_true, if_false, unitOf_cons, if_pos hu]

theorem map_toLower_rel (ds rest : Str) (u : Char)
    (hd : ∀ c ∈ ds, c ∈ decDigits) (hu : u = 'h' ∨ u = 'm' ∨ u = 'd') :
    List.map Char.toLower ('i' :: 'n' :: ' ' :: (ds ++ u :: rest))
      = 'i' :: 'n' :: ' ' :: (ds ++ u :: List.map Char.toLower rest) := by
  have hds : List.map Char.toLower ds = ds := by
    have h2 : List.map Char.toLower ds = List.map id ds :=
      List.map_congr_left (fun c hc => (digitChar_spec (hd c hc)).2.1)
    rw [h2, List.map_id]
  have hulo : u.toLower = u := by rcases hu with h | h | h <;> subst h <;> decide
  simp [List.map_append, hds, hulo]

theorem parse_rel_unit (ref : DT) (ds rest : Str) (u : Char) (hds : ds ≠ [])
    (hd : ∀ c ∈ ds, c ∈ decDigits) (hu : u = 'h' ∨ u = 'm' ∨ u = 'd') :
    parse_flexible_date ref ('i' :: 'n' :: ' ' :: (ds ++ u :: rest))
      = some (relAction ref (digitsVal ds) u) := by
  have huws : u.isWhitespace = false := by rcases hu with h | h | h <;> subst h <;> rfl
  unfold parse_flexible_date
  rw [map_toLower_rel ds rest u hd hu]
  set rest' := List.map Char.toLower rest with hrst
  have htl : trimLeft ('i' :: 'n' :: ' ' :: (ds ++ u :: rest'))
      = 'i' :: 'n' :: ' ' :: (ds ++ u :: rest') := by
    simp [trimLeft, List.dropWhile_cons]
  have hassoc : 'i' :: 'n' :: ' ' :: (ds ++ u :: rest')
      = (('i' :: 'n' :: ' ' :: ds) ++ [u]) ++ rest' := by simp
  obtain ⟨r', hr'⟩ : ∃ r', trim ('i' :: 'n' :: ' ' :: (ds ++ u :: rest'))
      = 'i' :: 'n' :: ' ' :: (ds ++ u :: r') := by
    unfold trim
    rw [htl, hassoc, trimRight_append]
    by_cases hb : trimRight rest' = []
    · rw [if_pos hb, trimRight_last_not_ws _ u huws]
      exact ⟨[], by simp⟩
    · rw [if_neg hb]
      exact ⟨trimRight rest', by simp⟩
  rw [hr']
  rw [if_neg (cons_ne_of_head (by decide))]
  rw [if_neg (cons_ne_of_head (by decide))]
  rw [matchRel_run ds r' u hds hd hu]
  rcases hu with h | h | h <;> subst h <;> simp [relAction]

/-- Claim C5, counterexample: the claim says any input not of the five
listed forms yields none.  But the relative pattern is matched as a prefix
with a single-character unit: `"in 5 months"` parses as five *minutes*
(reference 2024-01-01T10:00 ↦ 10:05), and the absolute format accepts
unpadded fields: `"2024-3-5"` parses as 2024-03-05T09:00. -/
theorem c5_parse_accepts_other_inputs :
    parse_flexible_date c5Ref (("in 5 months").data) = some ⟨2024, 1, 1, 10, 5, 0, 0⟩
    ∧ parse_flexible_date c5Ref (("2024-3-5").data) = some ⟨2024, 3, 5, 9, 0, 0, 0⟩ := by
  constructor <;> decide

/-- Claim C5 as amended: given a fixed reference time, "tomorrow" yields the
next day at 09:00; "today" yields the reference date at 23:59; an input
beginning `in <digits><u>` for a unit character u ∈ {h,m,d} (after at least
one space, with anything permitted after the unit) yields reference + N
hours/minutes/days; the absolute forms parse as in the spec's examples; and
an input matching none of the recognized patterns (after lowercasing and
stripping) yields none — the parser is a total function, never an
exception. -/
theorem c5_parse_flexible_characterization (ref : DT) :
    parse_flexible_date ref (("tomorrow").data) = some ((ref.addDays 1).replaceHM 9 0)
    ∧ parse_flexible_date ref (("today").data) = some (ref.replaceHM 23 59)
    ∧ (∀ ds rest : Str, ∀ u : Char, ds ≠ [] → (∀ c ∈ ds, c ∈ decDigits) →
        (u = 'h' ∨ u = 'm' ∨ u = 'd') →
        parse_flexible_date ref ('i' :: 'n' :: ' ' :: (ds ++ u :: rest))
          = some (relAction ref (digitsVal ds) u))
    ∧ parse_flexible_date ref (("2024-03-05 14:30").data) = some ⟨2024, 3, 5, 14, 30, 0, 0⟩
    ∧ parse_flexible_date ref (("2024-03-05").data) = some ⟨2024, 3, 5, 9, 0, 0, 0⟩
    ∧ parse_flexible_date ref (("not a date").data) = none
    ∧ (∀ s : Str, parse_flexible_date ref s ≠ none →
        trim (s.map Char.toLower) = ("tomorrow").data
        ∨ trim (s.map Char.toLower) = ("today").data
        ∨ matchRel (trim (s.map Char.toLower)) ≠ none
        ∨ parseYMDHM (trim (s.map Char.toLower)) ≠ none
        ∨ parseYMD (trim (s.map Char.toLower)) ≠ none) := by
  refine ⟨rfl, rfl, ?_, rfl, rfl, rfl, ?_⟩
  · intro ds rest u hds hd hu
    exact parse_rel_unit ref ds rest u hds hd hu
  · intro s h
    unfold parse_flexible_date at h
    by_cases h1 : trim (s.map Char.toLower) = ("tomorrow").data
    · exact Or.inl h1
    rw [if_neg h1] at h
    by_cases h2 : trim (s.map Char.toLower) = ("today").data
    · exact Or.inr (Or.inl h2)
    rw [if_neg h2] at h
    cases hm : matchRel (trim (s.map Char.toLower)) with
    | some vu => exact Or.inr (Or.inr (Or.inl (by simp [hm])))
    | none =>
      rw [hm] at h
      cases hk : parseYMDHM (trim (s.map Char.toLower)) with
      | some d => exact Or.inr (Or.inr (Or.inr (Or.inl (by simp [hk]))))
      | none =>
        rw [hk] at h
        cases hj : parseYMD (trim (s.map Char.toLower)) with
        | some d => exact Or.inr (Or.inr (Or.inr (Or.inr (by simp [hj]))))
        | none =>
          rw [hj] at h
          exact absurd rfl h

/-- Witness for `c5_parse_flexible_characterization`: the relative clause at
the concrete input `"in 5 months"` (digit run `"5"`, unit `'m'`). -/
theorem c5_parse_flexible_characterization_witness :
    parse_flexible_date c5Ref ('i' :: 'n' :: ' ' :: (['5'] ++ 'm' :: (" months").data))
      = some (relAction c5Ref (digitsVal ['5']) 'm') :=
  (c5_parse_flexible_characterization c5Ref).2.2.1 ['5'] ((" months").data) 'm'
    (by decide) (by decide) (Or.inr (Or.inl rfl))

/-! ### Map lemmas shared across the codec/manager claims -/

theorem alookup_aupsert (m : List (Str × Task)) (k : Str) (v : Task) (k' : Str) :
    alookup (aupsert m k v) k' = if k = k' then some v else alookup m k' := by
  induction m with
  | nil =>
    by_cases h : k = k' <;> simp [aupsert, alookup, h]
  | cons kv r ih =>
    obtain ⟨k0, v0⟩ := kv
    by_cases h0 : k0 = k
    · subst h0
      by_cases h : k0 = k' <;> simp [aupsert, alookup, h]
    · by_cases h : k0 = k'
      · subst h
        have hkk : k ≠ k0 := fun he => h0 he.symm
        simp [aupsert, alookup, h0, hkk, ih]
      · simp [aupsert, alookup, h0, h, ih]

theorem alookup_isSome_aupsert (m : List (Str × Task)) (k : Str) (v : Task) (k' : Str) :
    (alookup (aupsert m k v) k').isSome = ((k = k') || (alookup m k').isSome) := by
  rw [alookup_aupsert]
  by_cases h : k = k' <;> simp [h]

theorem rebuildLink_preserves (m1 : List (Str × Task)) (k : Str) (cl : Task)
    (po : Option Str) (k' : Str) (hk : (alookup m1 k).isSome = true) :
    (alookup (rebuildLink m1 k cl po) k').isSome = (alookup m1 k').isSome := by
  cases po with
  | none =>
    simp only [rebuildLink]
    rw [alookup_isSome_aupsert]
    by_cases h : k = k'
    · subst h
      simp [hk]
    · simp [h]
  | some p =>
    simp only [rebuildLink]
    by_cases hpe : p ≠ ([] : Str)
    · rw [if_pos hpe]
      cases hpl : alookup m1 p with
      | none =>
        rw [alookup_isSome_aupsert]
        by_cases h : k = k'
        · subst h
          simp [hk]
        · simp [h]
      | some pt =>
        rw [alookup_isSome_aupsert]
        by_cases h : p = k'
        · subst h
          simp [hpl]
        · simp [h]
    · rw [if_neg hpe]
      rw [alookup_isSome_aupsert]
      by_cases h : k = k'
      · subst h
        simp [hk]
      · simp [h]

theorem rebuildStep_preserves (m : List (Str × Task)) (j k : Str) :
    (alookup (rebuildStep m j) k).isSome = (alookup m k).isSome := by
  unfold rebuildStep
  cases hj : alookup m j with
  | none => rfl
  | some t =>
    rw [rebuildLink_preserves _ _ _ _ _
      (by rw [alookup_isSome_aupsert]; simp)]
    rw [alookup_isSome_aupsert]
    by_cases h : j = k
    · subst h
      simp [hj]
    · simp [h]

theorem rebuild_foldl_preserves (js : List Str) (m : List (Str × Task)) (k : Str) :
    (alookup (js.foldl rebuildStep m) k).isSome = (alookup m k).isSome := by
  induction js generalizing m with
  | nil => rfl
  | cons j r ih => rw [List.foldl_cons, ih, rebuildStep_preserves]

theorem rebuildLinks_preserves (m : List (Str × Task)) (k : Str) :
    (alookup (rebuildLinks m) k).isSome = (alookup m k).isSome :=
  rebuild_foldl_preserves (m.map Prod.fst) m k

theorem buildTemp_mem (records : List RawRecord) (r : RawRecord) (h : r ∈ records) :
    (alookup (buildTemp records) r.id).isSome = true := by
  unfold buildTemp
  have key : ∀ (m : List (Str × Task)) (rs : List RawRecord),
      r ∈ rs ∨ (alookup m r.id).isSome = true →
      (alookup (rs.foldl (fun m r2 => aupsert m r2.id (taskOfRecord r2)) m) r.id).isSome
        = true := by
    intro m rs
    induction rs generalizing m with
    | nil =>
      intro h2
      rcases h2 with h2 | h2
      · exact absurd h2 (List.not_mem_nil r)
      · exact h2
    | cons r0 rest ih =>
      intro h2
      rw [List.foldl_cons]
      rcases h2 with h2 | h2
      · rcases List.mem_cons.mp h2 with h3 | h3
        · subst h3
          exact ih _ (Or.inr (by rw [alookup_isSome_aupsert]; simp))
        · exact ih _ (Or.inl h3)
      · exact ih _ (Or.inr (by rw [alookup_isSome_aupsert]; simp [h2]))
  exact key [] records (Or.inl h)

/-! ### Claims C6–C9 -/

/-- Claim C6, counterexample: the claim says a record whose metadata lacks
`id` is dropped.  Loading a directory whose only record has no `:id:`
property yields a task map containing that record under the placeholder id
`"N/A"` (`properties.get("id", "N/A")`) — the record is kept, not dropped. -/
theorem c6_record_without_id_loads_as_placeholder :
    (loadOk c6Dir cLoadNow).map
        (fun m => (alookup m.tasks (("N/A").data)).map (fun t => t.title))
      = some (some (("orphan").data)) := by decide

/-- Claim C6 as amended: a record parsed with no `id` key is not dropped —
it receives the placeholder id `"N/A"` and (when the load succeeds) appears
in the manager's map under that key. -/
theorem c6_missing_id_gets_placeholder (fn : Str) (now : DT) (n : OrgNode)
    (r : RawRecord) (records : List RawRecord)
    (hid : plookup n.properties (("id").data) = none)
    (hr : recordOfNode fn now n = .ok r) :
    r.id = (("N/A").data)
    ∧ (r ∈ records → (alookup (load_tasks records).tasks (("N/A").data)).isSome = true) := by
  have hrid : r.id = (("N/A").data) := by
    simp only [recordOfNode] at hr
    cases hs : Status.ofStr ((plookup n.properties (("status").data)).getD (("TODO").data)) with
    | none => rw [hs] at hr; exact absurd hr (by simp)
    | some st =>
      rw [hs] at hr
      cases hp : Priority.ofStr ((plookup n.properties (("priority").data)).getD (("D").data)) with
      | none => rw [hp] at hr; exact absurd hr (by simp)
      | some pr =>
        rw [hp] at hr
        simp only [Except.ok.injEq] at hr
        rw [← hr]
        simp [hid]
  refine ⟨hrid, fun hmem => ?_⟩
  unfold load_tasks
  rw [rebuildLinks_preserves]
  have := buildTemp_mem records r hmem
  rwa [hrid] at this

/-- Witness for `c6_missing_id_gets_placeholder` at the `c6Dir` fixture's
parsed node and record. -/
theorem c6_missing_id_gets_placeholder_witness :
    (okRecordOf (recordOfNode (("f.org").data) cLoadNow c6Node)).id = (("N/A").data) :=
  (c6_missing_id_gets_placeholder (("f.org").data) cLoadNow c6Node
    (okRecordOf (recordOfNode (("f.org").data) cLoadNow c6Node))
    [] (by decide) (by rfl)).1

/-- Claim C7: the claim says a malformed record is skipped while the rest
of the file loads and loading never raises.  Evaluating the embedding on a
file holding one well-formed record and one record with status token
`BOGUS`: the whole load aborts with the `ValueError` from `Status(...)`
(raised outside any per-record handler), and not even the well-formed
record `g1` survives — though the same file without the malformed record
loads `g1` fine. -/
theorem c7_malformed_record_aborts_load :
    loadErr c7Dir cLoadNow = some "ValueError: invalid status"
    ∧ (loadOk c7GoodDir cLoadNow).map
          (fun m => (alookup m.tasks (("g1").data)).isSome)
        = some true := by
  constructor
  · rfl
  · decide

/-- Claim C8, counterexample: the claim says validation failures leave
state unchanged — add with an empty title inserts nothing, and an update
patch containing an unrecognized field applies no field.  Evaluating the
embedding: updating task `t8` with the patch `{title: "new", bogus: …}`
changes the title to `"new"` (recognized fields apply, the unknown key is
silently skipped), and adding a task with an empty title inserts it. -/
theorem c8_validation_absent :
    ((alookup (update_task c8Mgr (("t8").data)
          [FieldPatch.titleF (("new").data), FieldPatch.unknown (("bogus").data)]).tasks
        (("t8").data)).map (fun t => t.title)) = some (("new").data)
    ∧ (alookup (add_task c8Mgr [] none (some (("tasks.org").data)) (("new8").data)
          ⟨2024, 1, 2, 0, 0, 0, 0⟩).1.tasks (("new8").data)).isSome = true := by
  constructor <;> decide

/-- Claim C8 as amended: `add_task` performs no title validation — it
always inserts the new task (empty title included) under the fresh id; and
`update_task` is a per-field patch: entries with unrecognized keys are
silently skipped while every recognized entry is applied in order (a mixed
patch is partially applied), with no failure signalled and a plain no-op
when the id is absent. -/
theorem c8_add_update_behavior :
    (∀ (mgr : Manager) (title : Str) (pid : Option Str) (fn : Option Str)
        (fid : Str) (now : DT), ∃ t' : Task,
        alookup (add_task mgr title pid fn fid now).1.tasks fid = some t'
        ∧ t'.title = title ∧ t'.id = fid)
    ∧ (∀ (t : Task) (p1 p2 : List FieldPatch) (k : Str),
        (p1 ++ FieldPatch.unknown k :: p2).foldl applyEntry t
          = (p1 ++ p2).foldl applyEntry t)
    ∧ (∀ (mgr : Manager) (id : Str) (patch : List FieldPatch),
        alookup mgr.tasks id = none → update_task mgr id patch = mgr)
    ∧ (∀ (mgr : Manager) (id : Str) (t : Task) (patch : List FieldPatch),
        alookup mgr.tasks id = some t →
        alookup (update_task mgr id patch).tasks id
          = some (patch.foldl applyEntry t)) := by
  refine ⟨?_, ?_, ?_, ?_⟩
  · intro mgr title pid fn fid now
    cases pid with
    | none =>
      exact ⟨{ title := title, id := fid, parent_id := none,
               file := fn, created_at := now },
             by simp [add_task, alookup_aupsert], rfl, rfl⟩
    | some p =>
      simp only [add_task]
      by_cases hpe : p ≠ ([] : Str)
      · rw [if_pos hpe]
        cases hpl : alookup (aupsert mgr.tasks fid
            { title := title, id := fid, parent_id := some p,
              file := fn, created_at := now }) p with
        | none =>
          exact ⟨{ title := title, id := fid, parent_id := some p,
                   file := fn, created_at := now },
                 by simp [alookup_aupsert], rfl, rfl⟩
        | some pt =>
          by_cases hpf : p = fid
          · rw [hpf] at hpl
            rw [alookup_aupsert, if_pos rfl] at hpl
            have hpt := Option.some.inj hpl
            refine ⟨{ pt with children := pt.children ++ [fid] }, ?_, ?_, ?_⟩
            · rw [hpf]
              simp [alookup_aupsert]
            · rw [← hpt]
            · rw [← hpt]
          · refine ⟨{ title := title, id := fid, parent_id := some p,
                      file := fn, created_at := now }, ?_, rfl, rfl⟩
            simp only [alookup_aupsert, if_neg hpf]
            simp [alookup_aupsert]
      · rw [if_neg hpe]
        exact ⟨{ title := title, id := fid, parent_id := some p,
                 file := fn, created_at := now },
               by simp [alookup_aupsert], rfl, rfl⟩
  · intro t p1 p2 k
    rw [List.foldl_append, List.foldl_cons, List.foldl_append]
    rfl
  · intro mgr id patch h
    unfold update_task
    rw [h]
  · intro mgr id t patch h
    unfold update_task
    rw [h]
    simp [alookup_aupsert]

/-- Witness for `c8_add_update_behavior`: the no-op case of `update_task`
at a concrete absent id, via the third conjunct. -/
theorem c8_add_update_behavior_witness :
    update_task c8Mgr (("ghost").data) [FieldPatch.titleF (("x").data)] = c8Mgr :=
  c8_add_update_behavior.2.2.1 c8Mgr (("ghost").data)
    [FieldPatch.titleF (("x").data)] (by decide)

/-- Claim C9: the claim says that after every load each task's `children`
list is exactly the inverse of `parent_id`.  Evaluating the embedding on a
directory where the child's record precedes its parent's (child in `a.org`,
parent in `b.org`): the child keeps `parent_id = c9p` — which resolves, so
it is not even a root — yet the parent's `children` list is empty, because
the rebuild loop clears `parent.children` after the child was appended. -/
theorem c9_children_not_inverse_when_child_precedes_parent :
    (loadOk c9Dir cLoadNow).map
        (fun m =>
          ((alookup m.tasks (("c9c").data)).map (fun t => t.parent_id),
           (alookup m.tasks (("c9p").data)).map (fun t => t.children)))
      = some (some (some (("c9p").data)), some ([] : List Str)) := by decide

/-! ### Digit-rendering lemmas -/

theorem digit_char_mem (r : Nat) (h : r < 10) : Char.ofNat (48 + r) ∈ decDigits := by
  interval_cases r <;> decide

theorem fixedDigits_mem (w n : Nat) : ∀ c ∈ fixedDigits w n, c ∈ decDigits := by
  induction w generalizing n with
  | zero => intro c hc; exact absurd hc (List.not_mem_nil c)
  | succ w ih =>
    intro c hc
    rw [fixedDigits] at hc
    rcases List.mem_append.mp hc with h | h
    · exact ih _ c h
    · rcases List.mem_singleton.mp h with rfl
      exact digit_char_mem _ (Nat.mod_lt _ (by omega))

theorem digitsVal_append_digit (a : Str) (c : Char) :
    digitsVal (a ++ [c]) = 10 * digitsVal a + (c.toNat - 48) := by
  unfold digitsVal
  rw [List.foldl_append]
  simp [Nat.mul_comm]

theorem toNat_digit_char (r : Nat) (h : r < 10) : (Char.ofNat (48 + r)).toNat = 48 + r := by
  interval_cases r <;> decide

theorem digitsVal_fixedDigits (w n : Nat) (h : n < 10 ^ w) :
    digitsVal (fixedDigits w n) = n := by
  induction w generalizing n with
  | zero =>
    simp only [pow_zero, Nat.lt_one_iff] at h
    subst h
    rfl
  | succ w ih =>
    rw [fixedDigits, digitsVal_append_digit,
      toNat_digit_char _ (Nat.mod_lt _ (by omega)),
      ih _ (by
        have h10 : (10 : Nat) ^ (w + 1) = 10 ^ w * 10 := by ring
        rw [h10] at h
        exact Nat.div_lt_of_lt_mul (by omega))]
    omega

theorem fixedDigits_length (w n : Nat) : (fixedDigits w n).length = w := by
  induction w generalizing n with
  | zero => rfl
  | succ w ih => simp [fixedDigits, ih]

theorem padNum_eq_fixed (w n : Nat) (h : n < 10 ^ w) : padNum w n = fixedDigits w n := by
  unfold padNum
  rw [if_pos h]

theorem padNum_digits (w n : Nat) (h : n < 10 ^ w) : ∀ c ∈ padNum w n, c ∈ decDigits := by
  rw [padNum_eq_fixed w n h]
  exact fixedDigits_mem w n

theorem digitsVal_padNum (w n : Nat) (h : n < 10 ^ w) : digitsVal (padNum w n) = n := by
  rw [padNum_eq_fixed w n h]
  exact digitsVal_fixedDigits w n h

theorem padNum_length (w n : Nat) (h : n < 10 ^ w) : (padNum w n).length = w := by
  rw [padNum_eq_fixed w n h]
  exact fixedDigits_length w n

theorem padNum_ne_nil (w n : Nat) (hw : 0 < w) (h : n < 10 ^ w) : padNum w n ≠ [] := by
  intro he
  have := padNum_length w n h
  rw [he] at this
  simp at this
  omega

/-! ### Line algebra -/

theorem renderLines_append (a b : List Str) :
    renderLines (a ++ b) = renderLines a ++ renderLines b := by
  unfold renderLines
  rw [List.foldr_append]
  induction a with
  | nil => rfl
  | cons l r ih => simp [List.foldr_cons, ih]

theorem splitLines_ne_nil (s : Str) : splitLines s ≠ [] := by
  cases s with
  | nil => simp [splitLines]
  | cons c cs =>
    rw [splitLines]
    by_cases h : c = '\n' <;> simp [h]

theorem splitLines_renderLines_cons (l : Str) (hl : l.all (fun c => c ≠ '\n') = true)
    (rest : Str) :
    splitLines (l ++ '\n' :: rest) = l :: splitLines rest := by
  induction l with
  | nil => simp [splitLines]
  | cons c cs ih =>
    have hc : (c = '\n') = False := by
      simp only [List.all_cons, Bool.and_eq_true, decide_eq_true_eq] at hl
      simp [hl.1]
    have hcs : cs.all (fun c => c ≠ '\n') = true := by
      simp only [List.all_cons, Bool.and_eq_true] at hl
      exact hl.2
    rw [List.cons_append, splitLines, ih hcs]
    simp [hc]

theorem splitLines_renderLines (ls : List Str)
    (h : ∀ l ∈ ls, l.all (fun c => c ≠ '\n') = true) (rest : Str) :
    splitLines (renderLines ls ++ rest) = ls ++ splitLines rest := by
  induction ls with
  | nil => rfl
  | cons l r ih =>
    have : renderLines (l :: r) = l ++ '\n' :: renderLines r := rfl
    rw [this, List.append_assoc, List.cons_append,
      splitLines_renderLines_cons l (h l (by simp)) _,
      ih (fun x hx => h x (by simp [hx]))]
    rfl

theorem renderLines_splitLines (s : Str) : renderLines (splitLines s) = s ++ ['\n'] := by
  induction s with
  | nil => rfl
  | cons c cs ih =>
    by_cases h : c = '\n'
    · subst h
      have e0 : splitLines ('\n' :: cs) = [] :: splitLines cs := by
        rw [splitLines]
        simp
      rw [e0]
      have e1 : renderLines ([] :: splitLines cs) = '\n' :: renderLines (splitLines cs) := rfl
      rw [e1, ih]
      rfl
    · have e0 : splitLines (c :: cs)
          = (c :: (splitLines cs).headD []) :: (splitLines cs).tail := by
        rw [splitLines]
        simp [h]
      rw [e0]
      cases h2 : splitLines cs with
      | nil => exact absurd h2 (splitLines_ne_nil cs)
      | cons a b =>
        rw [h2] at ih
        simp only [List.headD_cons, List.tail_cons]
        have e1 : renderLines ((c :: a) :: b) = c :: renderLines (a :: b) := rfl
        rw [e1, ih]
        rfl

theorem joinNL_splitLines (s : Str) : joinNL (splitLines s) = s := by
  induction s with
  | nil => rfl
  | cons c cs ih =>
    by_cases h : c = '\n'
    · subst h
      have e0 : splitLines ('\n' :: cs) = [] :: splitLines cs := by
        rw [splitLines]
        simp
      rw [e0]
      cases h2 : splitLines cs with
      | nil => exact absurd h2 (splitLines_ne_nil cs)
      | cons a b =>
        rw [h2] at ih
        have e1 : joinNL ([] :: a :: b) = '\n' :: joinNL (a :: b) := rfl
        rw [e1, ih]
    · have e0 : splitLines (c :: cs)
          = (c :: (splitLines cs).headD []) :: (splitLines cs).tail := by
        rw [splitLines]
        simp [h]
      rw [e0]
      cases h2 : splitLines cs with
      | nil => exact absurd h2 (splitLines_ne_nil cs)
      | cons a b =>
        rw [h2] at ih
        simp only [List.headD_cons, List.tail_cons]
        cases b with
        | nil =>
          have e1 : joinNL [c :: a] = c :: a := rfl
          have e2 : joinNL [a] = a := rfl
          rw [e2] at ih
          rw [e1, ih]
        | cons x y =>
          have e1 : joinNL ((c :: a) :: x :: y) = (c :: a) ++ '\n' :: joinNL (x :: y) := rfl
          have e2 : joinNL (a :: x :: y) = a ++ '\n' :: joinNL (x :: y) := rfl
          rw [e2] at ih
          rw [e1, List.cons_append, ih]

/-! ### Numeric-field and timestamp round-trip lemmas -/

theorem takeWhile_all (p : Char → Bool) (l : Str) (h : ∀ c ∈ l, p c = true) :
    l.takeWhile p = l ∧ l.dropWhile p = [] := by
  constructor
  · exact List.takeWhile_eq_self_iff.mpr h
  · induction l with
    | nil => rfl
    | cons c r ih =>
      rw [List.dropWhile_cons, if_pos (h c (by simp))]
      exact ih (fun x hx => h x (by simp [hx]))

theorem padNum_isDigit (w n : Nat) (h : n < 10 ^ w) :
    ∀ c ∈ padNum w n, c.isDigit = true :=
  fun c hc => (digitChar_spec (padNum_digits w n h c hc)).1

theorem eatFixedNum_padNum (w n : Nat) (hn : n < 10 ^ w) (u : Char)
    (hu : u.isDigit = false) (r : Str) :
    eatFixedNum w (padNum w n ++ u :: r) = some (n, u :: r) := by
  have hrun := takeWhile_run Char.isDigit (padNum w n) (padNum_isDigit w n hn) u hu r
  have hdrop : (padNum w n ++ u :: r).drop w = u :: r := by
    have e : (padNum w n ++ u :: r).drop w
        = (padNum w n ++ u :: r).drop (padNum w n).length := by
      rw [padNum_length w n hn]
    rw [e, List.drop_left]
  simp only [eatFixedNum, hrun.1, padNum_length w n hn, if_pos rfl,
    digitsVal_padNum w n hn, hdrop, if_true]

theorem eatFixedNum_padNum_end (w n : Nat) (hn : n < 10 ^ w) :
    eatFixedNum w (padNum w n) = some (n, []) := by
  have hall := takeWhile_all Char.isDigit (padNum w n) (padNum_isDigit w n hn)
  have hdrop : (padNum w n).drop w = ([] : Str) := by
    have e : (padNum w n).drop w = (padNum w n).drop (padNum w n).length := by
      rw [padNum_length w n hn]
    rw [e, List.drop_length]
  simp only [eatFixedNum, hall.1, padNum_length w n hn, if_pos rfl,
    digitsVal_padNum w n hn, hdrop, if_true]

theorem eatChar_cons (c : Char) (r : Str) : eatChar c (c :: r) = some r := by
  simp [eatChar]

theorem eatNum_padNum (w n : Nat) (hn : n < 10 ^ w) (hw : 0 < w) (u : Char)
    (hu : u.isDigit = false) (r : Str) :
    eatNum (padNum w n ++ u :: r) = some (n, u :: r) := by
  have hrun := takeWhile_run Char.isDigit (padNum w n) (padNum_isDigit w n hn) u hu r
  have hne : (padNum w n).isEmpty = false := by
    simp [List.isEmpty_iff]
    exact padNum_ne_nil w n hw hn
  simp only [eatNum, hrun.1, hrun.2, digitsVal_padNum w n hn, hne,
    Bool.false_eq_true, if_false]

theorem eatNum_padNum_end (w n : Nat) (hn : n < 10 ^ w) (hw : 0 < w) :
    eatNum (padNum w n) = some (n, []) := by
  have hall := takeWhile_all Char.isDigit (padNum w n) (padNum_isDigit w n hn)
  have hne : (padNum w n).isEmpty = false := by
    simp [List.isEmpty_iff]
    exact padNum_ne_nil w n hw hn
  simp only [eatNum, hall.1, hall.2, digitsVal_padNum w n hn, hne,
    Bool.false_eq_true, if_false]

theorem daysInMonth_le (y m : Nat) : daysInMonth y m ≤ 31 := by
  unfold daysInMonth
  split
  · split <;> omega
  · split <;> omega

theorem mkValidDT_of_valid (t : DT) (h : t.Valid) :
    mkValidDT t.year t.month t.day t.hour t.minute t.second t.micro = some t := by
  obtain ⟨h1, h2, h3, h4, h5, h6, h7, h8, h9, h10⟩ := h
  unfold mkValidDT
  rw [if_pos ⟨h1, h2, h3, h4, h5, h6, h7, h8, h9, h10⟩]

theorem parseIso_iso (t : DT) (h : t.Valid) : parseIso t.iso = some t := by
  have hmk := mkValidDT_of_valid t h
  obtain ⟨h1, h2, h3, h4, h5, h6, h7, h8, h9, h10⟩ := h
  have hy : t.year < 10 ^ 4 := by norm_num; omega
  have hmo : t.month < 10 ^ 2 := by norm_num; omega
  have hd : t.day < 10 ^ 2 := by
    have := daysInMonth_le t.year t.month
    norm_num
    omega
  have hh : t.hour < 10 ^ 2 := by norm_num; omega
  have hmi : t.minute < 10 ^ 2 := by norm_num; omega
  have hs : t.second < 10 ^ 2 := by norm_num; omega
  by_cases hm : t.micro ≠ 0
  · have hus : t.micro < 10 ^ 6 := by norm_num; omega
    have hiso : t.iso = padNum 4 t.year ++ '-' :: (padNum 2 t.month ++ '-' ::
        (padNum 2 t.day ++ 'T' :: (padNum 2 t.hour ++ ':' :: (padNum 2 t.minute ++ ':' ::
        (padNum 2 t.second ++ '.' :: padNum 6 t.micro))))) := by
      unfold DT.iso
      rw [if_pos hm]
      simp
    rw [hiso]
    have hall := takeWhile_all Char.isDigit (padNum 6 t.micro) (padNum_isDigit 6 t.micro hus)
    have hdrop : (padNum 6 t.micro).drop 6 = ([] : Str) := by
      have e : (padNum 6 t.micro).drop 6
          = (padNum 6 t.micro).drop (padNum 6 t.micro).length := by
        rw [padNum_length 6 t.micro hus]
      rw [e, List.drop_length]
    simp only [parseIso,
      eatFixedNum_padNum 4 t.year hy '-' (by decide), eatChar_cons,
      eatFixedNum_padNum 2 t.month hmo '-' (by decide),
      eatFixedNum_padNum 2 t.day hd 'T' (by decide),
      eatFixedNum_padNum 2 t.hour hh ':' (by decide),
      eatFixedNum_padNum 2 t.minute hmi ':' (by decide),
      eatFixedNum_padNum 2 t.second hs '.' (by decide),
      hall.1, padNum_length 6 t.micro hus, hdrop,
      digitsVal_padNum 6 t.micro hus]
    exact hmk
  · push_neg at hm
    have hiso : t.iso = padNum 4 t.year ++ '-' :: (padNum 2 t.month ++ '-' ::
        (padNum 2 t.day ++ 'T' :: (padNum 2 t.hour ++ ':' :: (padNum 2 t.minute ++ ':' ::
        padNum 2 t.second)))) := by
      unfold DT.iso
      rw [if_neg (by omega)]
      simp
    rw [hiso]
    simp only [parseIso,
      eatFixedNum_padNum 4 t.year hy '-' (by decide), eatChar_cons,
      eatFixedNum_padNum 2 t.month hmo '-' (by decide),
      eatFixedNum_padNum 2 t.day hd 'T' (by decide),
      eatFixedNum_padNum 2 t.hour hh ':' (by decide),
      eatFixedNum_padNum 2 t.minute hmi ':' (by decide),
      eatFixedNum_padNum_end 2 t.second hs]
    rw [← hm]
    exact hmk

/-! ### Whitespace and enum utilities -/

theorem dropWhile_all_false (p : Char → Bool) (s : Str) (h : ∀ c ∈ s, p c = false) :
    s.dropWhile p = s := by
  cases s with
  | nil => rfl
  | cons c r => rw [List.dropWhile_cons, if_neg (by simp [h c (by simp)])]

theorem trimLeft_of_head (c : Char) (r : Str) (h : isWS c = false) :
    trimLeft (c :: r) = c :: r := by
  unfold trimLeft
  rw [List.dropWhile_cons, if_neg (by simp [isWS] at h; simp [h])]

theorem trim_all_not_ws (s : Str) (h : ∀ c ∈ s, isWS c = false) : trim s = s := by
  unfold trim trimLeft trimRight
  rw [dropWhile_all_false (fun c => c.isWhitespace) s
      (fun c hc => by simpa [isWS] using h c hc),
    dropWhile_all_false (fun c => c.isWhitespace) s.reverse
      (fun c hc => by simpa [isWS] using h c (List.mem_reverse.mp hc)),
    List.reverse_reverse]

theorem trimLeft_stable_head (s : Str) (hne : s ≠ []) (h : trimLeft s = s) :
    ∀ c r, s = c :: r → isWS c = false := by
  intro c r he
  subst he
  by_contra hc
  simp only [Bool.not_eq_false] at hc
  unfold trimLeft at h
  rw [List.dropWhile_cons, if_pos (by simp [isWS] at hc ⊢; exact hc)] at h
  have hlen := congrArg List.length h
  have hsuf : List.dropWhile (fun c : Char => c.isWhitespace) r <:+ r :=
    List.dropWhile_suffix (fun c : Char => c.isWhitespace)
  have hle := hsuf.length_le
  simp at hlen
  omega

theorem trimRight_stable_reverse (s : Str) (h : trimRight s = s) :
    trimLeft s.reverse = s.reverse := by
  unfold trimRight at h
  unfold trimLeft
  have h2 := congrArg List.reverse h
  rw [List.reverse_reverse] at h2
  exact h2

theorem trim_stable (s : Str) (h1 : trimLeft s = s) (h2 : trimRight s = s) :
    trim s = s := by
  unfold trim
  rw [h1, h2]

/-- A nonempty string with stable right-trim, followed by a non-whitespace
character, right-trims to itself when extended. -/
theorem trimRight_append_stable (a b : Str) (h : trimRight b = b) (hb : b ≠ []) :
    trimRight (a ++ b) = a ++ b := by
  rw [trimRight_append, h, if_neg hb]

theorem status_ofStr_value (s : Status) : Status.ofStr s.value = some s := by
  cases s <;> rfl

theorem priority_ofStr_value (p : Priority) : Priority.ofStr p.value = some p := by
  cases p <;> rfl

theorem status_value_trim (s : Status) : trim s.value = s.value := by
  cases s <;> rfl

theorem priority_value_trim (p : Priority) : trim p.value = p.value := by
  cases p <;> rfl

/-! ### splitOnChar / intercalate -/

theorem splitOnChar_ne_nil (sep : Char) (s : Str) : splitOnChar sep s ≠ [] := by
  cases s with
  | nil => simp [splitOnChar]
  | cons c cs =>
    rw [splitOnChar]
    by_cases h : c = sep <;> simp [h]

theorem splitOnChar_sepfree (sep : Char) (a : Str) (h : ∀ c ∈ a, (c = sep) = False) :
    splitOnChar sep a = [a] := by
  induction a with
  | nil => rfl
  | cons c cs ih =>
    rw [splitOnChar, ih (fun x hx => h x (by simp [hx]))]
    simp [h c (by simp)]

theorem splitOnChar_append_sep (sep : Char) (a : Str) (h : ∀ c ∈ a, (c = sep) = False)
    (r : Str) :
    splitOnChar sep (a ++ sep :: r) = a :: splitOnChar sep r := by
  induction a with
  | nil => simp [splitOnChar]
  | cons c cs ih =>
    rw [List.cons_append, splitOnChar, ih (fun x hx => h x (by simp [hx]))]
    simp [h c (by simp)]

theorem splitOnChar_intercalate (sep : Char) (tags : List Str) (hne : tags ≠ [])
    (h : ∀ tg ∈ tags, ∀ c ∈ tg, (c = sep) = False) :
    splitOnChar sep (List.intercalate [sep] tags) = tags := by
  induction tags with
  | nil => exact absurd rfl hne
  | cons a r ih =>
    cases r with
    | nil =>
      simp [List.intercalate]
      exact splitOnChar_sepfree sep a (h a (by simp))
    | cons b rr =>
      have e : List.intercalate [sep] (a :: b :: rr)
          = a ++ sep :: List.intercalate [sep] (b :: rr) := by
        simp [List.intercalate, List.intersperse]
      rw [e, splitOnChar_append_sep sep a (h a (by simp)),
        ih (by simp) (fun tg htg c hc => h tg (by simp [htg]) c hc)]

/-! ### SCHEDULED line round trip -/

theorem weekdayAbbr_facts (y m d : Nat) :
    weekdayAbbr y m d ≠ [] ∧
    (∀ c ∈ weekdayAbbr y m d, isWS c = false ∧ (c = '>') = False) := by
  unfold weekdayAbbr
  have h7 : toOrd y m d % 7 < 7 := Nat.mod_lt _ (by omega)
  have he : toOrd y m d % 7 = 0 ∨ toOrd y m d % 7 = 1 ∨ toOrd y m d % 7 = 2
      ∨ toOrd y m d % 7 = 3 ∨ toOrd y m d % 7 = 4 ∨ toOrd y m d % 7 = 5
      ∨ toOrd y m d % 7 = 6 := by omega
  rcases he with h | h | h | h | h | h | h <;> rw [h] <;>
    exact ⟨by decide, by decide⟩

theorem decDigit_facts (c : Char) (h : c ∈ decDigits) :
    isWS c = false ∧ (c = '>') = False ∧ (c = ':') = False := by
  have h' : c = '0' ∨ c = '1' ∨ c = '2' ∨ c = '3' ∨ c = '4' ∨ c = '5' ∨ c = '6'
      ∨ c = '7' ∨ c = '8' ∨ c = '9' := by
    simpa [decDigits] using h
  rcases h' with rfl | rfl | rfl | rfl | rfl | rfl | rfl | rfl | rfl | rfl <;>
    exact ⟨by decide, by decide, by decide⟩

theorem schedFmt_ne_gt (t : DT) (h : t.Valid) :
    ∀ c ∈ t.schedFmt, (decide (c ≠ '>')) = true := by
  obtain ⟨h1, h2, h3, h4, h5, h6, h7, h8, h9, h10⟩ := h
  have hy : t.year < 10 ^ 4 := by norm_num; omega
  have hmo : t.month < 10 ^ 2 := by norm_num; omega
  have hd : t.day < 10 ^ 2 := by
    have := daysInMonth_le t.year t.month
    norm_num
    omega
  have hh : t.hour < 10 ^ 2 := by norm_num; omega
  have hmi : t.minute < 10 ^ 2 := by norm_num; omega
  intro c hc
  unfold DT.schedFmt at hc
  simp only [List.append_assoc] at hc
  have hpad : ∀ w n, n < 10 ^ w → c ∈ padNum w n → (decide (c ≠ '>')) = true := by
    intro w n hn hcm
    have := (decDigit_facts c (padNum_digits w n hn c hcm)).2.1
    simp [this]
  rcases List.mem_append.mp hc with h1 | h1
  · exact hpad 4 t.year hy h1
  rcases List.mem_cons.mp h1 with rfl | h1
  · decide
  rcases List.mem_append.mp h1 with h1 | h1
  · exact hpad 2 t.month hmo h1
  rcases List.mem_cons.mp h1 with rfl | h1
  · decide
  rcases List.mem_append.mp h1 with h1 | h1
  · exact hpad 2 t.day hd h1
  rcases List.mem_cons.mp h1 with rfl | h1
  · decide
  rcases List.mem_append.mp h1 with h1 | h1
  · have := ((weekdayAbbr_facts t.year t.month t.day).2 c h1).2
    simp [this]
  rcases List.mem_cons.mp h1 with rfl | h1
  · decide
  rcases List.mem_append.mp h1 with h1 | h1
  · exact hpad 2 t.hour hh h1
  rcases List.mem_cons.mp h1 with rfl | h1
  · decide
  exact hpad 2 t.minute hmi h1

theorem parseSchedTS_schedFmt (t : DT) (h : t.Valid) :
    parseSchedTS t.schedFmt = some t.truncMin := by
  obtain ⟨h1, h2, h3, h4, h5, h6, h7, h8, h9, h10⟩ := h
  have hy : t.year < 10 ^ 4 := by norm_num; omega
  have hmo : t.month < 10 ^ 2 := by norm_num; omega
  have hd : t.day < 10 ^ 2 := by
    have := daysInMonth_le t.year t.month
    norm_num
    omega
  have hh : t.hour < 10 ^ 2 := by norm_num; omega
  have hmi : t.minute < 10 ^ 2 := by norm_num; omega
  obtain ⟨hwne, hwf⟩ := weekdayAbbr_facts t.year t.month t.day
  obtain ⟨w0, wr, hw⟩ : ∃ w0 wr, weekdayAbbr t.year t.month t.day = w0 :: wr := by
    cases hcase : weekdayAbbr t.year t.month t.day with
    | nil => exact absurd hcase hwne
    | cons a b => exact ⟨a, b, rfl⟩
  have hshape : t.schedFmt = padNum 4 t.year ++ '-' :: (padNum 2 t.month ++ '-' ::
      (padNum 2 t.day ++ ' ' :: (weekdayAbbr t.year t.month t.day ++ ' ' ::
      (padNum 2 t.hour ++ ':' :: padNum 2 t.minute)))) := by
    unfold DT.schedFmt
    simp
  have hskip : ((((' ' :: (weekdayAbbr t.year t.month t.day ++ ' ' ::
      (padNum 2 t.hour ++ ':' :: padNum 2 t.minute))).dropWhile isWS).dropWhile
        (fun c => isWS c = false)).dropWhile isWS)
      = padNum 2 t.hour ++ ':' :: padNum 2 t.minute := by
    have e1 : (' ' :: (weekdayAbbr t.year t.month t.day ++ ' ' ::
        (padNum 2 t.hour ++ ':' :: padNum 2 t.minute))).dropWhile isWS
        = weekdayAbbr t.year t.month t.day ++ ' ' ::
          (padNum 2 t.hour ++ ':' :: padNum 2 t.minute) := by
      rw [List.dropWhile_cons, if_pos (by decide)]
      rw [hw, List.cons_append, List.dropWhile_cons,
        if_neg (by simp [(hwf w0 (by rw [hw]; simp)).1])]
    rw [e1]
    have e2 := takeWhile_run (fun c => isWS c = false)
      (weekdayAbbr t.year t.month t.day)
      (fun c hc => by simp [(hwf c hc).1]) ' ' (by decide)
      (padNum 2 t.hour ++ ':' :: padNum 2 t.minute)
    rw [e2.2]
    rw [List.dropWhile_cons, if_pos (by decide)]
    obtain ⟨p0, pr, hp⟩ : ∃ p0 pr, padNum 2 t.hour = p0 :: pr := by
      cases hcase : padNum 2 t.hour with
      | nil => exact absurd hcase (padNum_ne_nil 2 t.hour (by omega) hh)
      | cons a b => exact ⟨a, b, rfl⟩
    rw [hp, List.cons_append, List.dropWhile_cons,
      if_neg (by
        have := (decDigit_facts p0 (padNum_digits 2 t.hour hh p0 (by rw [hp]; simp))).1
        simp [this])]
  rw [hshape]
  simp only [parseSchedTS,
    eatNum_padNum 4 t.year hy (by omega) '-' (by decide),
    eatChar_cons,
    eatNum_padNum 2 t.month hmo (by omega) '-' (by decide),
    eatNum_padNum 2 t.day hd (by omega) ' ' (by decide),
    hskip,
    eatNum_padNum 2 t.hour hh (by omega) ':' (by decide),
    eatNum_padNum_end 2 t.minute hmi (by omega)]
  rfl

theorem parseSched_line (d : DT) (h : d.Valid) :
    parseSched ((("SCHEDULED: <").data) ++ d.schedFmt ++ ['>']) = some d.truncMin := by
  have hsplit : (("SCHEDULED: <").data) ++ d.schedFmt ++ ['>']
      = (("SCHEDULED:").data) ++ (' ' :: '<' :: (d.schedFmt ++ ['>'])) := by
    have : (("SCHEDULED: <").data) = (("SCHEDULED:").data) ++ (' ' :: '<' :: []) := rfl
    rw [this]
    simp
  unfold parseSched
  rw [hsplit]
  have htl : trimLeft ((("SCHEDULED:").data) ++ (' ' :: '<' :: (d.schedFmt ++ ['>'])))
      = (("SCHEDULED:").data) ++ (' ' :: '<' :: (d.schedFmt ++ ['>'])) := by
    have e : (("SCHEDULED:").data) ++ (' ' :: '<' :: (d.schedFmt ++ ['>']))
        = 'S' :: ((("CHEDULED:").data) ++ (' ' :: '<' :: (d.schedFmt ++ ['>']))) := rfl
    rw [e, trimLeft_of_head _ _ (by decide)]
  rw [htl]
  rw [if_pos (List.isPrefixOf_iff_prefix.mpr (List.prefix_append _ _))]
  have hdrop : ((("SCHEDULED:").data) ++ (' ' :: '<' :: (d.schedFmt ++ ['>']))).drop 10
      = ' ' :: '<' :: (d.schedFmt ++ ['>']) := by
    have e : ((("SCHEDULED:").data) ++ (' ' :: '<' :: (d.schedFmt ++ ['>']))).drop 10
        = ((("SCHEDULED:").data) ++ (' ' :: '<' :: (d.schedFmt ++ ['>']))).drop
            (("SCHEDULED:").data).length := rfl
    rw [e, List.drop_left]
  rw [hdrop]
  have htrim : trim (' ' :: '<' :: (d.schedFmt ++ ['>']))
      = '<' :: (d.schedFmt ++ ['>']) := by
    unfold trim
    have e1 : trimLeft (' ' :: '<' :: (d.schedFmt ++ ['>']))
        = '<' :: (d.schedFmt ++ ['>']) := by
      unfold trimLeft
      rw [List.dropWhile_cons, if_pos (by decide), List.dropWhile_cons,
        if_neg (by decide)]
    rw [e1]
    have e2 : '<' :: (d.schedFmt ++ ['>']) = ('<' :: d.schedFmt) ++ ['>'] := by simp
    rw [e2, trimRight_last_not_ws _ '>' (by decide)]
  rw [htrim]
  have hface := takeWhile_run (fun c => c ≠ '>') d.schedFmt (schedFmt_ne_gt d h)
    '>' (by decide) []
  have e3 : d.schedFmt ++ ['>'] = d.schedFmt ++ '>' :: [] := rfl
  simp only [e3, hface.1]
  exact parseSchedTS_schedFmt d h

/-! ### Heading line round trip -/

theorem mem_intercalate_colon (tags : List Str) (c : Char)
    (h : c ∈ List.intercalate [':'] tags) :
    c = ':' ∨ ∃ tg ∈ tags, c ∈ tg := by
  induction tags with
  | nil => simp [List.intercalate] at h
  | cons a r ih =>
    cases r with
    | nil =>
      simp [List.intercalate] at h
      exact Or.inr ⟨a, by simp, h⟩
    | cons b rr =>
      have e : List.intercalate [':'] (a :: b :: rr)
          = a ++ ':' :: List.intercalate [':'] (b :: rr) := by
        simp [List.intercalate, List.intersperse]
      rw [e] at h
      rcases List.mem_append.mp h with h1 | h1
      · exact Or.inr ⟨a, by simp, h1⟩
      rcases List.mem_cons.mp h1 with rfl | h1
      · exact Or.inl rfl
      rcases ih h1 with h2 | h2
      · exact Or.inl h2
      · obtain ⟨tg, htg, hc⟩ := h2
        exact Or.inr ⟨tg, by simp [htg], hc⟩

theorem tagChar_not_space_colon (c : Char) (h : tagChar c = true) :
    (c = ' ') = False ∧ (c = ':') = False ∧ isWS c = false := by
  refine ⟨?_, ?_, ?_⟩
  · simp only [eq_iff_iff, iff_false]
    intro he
    subst he
    exact absurd h (by decide)
  · simp only [eq_iff_iff, iff_false]
    intro he
    subst he
    exact absurd h (by decide)
  · by_contra hw
    simp only [Bool.not_eq_false] at hw
    have hc4 : c = ' ' ∨ c = '\t' ∨ c = '\x0d' ∨ c = '\n' := by
      simp [isWS, Char.isWhitespace] at hw
      tauto
    rcases hc4 with rfl | rfl | rfl | rfl <;> exact absurd h (by decide)

theorem wf_tag_chars (t : Task) (hWF : WFTask t) :
    ∀ c ∈ tagStrOf t, (c = ' ') = False ∧ isWS c = false := by
  intro c hc
  unfold tagStrOf at hc
  have htags := hWF.2.2.2.2.2.2.2.2.1
  rcases List.mem_cons.mp hc with rfl | hc
  · exact ⟨by decide, by decide⟩
  rcases List.mem_append.mp hc with hc | hc
  · rcases mem_intercalate_colon t.tags c hc with rfl | h2
    · exact ⟨by decide, by decide⟩
    · obtain ⟨tg, htg, hcm⟩ := h2
      have := (htags tg htg).2
      have hch := List.all_eq_true.mp this c hcm
      have := tagChar_not_space_colon c hch
      exact ⟨this.1, this.2.2⟩
  · rcases List.mem_singleton.mp hc with rfl
    exact ⟨by decide, by decide⟩

theorem title_head (t : Task) (hWF : WFTask t) :
    ∃ c r, t.title = c :: r ∧ isWS c = false := by
  obtain ⟨hne, hl, _⟩ := hWF
  cases hc : t.title with
  | nil => exact absurd hc hne
  | cons c r =>
    refine ⟨c, r, rfl, ?_⟩
    rw [hc] at hl
    exact trimLeft_stable_head _ (by simp) hl c r rfl

theorem headingBody_eq (t : Task) :
    headingBody t
      = (if t.status ≠ .TODO then t.status.value ++ [' '] else [])
        ++ (t.title ++ titleSuffix t) := by
  unfold headingBody titleSuffix tagStrOf
  by_cases ht : t.tags = [] <;> simp [ht]

theorem headingLineOf_eq (t : Task) (lv : Nat) :
    headingLineOf t lv
      = List.replicate lv '*' ++ ' ' ::
          (headingBody t ++ (if t.tags = [] then [' '] else [])) := by
  unfold headingLineOf headingBody
  by_cases ht : t.tags = [] <;> by_cases hs : t.status = .TODO <;>
    simp [ht, hs]

theorem trim_title_suffix (t : Task) (hWF : WFTask t) :
    trim (t.title ++ titleSuffix t) = t.title ++ titleSuffix t := by
  obtain ⟨c, r, hc, hcw⟩ := title_head t hWF
  have htl : trimLeft (t.title ++ titleSuffix t) = t.title ++ titleSuffix t := by
    rw [hc, List.cons_append]
    exact trimLeft_of_head _ _ hcw
  have htr : trimRight (t.title ++ titleSuffix t) = t.title ++ titleSuffix t := by
    by_cases ht : t.tags = []
    · have e : titleSuffix t = [] := by simp [titleSuffix, ht]
      rw [e, List.append_nil]
      exact hWF.2.2.1
    · have e : titleSuffix t = ' ' :: tagStrOf t := by simp [titleSuffix, ht]
      have e2 : tagStrOf t = (':' :: List.intercalate [':'] t.tags) ++ [':'] := by
        simp [tagStrOf]
      rw [e, e2]
      have e3 : t.title ++ ' ' :: ((':' :: List.intercalate [':'] t.tags) ++ [':'])
          = (t.title ++ ' ' :: ':' :: List.intercalate [':'] t.tags) ++ [':'] := by
        simp
      rw [e3, trimRight_last_not_ws _ ':' (by decide)]
  unfold trim
  rw [htl, htr]

theorem isPrefixOf_cons_cons (a b : Char) (as bs : Str) :
    (a :: as).isPrefixOf (b :: bs) = (a == b && as.isPrefixOf bs) := rfl

theorem strip_trim_headingBody (t : Task) (hWF : WFTask t) :
    trim (stripStatusToken (headingBody t)) = t.title ++ titleSuffix t := by
  have hts := trim_title_suffix t hWF
  cases hs : t.status with
  | TODO =>
    have hpre := hWF.2.2.2.2.1 hs
    have hb : headingBody t = t.title ++ titleSuffix t := by
      rw [headingBody_eq]
      simp [hs]
    unfold stripStatusToken
    rw [← hb] at hts ⊢
    rw [if_neg (by simp [hpre.1]), if_neg (by simp [hpre.2.1]),
      if_neg (by simp [hpre.2.2])]
    exact hts
  | DONE =>
    have hb : headingBody t = 'D' :: (("ONE ").data ++ (t.title ++ titleSuffix t)) := by
      rw [headingBody_eq]
      simp [hs]
      rfl
    unfold stripStatusToken
    rw [hb]
    rw [if_neg (by rw [show (("TODO ").data) = 'T' :: ("ODO ").data from rfl,
      isPrefixOf_cons_cons]; simp)]
    rw [if_pos (by
      rw [show ('D' :: (("ONE ").data ++ (t.title ++ titleSuffix t)))
        = ("DONE ").data ++ (t.title ++ titleSuffix t) from rfl]
      exact List.isPrefixOf_iff_prefix.mpr (List.prefix_append _ _))]
    rw [show ('D' :: (("ONE ").data ++ (t.title ++ titleSuffix t)))
      = ("DONE ").data ++ (t.title ++ titleSuffix t) from rfl]
    rw [show (5 : Nat) = (("DONE ").data).length from rfl, List.drop_left]
    exact hts
  | WAITING =>
    have hb : headingBody t = 'W' :: (("AITING ").data ++ (t.title ++ titleSuffix t)) := by
      rw [headingBody_eq]
      simp [hs]
      rfl
    unfold stripStatusToken
    rw [hb]
    rw [if_neg (by rw [show (("TODO ").data) = 'T' :: ("ODO ").data from rfl,
      isPrefixOf_cons_cons]; simp)]
    rw [if_neg (by rw [show (("DONE ").data) = 'D' :: ("ONE ").data from rfl,
      isPrefixOf_cons_cons]; simp)]
    rw [if_pos (by
      rw [show ('W' :: (("AITING ").data ++ (t.title ++ titleSuffix t)))
        = ("WAITING ").data ++ (t.title ++ titleSuffix t) from rfl]
      exact List.isPrefixOf_iff_prefix.mpr (List.prefix_append _ _))]
    rw [show ('W' :: (("AITING ").data ++ (t.title ++ titleSuffix t)))
      = ("WAITING ").data ++ (t.title ++ titleSuffix t) from rfl]
    rw [show (8 : Nat) = (("WAITING ").data).length from rfl, List.drop_left]
    exact hts

theorem validTagGroup_cons (c : Char) (rest : Str) :
    validTagGroup (c :: rest)
      = (c = ':' && !rest.isEmpty && rest.getLast? = some ':' &&
          (splitOnChar ':' rest.dropLast).all
            (fun seg => !seg.isEmpty && seg.all tagChar)) := rfl

theorem splitTags_title (t : Task) (hWF : WFTask t) :
    splitTags t.title = (t.title, []) := by
  have htch := hWF.2.2.2.1
  simp only [splitTags]
  have hval : validTagGroup ((t.title.reverse.takeWhile (fun c => c ≠ ' ')).reverse)
      = false := by
    cases hcand : (t.title.reverse.takeWhile (fun c => c ≠ ' ')).reverse with
    | nil => rfl
    | cons c0 cr =>
      have hc0 : c0 ∈ t.title := by
        have h1 : c0 ∈ t.title.reverse.takeWhile (fun c => c ≠ ' ') := by
          have : c0 ∈ (t.title.reverse.takeWhile (fun c => c ≠ ' ')).reverse := by
            rw [hcand]
            simp
          exact List.mem_reverse.mp this
        have hsub : List.Sublist
            (t.title.reverse.takeWhile (fun c => c ≠ ' ')) t.title.reverse :=
          List.takeWhile_sublist (fun c => c ≠ ' ')
        have h2 := hsub.subset h1
        exact List.mem_reverse.mp h2
      have hcc := List.all_eq_true.mp htch c0 hc0
      simp only [decide_eq_true_eq] at hcc
      rw [validTagGroup_cons]
      simp [hcc.2]
  rw [hval]
  simp

theorem splitTags_with_tags (t : Task) (hWF : WFTask t) (ht : t.tags ≠ []) :
    splitTags (t.title ++ ' ' :: tagStrOf t) = (t.title, t.tags) := by
  have htags := hWF.2.2.2.2.2.2.2.2.1
  obtain ⟨c0, r0, hc0, hc0w⟩ := title_head t hWF
  have htagchars : ∀ c ∈ (tagStrOf t).reverse, (decide (c ≠ ' ')) = true := by
    intro c hc
    have := (wf_tag_chars t hWF c (List.mem_reverse.mp hc)).1
    simp [this]
  have e1 : (t.title ++ ' ' :: tagStrOf t).reverse
      = (tagStrOf t).reverse ++ ' ' :: t.title.reverse := by
    simp
  have hrun := takeWhile_run (fun c => c ≠ ' ') ((tagStrOf t).reverse) htagchars
    ' ' (by decide) t.title.reverse
  have hcand : ((t.title ++ ' ' :: tagStrOf t).reverse.takeWhile
      (fun c => c ≠ ' ')).reverse = tagStrOf t := by
    rw [e1, hrun.1, List.reverse_reverse]
  have hcolonfree : ∀ tg ∈ t.tags, ∀ c ∈ tg, (c = ':') = False := by
    intro tg htg c hc
    exact (tagChar_not_space_colon c
      (List.all_eq_true.mp (htags tg htg).2 c hc)).2.1
  have hval : validTagGroup (tagStrOf t) = true := by
    have e2 : tagStrOf t = ':' :: (List.intercalate [':'] t.tags ++ [':']) := by
      simp [tagStrOf]
    rw [e2, validTagGroup_cons]
    simp only [List.dropLast_concat, List.getLast?_concat]
    rw [splitOnChar_intercalate ':' t.tags ht hcolonfree]
    have hall : t.tags.all (fun seg => !seg.isEmpty && seg.all tagChar) = true := by
      rw [List.all_eq_true]
      intro tg htg
      have := htags tg htg
      simp [List.isEmpty_iff, this.1, this.2]
    simp [hall, List.isEmpty_iff]
  simp only [splitTags]
  rw [hcand, hval]
  simp only [if_true]
  have hlen : (t.title ++ ' ' :: tagStrOf t).length - (tagStrOf t).length
      = t.title.length + 1 := by
    simp
    omega
  rw [hlen]
  have htake : (t.title ++ ' ' :: tagStrOf t).take (t.title.length + 1)
      = t.title ++ [' '] := by
    have h0 : List.take (t.title.length + 1) (t.title ++ (' ' :: tagStrOf t))
        = t.title ++ List.take 1 (' ' :: tagStrOf t) := List.take_append 1
    simpa using h0
  rw [htake]
  have htrim : trim (t.title ++ [' ']) = t.title := by
    unfold trim
    have htl : trimLeft (t.title ++ [' ']) = t.title ++ [' '] := by
      rw [hc0, List.cons_append]
      exact trimLeft_of_head _ _ hc0w
    rw [htl, trimRight_append]
    rw [if_pos (by rfl)]
    exact hWF.2.2.1
  rw [htrim]
  have htagsplit : splitOnChar ':' (((tagStrOf t).drop 1).dropLast) = t.tags := by
    have e2 : tagStrOf t = ':' :: (List.intercalate [':'] t.tags ++ [':']) := by
      simp [tagStrOf]
    rw [e2]
    simp only [List.drop_succ_cons, List.drop_zero, List.dropLast_concat]
    exact splitOnChar_intercalate ':' t.tags ht hcolonfree
  rw [htagsplit]

theorem headingBody_head (t : Task) (hWF : WFTask t) :
    ∃ c r, headingBody t = c :: r ∧ isWS c = false := by
  obtain ⟨c0, r0, hc0, hc0w⟩ := title_head t hWF
  cases hs : t.status with
  | TODO =>
    refine ⟨c0, r0 ++ titleSuffix t, ?_, hc0w⟩
    rw [headingBody_eq]
    simp [hs, hc0]
  | DONE =>
    refine ⟨'D', (("ONE ").data) ++ (t.title ++ titleSuffix t), ?_, by decide⟩
    rw [headingBody_eq]
    simp [hs]
    rfl
  | WAITING =>
    refine ⟨'W', (("AITING ").data) ++ (t.title ++ titleSuffix t), ?_, by decide⟩
    rw [headingBody_eq]
    simp [hs]
    rfl

theorem trim_headingBody_sp (t : Task) (hWF : WFTask t) :
    trim (headingBody t ++ (if t.tags = [] then [' '] else [])) = headingBody t := by
  obtain ⟨hc, hr, hhead, hheadw⟩ := headingBody_head t hWF
  have htl : trimLeft (headingBody t ++ (if t.tags = [] then [' '] else []))
      = headingBody t ++ (if t.tags = [] then [' '] else []) := by
    rw [hhead, List.cons_append]
    exact trimLeft_of_head _ _ hheadw
  have htr : trimRight (headingBody t ++ (if t.tags = [] then [' '] else []))
      = headingBody t := by
    by_cases ht : t.tags = []
    · rw [if_pos ht, trimRight_append, if_pos (by rfl)]
      have hsfx : titleSuffix t = [] := by simp [titleSuffix, ht]
      rw [headingBody_eq, hsfx, List.append_nil]
      by_cases hs : t.status = .TODO
      · simp only [hs]
        simp
        exact hWF.2.2.1
      · rw [if_pos hs]
        exact trimRight_append_stable _ _ hWF.2.2.1 hWF.1
    · rw [if_neg ht]
      simp only [List.append_nil]
      have hsfx : titleSuffix t = ' ' :: tagStrOf t := by simp [titleSuffix, ht]
      rw [headingBody_eq, hsfx]
      have e3 : (if t.status ≠ .TODO then t.status.value ++ [' '] else [])
            ++ (t.title ++ ' ' :: tagStrOf t)
          = ((if t.status ≠ .TODO then t.status.value ++ [' '] else [])
            ++ (t.title ++ ' ' :: ':' :: List.intercalate [':'] t.tags)) ++ [':'] := by
        simp [tagStrOf]
      rw [e3, trimRight_last_not_ws _ ':' (by decide)]
  unfold trim
  rw [htl, htr]

theorem parseHeading_round (t : Task) (lv : Nat) (hWF : WFTask t) :
    parseHeading (headingLineOf t lv) = (lv, t.title, t.tags) := by
  rw [headingLineOf_eq]
  have hstars := takeWhile_run (fun c => c = '*') (List.replicate lv '*')
    (fun c hc => by
      rcases (List.mem_replicate.mp hc) with ⟨_, rfl⟩
      decide)
    ' ' (by decide) (headingBody t ++ (if t.tags = [] then [' '] else []))
  have hdrop : (List.replicate lv '*' ++ ' ' ::
      (headingBody t ++ (if t.tags = [] then [' '] else []))).drop (lv + 1)
      = headingBody t ++ (if t.tags = [] then [' '] else []) := by
    rw [← List.drop_drop]
    have e : (List.replicate lv '*' ++ ' ' ::
        (headingBody t ++ (if t.tags = [] then [' '] else []))).drop lv
        = ' ' :: (headingBody t ++ (if t.tags = [] then [' '] else [])) := by
      have e2 := List.drop_left (List.replicate lv '*')
        (' ' :: (headingBody t ++ (if t.tags = [] then [' '] else [])))
      rwa [List.length_replicate] at e2
    rw [e]
    rfl
  simp only [parseHeading]
  rw [hstars.1, List.length_replicate, hdrop, trim_headingBody_sp t hWF,
    strip_trim_headingBody t hWF]
  by_cases ht : t.tags = []
  · have hsfx : titleSuffix t = [] := by simp [titleSuffix, ht]
    rw [hsfx, List.append_nil, splitTags_title t hWF, ht]
  · have hsfx : titleSuffix t = ' ' :: tagStrOf t := by simp [titleSuffix, ht]
    rw [hsfx, splitTags_with_tags t hWF ht]

/-! ### Drawer line round trip -/

theorem parsePropLine_mk (key v : Str) (hkey : ∀ c ∈ key, (decide (c ≠ ':')) = true) :
    parsePropLine (':' :: (key ++ ':' :: ' ' :: v)) = some (key, trim v) := by
  unfold parsePropLine
  have htl : trimLeft (':' :: (key ++ ':' :: ' ' :: v)) = ':' :: (key ++ ':' :: ' ' :: v) :=
    trimLeft_of_head _ _ (by decide)
  rw [htl]
  have hrun := takeWhile_run (fun c => c ≠ ':') key hkey ':' (by decide) (' ' :: v)
  simp only [hrun.1, hrun.2]
  have htr : trim (' ' :: v) = trim v := by
    unfold trim trimLeft
    rw [List.dropWhile_cons, if_pos (by decide)]
  rw [htr]

theorem iso_no_ws (t : DT) (h : t.Valid) : ∀ c ∈ t.iso, isWS c = false := by
  obtain ⟨h1, h2, h3, h4, h5, h6, h7, h8, h9, h10⟩ := h
  have hy : t.year < 10 ^ 4 := by norm_num; omega
  have hmo : t.month < 10 ^ 2 := by norm_num; omega
  have hd : t.day < 10 ^ 2 := by
    have := daysInMonth_le t.year t.month
    norm_num
    omega
  have hh : t.hour < 10 ^ 2 := by norm_num; omega
  have hmi : t.minute < 10 ^ 2 := by norm_num; omega
  have hs : t.second < 10 ^ 2 := by norm_num; omega
  have hus : t.micro < 10 ^ 6 := by norm_num; omega
  have hpad : ∀ w n, n < 10 ^ w → ∀ c ∈ padNum w n, isWS c = false := by
    intro w n hn c hcm
    exact (decDigit_facts c (padNum_digits w n hn c hcm)).1
  intro c hc
  unfold DT.iso at hc
  simp only [List.append_assoc] at hc
  rcases List.mem_append.mp hc with hc | hc
  · exact hpad 4 t.year hy c hc
  rcases List.mem_cons.mp hc with rfl | hc
  · decide
  rcases List.mem_append.mp hc with hc | hc
  · exact hpad 2 t.month hmo c hc
  rcases List.mem_cons.mp hc with rfl | hc
  · decide
  rcases List.mem_append.mp hc with hc | hc
  · exact hpad 2 t.day hd c hc
  rcases List.mem_cons.mp hc with rfl | hc
  · decide
  rcases List.mem_append.mp hc with hc | hc
  · exact hpad 2 t.hour hh c hc
  rcases List.mem_cons.mp hc with rfl | hc
  · decide
  rcases List.mem_append.mp hc with hc | hc
  · exact hpad 2 t.minute hmi c hc
  rcases List.mem_cons.mp hc with rfl | hc
  · decide
  rcases List.mem_append.mp hc with hc | hc
  · exact hpad 2 t.second hs c hc
  by_cases hm : t.micro ≠ 0
  · rw [if_pos hm] at hc
    rcases List.mem_cons.mp hc with rfl | hc
    · decide
    · exact hpad 6 t.micro hus c hc
  · rw [if_neg hm] at hc
    exact absurd hc (List.not_mem_nil c)

theorem trim_ne_END (c2 : Char) (rest : Str) (hw : isWS c2 = false)
    (hne : (c2 = 'E') = False) :
    (decide (trim (':' :: c2 :: rest) ≠ ((":END:").data))) = true := by
  have htl : trimLeft (':' :: c2 :: rest) = ':' :: c2 :: rest :=
    trimLeft_of_head _ _ (by decide)
  have he : (':' :: c2 :: rest) = [':', c2] ++ rest := rfl
  have htr := trimRight_append [':', c2] rest
  have h2 : trimRight [':', c2] = [':', c2] := by
    have := trimRight_last_not_ws [':'] c2 hw
    simpa using this
  simp only [decide_eq_true_eq]
  unfold trim
  rw [htl, he, htr]
  by_cases hz : trimRight rest = []
  · rw [if_pos hz, h2]
    intro hcontra
    have : c2 = 'E' := by
      have := congrArg (fun l => l.get? 1) hcontra
      simpa using this
    simp [this] at hne
  · rw [if_neg hz]
    intro hcontra
    have : c2 = 'E' := by
      have := congrArg (fun l => l.get? 1) hcontra
      simpa using this
    simp [this] at hne

theorem joinNL_concat_empty (L : List Str) (h : L ≠ []) :
    joinNL (L ++ [[]]) = joinNL L ++ ['\n'] := by
  induction L with
  | nil => exact absurd rfl h
  | cons a r ih =>
    cases r with
    | nil => rfl
    | cons b rr =>
      have e1 : joinNL ((a :: b :: rr) ++ [[]]) = a ++ '\n' :: joinNL ((b :: rr) ++ [[]]) := rfl
      have e2 : joinNL (a :: b :: rr) = a ++ '\n' :: joinNL (b :: rr) := rfl
      rw [e1, e2, ih (by simp)]
      simp

theorem plookup_propsOf (t : Task) :
    plookup (propsOf t) (("id").data) = some t.id ∧
    plookup (propsOf t) (("status").data) = some t.status.value ∧
    plookup (propsOf t) (("priority").data) = some t.priority.value ∧
    plookup (propsOf t) (("created_at").data) = some t.created_at.iso ∧
    plookup (propsOf t) (("parent_id").data)
      = (match t.parent_id with
         | some p => if p ≠ [] then some p else none
         | none => none) ∧
    plookup (propsOf t) (("author").data)
      = (match t.author with
         | some a => if a ≠ [] then some (trim a) else none
         | none => none) ∧
    plookup (propsOf t) (("due_date").data) = none := by
  unfold propsOf
  cases hpa : t.parent_id with
  | none =>
    cases hau : t.author with
    | none => exact ⟨rfl, rfl, rfl, rfl, rfl, rfl, rfl⟩
    | some a =>
      by_cases ha : a ≠ ([] : Str)
      · simp only [if_pos ha]
        exact ⟨rfl, rfl, rfl, rfl, rfl, rfl, rfl⟩
      · simp only [if_neg ha]
        exact ⟨rfl, rfl, rfl, rfl, rfl, rfl, rfl⟩
  | some p =>
    by_cases hp : p ≠ ([] : Str)
    · simp only [if_pos hp]
      cases hau : t.author with
      | none => exact ⟨rfl, rfl, rfl, rfl, rfl, rfl, rfl⟩
      | some a =>
        by_cases ha : a ≠ ([] : Str)
        · simp only [if_pos ha]
          exact ⟨rfl, rfl, rfl, rfl, rfl, rfl, rfl⟩
        · simp only [if_neg ha]
          exact ⟨rfl, rfl, rfl, rfl, rfl, rfl, rfl⟩
    · simp only [if_neg hp]
      cases hau : t.author with
      | none => exact ⟨rfl, rfl, rfl, rfl, rfl, rfl, rfl⟩
      | some a =>
        by_cases ha : a ≠ ([] : Str)
        · simp only [if_pos ha]
          exact ⟨rfl, rfl, rfl, rfl, rfl, rfl, rfl⟩
        · simp only [if_neg ha]
          exact ⟨rfl, rfl, rfl, rfl, rfl, rfl, rfl⟩

theorem takeWhile_runG {α : Type} (p : α → Bool) (ds : List α)
    (hd : ∀ c ∈ ds, p c = true) (u : α) (hu : p u = false) (r : List α) :
    ((ds ++ u :: r).takeWhile p = ds) ∧ ((ds ++ u :: r).dropWhile p = u :: r) := by
  induction ds with
  | nil => simp [List.takeWhile_cons, List.dropWhile_cons, hu]
  | cons a t ih =>
    have ha := hd a (by simp)
    have iht := ih (fun c hc => hd c (by simp [hc]))
    simp [List.takeWhile_cons, List.dropWhile_cons, ha, iht.1, iht.2]

theorem nodeLines_decomp (t : Task) (lv : Nat) :
    nodeLines t lv
      = headingLineOf t lv ::
        (schedLinesOf t
          ++ (((":PROPERTIES:").data) :: (drawerPropLines t ++ [((":END:").data), []]))
          ++ descLinesOf t) := by
  unfold nodeLines schedLinesOf drawerPropLines descLinesOf
  cases t.due_date <;> cases t.parent_id <;> cases t.author <;>
    simp [List.append_assoc]

theorem drawerPropLines_not_end (t : Task) :
    ∀ l ∈ drawerPropLines t, (decide (trim l ≠ ((":END:").data))) = true := by
  intro l hl
  unfold drawerPropLines at hl
  rcases List.mem_cons.mp hl with rfl | hl
  · exact trim_ne_END 'i' ('d' :: ':' :: ' ' :: t.id) (by decide) (by simp)
  rcases List.mem_append.mp hl with hl | hl
  · rcases List.mem_append.mp hl with hl | hl
    · cases hpa : t.parent_id with
      | none => rw [hpa] at hl; exact absurd hl (List.not_mem_nil l)
      | some p =>
        rw [hpa] at hl
        by_cases hp : p ≠ ([] : Str)
        · simp only [if_pos hp] at hl
          rcases List.mem_singleton.mp hl with rfl
          exact trim_ne_END 'p'
            ('a' :: 'r' :: 'e' :: 'n' :: 't' :: '_' :: 'i' :: 'd' :: ':' :: ' ' :: p)
            (by decide) (by simp)
        · simp only [if_neg hp] at hl
          exact absurd hl (List.not_mem_nil l)
    · cases hau : t.author with
      | none => rw [hau] at hl; exact absurd hl (List.not_mem_nil l)
      | some a =>
        rw [hau] at hl
        by_cases ha : a ≠ ([] : Str)
        · simp only [if_pos ha] at hl
          rcases List.mem_singleton.mp hl with rfl
          exact trim_ne_END 'a' ('u' :: 't' :: 'h' :: 'o' :: 'r' :: ':' :: ' ' :: a)
            (by decide) (by simp)
        · simp only [if_neg ha] at hl
          exact absurd hl (List.not_mem_nil l)
  · rcases List.mem_cons.mp hl with rfl | hl
    · exact trim_ne_END 's'
        ('t' :: 'a' :: 't' :: 'u' :: 's' :: ':' :: ' ' :: t.status.value)
        (by decide) (by simp)
    rcases List.mem_cons.mp hl with rfl | hl
    · exact trim_ne_END 'p'
        ('r' :: 'i' :: 'o' :: 'r' :: 'i' :: 't' :: 'y' :: ':' :: ' ' :: t.priority.value)
        (by decide) (by simp)
    rcases List.mem_cons.mp hl with rfl | hl
    · exact trim_ne_END 'c'
        ('r' :: 'e' :: 'a' :: 't' :: 'e' :: 'd' :: '_' :: 'a' :: 't' :: ':' :: ' '
          :: t.created_at.iso)
        (by decide) (by simp)
    exact absurd hl (List.not_mem_nil l)

theorem drawerPropLines_parse (t : Task) (hWF : WFTask t)
    (hpar : ∀ p, t.parent_id = some p → trim p = p) :
    (drawerPropLines t).filterMap parsePropLine = propsOf t := by
  obtain ⟨h1, h2, h3, h4, h5, h6, h7, h8, h9, h10, h11, h12, h13, h14, h15, h16, h17⟩ :=
    hWF
  have hid : parsePropLine (((":id: ").data) ++ t.id) = some ((("id").data), t.id) := by
    have hm := parsePropLine_mk (("id").data) t.id (by decide)
    rw [trim_stable t.id h11 h12] at hm
    exact hm
  have hst : parsePropLine (((":status: ").data) ++ t.status.value)
      = some ((("status").data), t.status.value) := by
    have hm := parsePropLine_mk (("status").data) t.status.value (by decide)
    rw [status_value_trim] at hm
    exact hm
  have hpr : parsePropLine (((":priority: ").data) ++ t.priority.value)
      = some ((("priority").data), t.priority.value) := by
    have hm := parsePropLine_mk (("priority").data) t.priority.value (by decide)
    rw [priority_value_trim] at hm
    exact hm
  have hcr : parsePropLine (((":created_at: ").data) ++ t.created_at.iso)
      = some ((("created_at").data), t.created_at.iso) := by
    have hm := parsePropLine_mk (("created_at").data) t.created_at.iso (by decide)
    rw [trim_all_not_ws t.created_at.iso (iso_no_ws t.created_at h16)] at hm
    exact hm
  have hauP : ∀ a : Str, parsePropLine (((":author: ").data) ++ a)
      = some ((("author").data), trim a) :=
    fun a => parsePropLine_mk (("author").data) a (by decide)
  unfold drawerPropLines propsOf
  cases hpa : t.parent_id with
  | none =>
    cases hau : t.author with
    | none =>
      simp only [List.nil_append, List.filterMap_cons, List.filterMap_nil, hid, hst, hpr, hcr]
    | some a =>
      by_cases ha : a ≠ ([] : Str)
      · simp only [if_pos ha, List.nil_append, List.filterMap_cons, List.filterMap_nil,
          List.filterMap_append, hid, hst, hpr, hcr,
          hauP a]
      · simp only [if_neg ha, List.nil_append, List.filterMap_cons, List.filterMap_nil, hid, hst, hpr, hcr]
  | some p =>
    have hptr := hpar p hpa
    by_cases hp : p ≠ ([] : Str)
    · have hpp : parsePropLine (((":parent_id: ").data) ++ p)
          = some ((("parent_id").data), p) := by
        have hm := parsePropLine_mk (("parent_id").data) p (by decide)
        rw [hptr] at hm
        exact hm
      cases hau : t.author with
      | none =>
        simp only [if_pos hp, List.nil_append, List.filterMap_cons, List.filterMap_nil,
          List.filterMap_append, hid, hpp, hst, hpr, hcr]
      | some a =>
        by_cases ha : a ≠ ([] : Str)
        · simp only [if_pos hp, if_pos ha, List.filterMap_cons, List.filterMap_nil,
            List.filterMap_append, hid, hpp, hst, hpr, hcr,
            hauP a]
        · simp only [if_pos hp, if_neg ha, List.nil_append, List.filterMap_cons, List.filterMap_nil,
            List.filterMap_append, hid, hpp, hst, hpr, hcr]
    · cases hau : t.author with
      | none =>
        simp only [if_neg hp, List.nil_append, List.filterMap_cons, List.filterMap_nil, hid, hst, hpr, hcr]
      | some a =>
        by_cases ha : a ≠ ([] : Str)
        · simp only [if_neg hp, if_pos ha, List.nil_append, List.filterMap_cons, List.filterMap_nil,
            List.filterMap_append, hid, hst, hpr, hcr,
            hauP a]
        · simp only [if_neg hp, if_neg ha, List.nil_append, List.filterMap_cons, List.filterMap_nil,
            hid, hst, hpr, hcr]

theorem trim_body_lines (d : Str) (hne : d ≠ []) (h1 : trimLeft d = d)
    (h2 : trimRight d = d) :
    trim (joinNL ([] :: (splitLines d ++ [[]]))) = d := by
  have hsn := splitLines_ne_nil d
  have e1 : joinNL ([] :: (splitLines d ++ [[]]))
      = '\n' :: joinNL (splitLines d ++ [[]]) := by
    cases hsp : splitLines d with
    | nil => exact absurd hsp hsn
    | cons a r => rfl
  rw [e1, joinNL_concat_empty _ hsn, joinNL_splitLines]
  obtain ⟨c, r, rfl⟩ : ∃ c r, d = c :: r := by
    cases d with
    | nil => exact absurd rfl hne
    | cons c r => exact ⟨c, r, rfl⟩
  have hc : isWS c = false := trimLeft_stable_head (c :: r) hne h1 c r rfl
  unfold trim
  have htl : trimLeft ('\n' :: ((c :: r) ++ ['\n'])) = (c :: r) ++ ['\n'] := by
    unfold trimLeft
    rw [List.dropWhile_cons, if_pos (by decide)]
    have hh := trimLeft_of_head c (r ++ ['\n']) hc
    unfold trimLeft at hh
    exact hh
  rw [htl, trimRight_append, if_pos (by decide)]
  exact h2

theorem parseChunk_round (t : Task) (lv : Nat) (hWF : WFTask t)
    (hpar : ∀ p, t.parent_id = some p → trim p = p) :
    parseChunk (headingLineOf t lv)
      (schedLinesOf t
        ++ (((":PROPERTIES:").data) :: (drawerPropLines t ++ [((":END:").data), []]))
        ++ descLinesOf t)
      = orgNodeOf t := by
  have hrun := takeWhile_runG (fun l2 => decide (trim l2 ≠ ((":END:").data)))
    (drawerPropLines t) (drawerPropLines_not_end t) ((":END:").data) (by decide)
    ([] :: descLinesOf t)
  have hprops := drawerPropLines_parse t hWF hpar
  have hbody : trim (joinNL ([] :: descLinesOf t)) = t.description := by
    unfold descLinesOf
    by_cases hd : t.description ≠ ([] : Str)
    · rw [if_pos hd, trim_stable t.description (hWF.2.2.2.2.2.1) (hWF.2.2.2.2.2.2.1)]
      exact trim_body_lines t.description hd (hWF.2.2.2.2.2.1) (hWF.2.2.2.2.2.2.1)
    · rw [if_neg hd]
      simp only [ne_eq, not_not] at hd
      rw [hd]
      rfl
  simp only [parseChunk]
  rw [parseHeading_round t lv hWF]
  cases hdue : t.due_date with
  | none =>
    have hsl : schedLinesOf t = [] := by unfold schedLinesOf; rw [hdue]
    rw [hsl]
    simp only [List.nil_append, List.cons_append]
    have hps : parseSched ((":PROPERTIES:").data) = none := by rfl
    simp only [hps]
    rw [if_pos (by rfl :
      trim ((":PROPERTIES:").data) = ((":PROPERTIES:").data))]
    rw [List.append_assoc]
    simp only [List.cons_append, List.nil_append] at hrun ⊢
    rw [hrun.1, hrun.2]
    simp only [List.drop_succ_cons, List.drop_zero]
    rw [hprops, hbody]
    unfold orgNodeOf
    rw [hdue]
    rfl
  | some d =>
    have hdv : d.Valid := hWF.2.2.2.2.2.2.2.2.2.2.2.2.2.2.1 d hdue
    have hsl : schedLinesOf t
        = [(("SCHEDULED: <").data) ++ d.schedFmt ++ ['>']] := by
      unfold schedLinesOf; rw [hdue]
    rw [hsl]
    have hpl := parseSched_line d hdv
    simp only [List.cons_append, List.nil_append] at hpl ⊢
    simp only [hpl]
    rw [if_pos (by rfl :
      trim ((":PROPERTIES:").data) = ((":PROPERTIES:").data))]
    rw [List.append_assoc]
    simp only [List.cons_append, List.nil_append] at hrun ⊢
    rw [hrun.1, hrun.2]
    simp only [List.drop_succ_cons, List.drop_zero]
    rw [hprops, hbody]
    unfold orgNodeOf
    rw [hdue]
    rfl

theorem recordOfNode_round (fn : Str) (now : DT) (t : Task) (hWF : WFTask t) :
    recordOfNode fn now (orgNodeOf t) = .ok (recordOf fn t) := by
  obtain ⟨hv1, hv2, hv3, hv4, hv5, hv6, hv7⟩ := plookup_propsOf t
  have hcv : t.created_at.Valid :=
    hWF.2.2.2.2.2.2.2.2.2.2.2.2.2.2.2.1
  have hprops : (orgNodeOf t).properties = propsOf t := rfl
  simp only [recordOfNode, hprops, hv1, hv2, hv3, hv4, hv5, hv6, hv7,
    Option.getD_some, status_ofStr_value, priority_ofStr_value,
    parseIso_iso t.created_at hcv]
  cases hdue : t.due_date with
  | none =>
    have hsched : (orgNodeOf t).scheduled = none := by
      simp [orgNodeOf, hdue]
    rw [hsched]
    simp only [hv7]
    unfold recordOf
    rw [hdue]
    rfl
  | some d =>
    have hsched : (orgNodeOf t).scheduled = some d.truncMin := by
      simp [orgNodeOf, hdue]
    rw [hsched]
    unfold recordOf
    rw [hdue]
    rfl

/-! ### Writer rendering -/

theorem foldl_append_cat {α β : Type} (f : α → List β) (cs : List α) :
    ∀ init : List β,
      cs.foldl (fun acc c => acc ++ f c) init = init ++ catMap f cs := by
  induction cs with
  | nil => intro init; simp [catMap]
  | cons a r ih =>
    intro init
    rw [List.foldl_cons, ih (init ++ f a)]
    simp [catMap]

theorem catMap_append {α β : Type} (f : α → List β) (a b : List α) :
    catMap f (a ++ b) = catMap f a ++ catMap f b := by
  induction a with
  | nil => rfl
  | cons x r ih => simp [catMap, ih]

theorem catMap_catMap {α β γ : Type} (f : β → List γ) (g : α → List β)
    (l : List α) :
    catMap f (catMap g l) = catMap (fun a => catMap f (g a)) l := by
  induction l with
  | nil => rfl
  | cons x r ih => rw [catMap, catMap, catMap_append, ih]

theorem renderLines_catMap {α : Type} (h : α → List Str) (l : List α) :
    renderLines (catMap h l) = catMap (fun a => renderLines (h a)) l := by
  induction l with
  | nil => rfl
  | cons x r ih => rw [catMap, catMap, renderLines_append, ih]

theorem catMap_congr {α β : Type} (f g : α → List β) (l : List α)
    (h : ∀ a ∈ l, f a = g a) : catMap f l = catMap g l := by
  induction l with
  | nil => rfl
  | cons x r ih =>
    rw [catMap, catMap, h x (by simp), ih (fun a ha => h a (by simp [ha]))]

theorem renderLines_cons (l : Str) (ls : List Str) :
    renderLines (l :: ls) = l ++ '\n' :: renderLines ls := rfl

theorem renderLines_nodeLines (t : Task) (lv : Nat) :
    renderLines (nodeLines t lv)
      = headingLineOf t lv ++ ['\n']
        ++ ((match t.due_date with
             | some d => (("SCHEDULED: <").data) ++ d.schedFmt ++ ('>' :: '\n' :: [])
             | none => [])
          ++ (((":PROPERTIES:\n:id: ").data) ++ t.id ++ '\n' ::
              ((match t.parent_id with
                | some p =>
                  if p ≠ [] then ((":parent_id: ").data) ++ p ++ ['\n'] else []
                | none => []) ++
               (match t.author with
                | some a =>
                  if a ≠ [] then ((":author: ").data) ++ a ++ ['\n'] else []
                | none => []) ++
               ((":status: ").data) ++ t.status.value ++ '\n' ::
               ((":priority: ").data) ++ t.priority.value ++ '\n' ::
               ((":created_at: ").data) ++ t.created_at.iso ++ '\n' ::
               ((":END:\n\n").data))
            ++ (if t.description ≠ []
                then trim t.description ++ ('\n' :: '\n' :: []) else []))) := by
  have hsched : renderLines
      (match t.due_date with
       | some d => [(("SCHEDULED: <").data) ++ d.schedFmt ++ ['>']]
       | none => ([] : List Str))
      = (match t.due_date with
         | some d => (("SCHEDULED: <").data) ++ d.schedFmt ++ ('>' :: '\n' :: [])
         | none => ([] : Str)) := by
    cases t.due_date with
    | none => rfl
    | some d => simp [renderLines, List.append_assoc]
  have hdrawer : renderLines
      ([((":PROPERTIES:").data), ((":id: ").data) ++ t.id] ++
        (match t.parent_id with
         | some p => if p ≠ [] then [((":parent_id: ").data) ++ p] else []
         | none => []) ++
        (match t.author with
         | some a => if a ≠ [] then [((":author: ").data) ++ a] else []
         | none => []) ++
        [((":status: ").data) ++ t.status.value,
         ((":priority: ").data) ++ t.priority.value,
         ((":created_at: ").data) ++ t.created_at.iso,
         ((":END:").data), []])
      = ((":PROPERTIES:\n:id: ").data) ++ t.id ++ '\n' ::
          ((match t.parent_id with
            | some p =>
              if p ≠ [] then ((":parent_id: ").data) ++ p ++ ['\n'] else []
            | none => []) ++
           (match t.author with
            | some a =>
              if a ≠ [] then ((":author: ").data) ++ a ++ ['\n'] else []
            | none => []) ++
           ((":status: ").data) ++ t.status.value ++ '\n' ::
           ((":priority: ").data) ++ t.priority.value ++ '\n' ::
           ((":created_at: ").data) ++ t.created_at.iso ++ '\n' ::
           ((":END:\n\n").data)) := by
    cases hpa : t.parent_id with
    | none =>
      cases hau : t.author with
      | none => simp [renderLines, List.append_assoc]
      | some a =>
        by_cases ha : a ≠ ([] : Str) <;>
          simp [renderLines, List.append_assoc, ha]
    | some p =>
      by_cases hp : p ≠ ([] : Str) <;>
      cases hau : t.author with
      | none => simp [renderLines, List.append_assoc, hp]
      | some a =>
        by_cases ha : a ≠ ([] : Str) <;>
          simp [renderLines, List.append_assoc, hp, ha]
  have hdesc : renderLines
      (if t.description ≠ [] then splitLines (trim t.description) ++ [[]] else [])
      = (if t.description ≠ []
         then trim t.description ++ ('\n' :: '\n' :: []) else []) := by
    by_cases hd : t.description ≠ ([] : Str)
    · rw [if_pos hd, if_pos hd, renderLines_append, renderLines_splitLines]
      simp [renderLines, List.append_assoc]
    · rw [if_neg hd, if_neg hd]
      rfl
  unfold nodeLines
  rw [renderLines_cons, renderLines_append, renderLines_append,
    hsched, hdrawer, hdesc]
  simp [List.append_assoc]

theorem writeTaskNode_text (m : List (Str × Task)) (fuel : Nat) (t : Task)
    (lv : Nat) :
    writeTaskNode m (fuel + 1) t lv
      = renderLines (nodeLines t lv)
        ++ (sortByCreated (t.children.filterMap (alookup m))).foldl
             (fun acc c => acc ++ writeTaskNode m fuel c (lv + 1)) [] := by
  rw [renderLines_nodeLines]
  simp only [writeTaskNode]
  simp [headingLineOf, List.append_assoc]

theorem blocksOf_succ (m : List (Str × Task)) (fuel : Nat) (t : Task) (lv : Nat) :
    blocksOf m (fuel + 1) t lv
      = (t, lv) :: catMap (fun c => blocksOf m fuel c (lv + 1))
          (sortByCreated (t.children.filterMap (alookup m))) := by
  simp only [blocksOf]
  rw [foldl_append_cat]
  rfl

theorem writeTaskNode_render (m : List (Str × Task)) (fuel : Nat) :
    ∀ t lv, writeTaskNode m fuel t lv
      = renderLines (linesOfBlocks (blocksOf m fuel t lv)) := by
  induction fuel with
  | zero => intro t lv; rfl
  | succ fuel ih =>
    intro t lv
    rw [writeTaskNode_text, blocksOf_succ]
    rw [foldl_append_cat (fun c => writeTaskNode m fuel c (lv + 1))
      (sortByCreated (t.children.filterMap (alookup m))) []]
    unfold linesOfBlocks
    rw [catMap, catMap_catMap, renderLines_append, renderLines_catMap]
    rw [catMap_congr
      (fun c => renderLines (catMap (fun b => nodeLines b.1 b.2)
        (blocksOf m fuel c (lv + 1))))
      (fun c => writeTaskNode m fuel c (lv + 1))
      (sortByCreated (t.children.filterMap (alookup m)))
      (fun c _ => (ih c (lv + 1)).symm)]
    rfl

theorem orgSaveFile_render (m : List (Str × Task)) (fuel : Nat) (fn : Str)
    (ts : List Task) :
    orgSaveFile m fuel fn ts = renderLines (fileLines m fuel fn ts) := by
  unfold orgSaveFile fileLines
  rw [foldl_append_cat (fun t => writeTaskNode m fuel t 1) (sortByCreated ts) []]
  rw [renderLines_cons, renderLines_cons]
  rw [catMap_congr (fun t => writeTaskNode m fuel t 1)
    (fun t => renderLines (linesOfBlocks (blocksOf m fuel t 1)))
    (sortByCreated ts) (fun t _ => writeTaskNode_render m fuel t 1)]
  unfold linesOfBlocks
  rw [catMap_catMap, renderLines_catMap]
  simp [List.append_assoc]

/-! ### Newline-freeness of written lines -/

theorem isWS_false_ne_nl (c : Char) (h : isWS c = false) : (c = '\n') = False := by
  simp only [eq_iff_iff, iff_false]
  intro hc
  subst hc
  simp [isWS, Char.isWhitespace] at h

theorem splitLines_no_nl (s : Str) :
    ∀ l ∈ splitLines s, l.all (fun c => c ≠ '\n') = true := by
  induction s with
  | nil => intro l hl; simp [splitLines] at hl; simp [hl]
  | cons c cs ih =>
    intro l hl
    rw [splitLines] at hl
    by_cases hc : c = '\n'
    · rw [if_pos hc] at hl
      rcases List.mem_cons.mp hl with rfl | hl
      · simp
      · exact ih l hl
    · rw [if_neg hc] at hl
      rcases List.mem_cons.mp hl with rfl | hl
      · cases h2 : splitLines cs with
        | nil => exact absurd h2 (splitLines_ne_nil cs)
        | cons a b =>
          have ha := ih a (by simp [h2])
          simp only [List.headD_cons, List.all_cons, Bool.and_eq_true,
            decide_eq_true_eq]
          exact ⟨hc, by simpa using ha⟩
      · exact ih l (List.mem_of_mem_tail hl)

theorem replaceDotOrg_cons (a : Char) (cs : Str) :
    replaceDotOrg (a :: cs)
      = if ((".org").data).isPrefixOf (a :: cs) then
          (match cs with
           | _ :: _ :: _ :: rest => replaceDotOrg rest
           | _ => [])
        else a :: replaceDotOrg cs := by
  cases cs with
  | nil => rfl
  | cons c1 cs1 =>
    cases cs1 with
    | nil => rfl
    | cons c2 cs2 =>
      cases cs2 with
      | nil => rfl
      | cons c3 rest => rfl

theorem replaceDotOrg_subset (s : Str) : ∀ c ∈ replaceDotOrg s, c ∈ s := by
  have H : ∀ n (s : Str), s.length ≤ n → ∀ c ∈ replaceDotOrg s, c ∈ s := by
    intro n
    induction n with
    | zero =>
      intro s hs c hc
      have hnil : s = [] := List.eq_nil_of_length_eq_zero (by omega)
      subst hnil
      simp [replaceDotOrg] at hc
    | succ n ihn =>
      intro s hs c hc
      match s with
      | [] => simp [replaceDotOrg] at hc
      | a :: cs =>
        rw [replaceDotOrg_cons] at hc
        by_cases hpre : ((".org").data).isPrefixOf (a :: cs) = true
        · rw [if_pos hpre] at hc
          have hlen3 : 3 ≤ cs.length := by
            have hp := (List.isPrefixOf_iff_prefix.mp hpre).length_le
            simp only [List.length_cons] at hp ⊢
            have h4 : ((".org").data).length = 4 := by decide
            omega
          cases cs with
          | nil => simp at hlen3
          | cons c1 cs1 =>
            cases cs1 with
            | nil => simp at hlen3
            | cons c2 cs2 =>
              cases cs2 with
              | nil => simp at hlen3
              | cons c3 rest =>
                have hlen : rest.length ≤ n := by
                  simp only [List.length_cons] at hs ⊢
                  omega
                have hc2 : c ∈ replaceDotOrg rest := hc
                have := ihn rest hlen c hc2
                simp [this]
        · rw [if_neg hpre] at hc
          rcases List.mem_cons.mp hc with rfl | hc2
          · simp
          · have hlen : cs.length ≤ n := by
              simp only [List.length_cons] at hs
              omega
            simp [ihn cs hlen c hc2]
  exact H s.length s (Nat.le_refl _)

theorem schedFmt_no_nl (t : DT) (h : t.Valid) :
    ∀ c ∈ t.schedFmt, (c = '\n') = False := by
  obtain ⟨h1, h2, h3, h4, h5, h6, h7, h8, h9, h10⟩ := h
  have hy : t.year < 10 ^ 4 := by norm_num; omega
  have hmo : t.month < 10 ^ 2 := by norm_num; omega
  have hd : t.day < 10 ^ 2 := by
    have := daysInMonth_le t.year t.month
    norm_num
    omega
  have hh : t.hour < 10 ^ 2 := by norm_num; omega
  have hmi : t.minute < 10 ^ 2 := by norm_num; omega
  have hpad : ∀ w n, n < 10 ^ w → ∀ c ∈ padNum w n, (c = '\n') = False := by
    intro w n hn c hcm
    exact isWS_false_ne_nl c (decDigit_facts c (padNum_digits w n hn c hcm)).1
  intro c hc
  unfold DT.schedFmt at hc
  simp only [List.append_assoc] at hc
  rcases List.mem_append.mp hc with hc | hc
  · exact hpad 4 t.year hy c hc
  rcases List.mem_cons.mp hc with rfl | hc
  · simp
  rcases List.mem_append.mp hc with hc | hc
  · exact hpad 2 t.month hmo c hc
  rcases List.mem_cons.mp hc with rfl | hc
  · simp
  rcases List.mem_append.mp hc with hc | hc
  · exact hpad 2 t.day hd c hc
  rcases List.mem_cons.mp hc with rfl | hc
  · simp
  rcases List.mem_append.mp hc with hc | hc
  · exact isWS_false_ne_nl c ((weekdayAbbr_facts t.year t.month t.day).2 c hc).1
  rcases List.mem_cons.mp hc with rfl | hc
  · simp
  rcases List.mem_append.mp hc with hc | hc
  · exact hpad 2 t.hour hh c hc
  rcases List.mem_cons.mp hc with rfl | hc
  · simp
  · exact hpad 2 t.minute hmi c hc

theorem iso_no_nl (t : DT) (h : t.Valid) : ∀ c ∈ t.iso, (c = '\n') = False :=
  fun c hc => isWS_false_ne_nl c (iso_no_ws t h c hc)

theorem status_value_no_nl (s : Status) : ∀ c ∈ s.value, (c = '\n') = False := by
  cases s with
  | TODO =>
    intro c hc
    have h2 : c = 'T' ∨ c = 'O' ∨ c = 'D' ∨ c = 'O' := by
      simpa [Status.value] using hc
    rcases h2 with rfl | rfl | rfl | rfl <;> simp
  | DONE =>
    intro c hc
    have h2 : c = 'D' ∨ c = 'O' ∨ c = 'N' ∨ c = 'E' := by
      simpa [Status.value] using hc
    rcases h2 with rfl | rfl | rfl | rfl <;> simp
  | WAITING =>
    intro c hc
    have h2 : c = 'W' ∨ c = 'A' ∨ c = 'I' ∨ c = 'T' ∨ c = 'I' ∨ c = 'N' ∨ c = 'G' := by
      simpa [Status.value] using hc
    rcases h2 with rfl | rfl | rfl | rfl | rfl | rfl | rfl <;> simp

theorem priority_value_no_nl (p : Priority) : ∀ c ∈ p.value, (c = '\n') = False := by
  cases p with
  | HIGH =>
    intro c hc
    have h2 : c = 'A' := by simpa [Priority.value] using hc
    subst h2; simp
  | MEDIUM =>
    intro c hc
    have h2 : c = 'B' := by simpa [Priority.value] using hc
    subst h2; simp
  | LOW =>
    intro c hc
    have h2 : c = 'C' := by simpa [Priority.value] using hc
    subst h2; simp
  | NONE =>
    intro c hc
    have h2 : c = 'D' := by simpa [Priority.value] using hc
    subst h2; simp

theorem headingLineOf_noNL (t : Task) (lv : Nat) (hWF : WFTask t) :
    (headingLineOf t lv).all (fun c => c ≠ '\n') = true := by
  have htitle := hWF.2.2.2.1
  rw [List.all_eq_true]
  intro c hc
  unfold headingLineOf at hc
  simp only [decide_eq_true_eq]
  rcases List.mem_append.mp hc with hc | hc
  · have := List.eq_of_mem_replicate hc
    subst this
    simp
  rcases List.mem_cons.mp hc with rfl | hc
  · simp
  rcases List.mem_append.mp hc with hc | hc
  · rcases List.mem_append.mp hc with hc | hc
    · by_cases hst : t.status ≠ Status.TODO
      · rw [if_pos hst] at hc
        rcases List.mem_append.mp hc with hc | hc
        · have := status_value_no_nl t.status c hc
          simp only [eq_iff_iff, iff_false] at this
          exact this
        · rcases List.mem_singleton.mp hc with rfl; simp
      · rw [if_neg hst] at hc
        exact absurd hc (List.not_mem_nil c)
    · rw [List.all_eq_true] at htitle
      have := htitle c hc
      simp only [decide_eq_true_eq] at this
      exact this.1
  rcases List.mem_cons.mp hc with rfl | hc
  · simp
  · by_cases htg : t.tags ≠ ([] : List Str)
    · rw [if_pos htg] at hc
      have hch := wf_tag_chars t hWF c hc
      intro he
      subst he
      simp [isWS, Char.isWhitespace] at hch
    · rw [if_neg htg] at hc
      exact absurd hc (List.not_mem_nil c)

theorem nodeLines_noNL (t : Task) (lv : Nat) (hWF : WFTask t)
    (hpar : ∀ p, t.parent_id = some p → noNL p) :
    ∀ l ∈ nodeLines t lv, l.all (fun c => c ≠ '\n') = true := by
  have hid := hWF.2.2.2.2.2.2.2.2.2.2.2.2.1
  have hau := hWF.2.2.2.2.2.2.2.2.2.2.2.2.2.1
  have hduev := hWF.2.2.2.2.2.2.2.2.2.2.2.2.2.2.1
  have hcrv := hWF.2.2.2.2.2.2.2.2.2.2.2.2.2.2.2.1
  intro l hl
  rw [nodeLines_decomp] at hl
  rcases List.mem_cons.mp hl with rfl | hl
  · exact headingLineOf_noNL t lv hWF
  rcases List.mem_append.mp hl with hl | hl
  rcases List.mem_append.mp hl with hl | hl
  · unfold schedLinesOf at hl
    cases hdue : t.due_date with
    | none => rw [hdue] at hl; exact absurd hl (List.not_mem_nil l)
    | some d =>
      rw [hdue] at hl
      rcases List.mem_singleton.mp hl with rfl
      rw [List.all_eq_true]
      intro c hc
      simp only [decide_eq_true_eq]
      simp only [List.append_assoc] at hc
      rcases List.mem_append.mp hc with hc | hc
      · fin_cases hc <;> simp
      rcases List.mem_append.mp hc with hc | hc
      · have := schedFmt_no_nl d (hduev d hdue) c hc
        simp only [eq_iff_iff, iff_false] at this
        exact this
      · rcases List.mem_singleton.mp hc with rfl; simp
  · rcases List.mem_cons.mp hl with rfl | hl
    · decide
    rcases List.mem_append.mp hl with hl | hl
    · unfold drawerPropLines at hl
      rw [List.all_eq_true]
      intro c hc
      simp only [decide_eq_true_eq]
      rcases List.mem_cons.mp hl with rfl | hl
      · rcases List.mem_append.mp hc with hc | hc
        · fin_cases hc <;> simp
        · unfold noNL at hid
          rw [List.all_eq_true] at hid
          have := hid c hc
          simpa using this
      rcases List.mem_append.mp hl with hl | hl
      rcases List.mem_append.mp hl with hl | hl
      · cases hpa : t.parent_id with
        | none => rw [hpa] at hl; exact absurd hl (List.not_mem_nil l)
        | some p =>
          rw [hpa] at hl
          by_cases hp : p ≠ ([] : Str)
          · simp only [if_pos hp] at hl
            rcases List.mem_singleton.mp hl with rfl
            rcases List.mem_append.mp hc with hc | hc
            · fin_cases hc <;> simp
            · have := hpar p hpa
              unfold noNL at this
              rw [List.all_eq_true] at this
              simpa using this c hc
          · simp only [if_neg hp] at hl
            exact absurd hl (List.not_mem_nil l)
      · cases hau2 : t.author with
        | none => rw [hau2] at hl; exact absurd hl (List.not_mem_nil l)
        | some a =>
          rw [hau2] at hl
          by_cases ha : a ≠ ([] : Str)
          · simp only [if_pos ha] at hl
            rcases List.mem_singleton.mp hl with rfl
            rcases List.mem_append.mp hc with hc | hc
            · fin_cases hc <;> simp
            · have := hau a hau2
              unfold noNL at this
              rw [List.all_eq_true] at this
              simpa using this c hc
          · simp only [if_neg ha] at hl
            exact absurd hl (List.not_mem_nil l)
      rcases List.mem_cons.mp hl with rfl | hl
      · rcases List.mem_append.mp hc with hc | hc
        · fin_cases hc <;> simp
        · have := status_value_no_nl t.status c hc
          simp only [eq_iff_iff, iff_false] at this
          exact this
      rcases List.mem_cons.mp hl with rfl | hl
      · rcases List.mem_append.mp hc with hc | hc
        · fin_cases hc <;> simp
        · have := priority_value_no_nl t.priority c hc
          simp only [eq_iff_iff, iff_false] at this
          exact this
      rcases List.mem_cons.mp hl with rfl | hl
      · rcases List.mem_append.mp hc with hc | hc
        · fin_cases hc <;> simp
        · have := iso_no_nl t.created_at hcrv c hc
          simp only [eq_iff_iff, iff_false] at this
          exact this
      · exact absurd hl (List.not_mem_nil l)
    rcases List.mem_cons.mp hl with rfl | hl
    · decide
    rcases List.mem_cons.mp hl with rfl | hl
    · decide
    · exact absurd hl (List.not_mem_nil l)
  · unfold descLinesOf at hl
    by_cases hd : t.description ≠ ([] : Str)
    · rw [if_pos hd] at hl
      rcases List.mem_append.mp hl with hl | hl
      · exact splitLines_no_nl _ l hl
      · rcases List.mem_singleton.mp hl with rfl; decide
    · rw [if_neg hd] at hl
      exact absurd hl (List.not_mem_nil l)

/-! ### Block membership -/

theorem mem_catMap {α β : Type} (f : α → List β) (l : List α) (b : β) :
    b ∈ catMap f l ↔ ∃ a ∈ l, b ∈ f a := by
  induction l with
  | nil => simp [catMap]
  | cons x r ih =>
    rw [catMap, List.mem_append, ih]
    constructor
    · rintro (hb | ⟨a, ha, hb⟩)
      · exact ⟨x, by simp, hb⟩
      · exact ⟨a, by simp [ha], hb⟩
    · rintro ⟨a, ha, hb⟩
      rcases List.mem_cons.mp ha with rfl | ha
      · exact Or.inl hb
      · exact Or.inr ⟨a, ha, hb⟩

theorem insertBy_mem (le : Task → Task → Bool) (x y : Task) (l : List Task) :
    y ∈ insertBy le x l ↔ y = x ∨ y ∈ l := by
  induction l with
  | nil => simp [insertBy]
  | cons a r ih =>
    rw [insertBy]
    by_cases h : le x a = true
    · rw [if_pos h]
      simp
    · rw [if_neg h]
      rw [List.mem_cons, List.mem_cons, ih]
      tauto

theorem sortBy_mem (le : Task → Task → Bool) (l : List Task) (y : Task) :
    y ∈ sortBy le l ↔ y ∈ l := by
  induction l with
  | nil => simp [sortBy]
  | cons a r ih =>
    rw [sortBy, insertBy_mem]
    rw [List.mem_cons, ih]

theorem sortByCreated_mem (l : List Task) (y : Task) :
    y ∈ sortByCreated l ↔ y ∈ l := sortBy_mem _ l y

theorem alookup_mem (m : List (Str × Task)) (k : Str) (v : Task)
    (h : alookup m k = some v) : (k, v) ∈ m := by
  induction m with
  | nil => simp [alookup] at h
  | cons kv r ih =>
    rw [alookup] at h
    by_cases he : kv.1 = k
    · rw [if_pos he] at h
      have hv : kv.2 = v := Option.some.inj h
      rcases kv with ⟨k', v'⟩
      simp only at he hv
      subst he
      subst hv
      simp
    · rw [if_neg he] at h
      simp [ih h]

theorem blocksOf_mem_facts (m : List (Str × Task)) (P : Task → Prop)
    (hm : ∀ kv ∈ m, P kv.2) (fuel : Nat) :
    ∀ t lv, P t → ∀ b ∈ blocksOf m fuel t lv, P b.1 ∧ lv ≤ b.2 := by
  induction fuel with
  | zero => intro t lv _ b hb; simp [blocksOf] at hb
  | succ fuel ih =>
    intro t lv hP b hb
    rw [blocksOf_succ] at hb
    rcases List.mem_cons.mp hb with rfl | hb
    · exact ⟨hP, Nat.le_refl lv⟩
    · rw [mem_catMap] at hb
      obtain ⟨c, hc, hbc⟩ := hb
      have hcm : c ∈ t.children.filterMap (alookup m) :=
        (sortByCreated_mem _ c).mp hc
      rw [List.mem_filterMap] at hcm
      obtain ⟨k, _, hk⟩ := hcm
      have hPc : P c := hm (k, c) (alookup_mem m k c hk)
      have h2 := ih c (lv + 1) hPc b hbc
      exact ⟨h2.1, by omega⟩

/-! ### Heading-line classification -/

theorem isHeadingLine_headingLineOf (t : Task) (lv : Nat) (hlv : 1 ≤ lv) :
    isHeadingLine (headingLineOf t lv) = true := by
  obtain ⟨lv2, rfl⟩ : ∃ lv2, lv = lv2 + 1 := ⟨lv - 1, by omega⟩
  unfold headingLineOf
  have hrep : List.replicate (lv2 + 1) '*' = '*' :: List.replicate lv2 '*' := rfl
  rw [hrep]
  unfold isHeadingLine
  simp only [List.cons_append]
  have hdrop : ∀ n (r : Str),
      (List.replicate n '*' ++ ' ' :: r).dropWhile (fun c => c = '*')
        = ' ' :: r := by
    intro n r
    induction n with
    | zero => simp [List.dropWhile_cons]
    | succ n ihn =>
      rw [List.replicate_succ, List.cons_append, List.dropWhile_cons,
        if_pos (by decide)]
      exact ihn
  rw [hdrop]
  rfl

theorem isHeadingLine_colon (l : Str) : isHeadingLine (':' :: l) = false := rfl

theorem isHeadingLine_nil : isHeadingLine ([] : Str) = false := rfl

theorem nodeLines_tail_nonheading (t : Task) (hWF : WFTask t) :
    ∀ l ∈ (schedLinesOf t
        ++ (((":PROPERTIES:").data) :: (drawerPropLines t ++ [((":END:").data), []]))
        ++ descLinesOf t), isHeadingLine l = false := by
  have hdesc := hWF.2.2.2.2.2.2.2.1
  intro l hl
  rcases List.mem_append.mp hl with hl | hl
  rcases List.mem_append.mp hl with hl | hl
  · unfold schedLinesOf at hl
    cases hdue : t.due_date with
    | none => rw [hdue] at hl; exact absurd hl (List.not_mem_nil l)
    | some d =>
      rw [hdue] at hl
      rcases List.mem_singleton.mp hl with rfl
      rfl
  · rcases List.mem_cons.mp hl with rfl | hl
    · rfl
    rcases List.mem_append.mp hl with hl | hl
    · unfold drawerPropLines at hl
      rcases List.mem_cons.mp hl with rfl | hl
      · rfl
      rcases List.mem_append.mp hl with hl | hl
      rcases List.mem_append.mp hl with hl | hl
      · cases hpa : t.parent_id with
        | none => rw [hpa] at hl; exact absurd hl (List.not_mem_nil l)
        | some p =>
          rw [hpa] at hl
          by_cases hp : p ≠ ([] : Str)
          · simp only [if_pos hp] at hl
            rcases List.mem_singleton.mp hl with rfl
            rfl
          · simp only [if_neg hp] at hl
            exact absurd hl (List.not_mem_nil l)
      · cases hau : t.author with
        | none => rw [hau] at hl; exact absurd hl (List.not_mem_nil l)
        | some a =>
          rw [hau] at hl
          by_cases ha : a ≠ ([] : Str)
          · simp only [if_pos ha] at hl
            rcases List.mem_singleton.mp hl with rfl
            rfl
          · simp only [if_neg ha] at hl
            exact absurd hl (List.not_mem_nil l)
      rcases List.mem_cons.mp hl with rfl | hl
      · rfl
      rcases List.mem_cons.mp hl with rfl | hl
      · rfl
      rcases List.mem_cons.mp hl with rfl | hl
      · rfl
      · exact absurd hl (List.not_mem_nil l)
    rcases List.mem_cons.mp hl with rfl | hl
    · rfl
    rcases List.mem_cons.mp hl with rfl | hl
    · rfl
    · exact absurd hl (List.not_mem_nil l)
  · unfold descLinesOf at hl
    by_cases hd : t.description ≠ ([] : Str)
    · rw [if_pos hd] at hl
      rcases List.mem_append.mp hl with hl | hl
      · rw [trim_stable t.description (hWF.2.2.2.2.2.1) (hWF.2.2.2.2.2.2.1)] at hl
        rw [List.all_eq_true] at hdesc
        have := hdesc l hl
        simpa using this
      · rcases List.mem_singleton.mp hl with rfl
        rfl
    · rw [if_neg hd] at hl
      exact absurd hl (List.not_mem_nil l)

/-! ### Chunker correctness on written lines -/

theorem chunkAux_nonheading (b : List Str)
    (hb : ∀ l ∈ b, isHeadingLine l = false) :
    ∀ (rest : List Str) (cur : Str × List Str),
      chunkAux (b ++ rest) (some cur)
        = chunkAux rest (some (cur.1, cur.2 ++ b)) := by
  induction b with
  | nil => intro rest cur; simp
  | cons l b ih =>
    intro rest cur
    rw [List.cons_append, chunkAux]
    rw [if_neg (by simp [hb l (by simp)])]
    rw [ih (fun x hx => hb x (by simp [hx])) rest (cur.1, cur.2 ++ [l])]
    simp

theorem chunkAux_preamble (pre : List Str)
    (hpre : ∀ l ∈ pre, isHeadingLine l = false) :
    ∀ rest, chunkAux (pre ++ rest) none = chunkAux rest none := by
  induction pre with
  | nil => intro rest; rfl
  | cons l p ih =>
    intro rest
    rw [List.cons_append, chunkAux]
    rw [if_neg (by simp [hpre l (by simp)])]
    exact ih (fun x hx => hpre x (by simp [hx])) rest

theorem chunkAux_flatten (ext : List Str)
    (hext : ∀ l ∈ ext, isHeadingLine l = false) :
    ∀ bs : List (Str × List Str),
      (∀ b ∈ bs, isHeadingLine b.1 = true ∧ ∀ l ∈ b.2, isHeadingLine l = false) →
      bs ≠ [] →
      (∀ cur, chunkAux (flattenChunks bs ++ ext) (some cur)
          = cur :: chunksExt bs ext) ∧
        chunkAux (flattenChunks bs ++ ext) none = chunksExt bs ext := by
  have hfin : ∀ cur : Str × List Str,
      chunkAux ext (some cur) = [(cur.1, cur.2 ++ ext)] := by
    intro cur
    have h2 := chunkAux_nonheading ext hext [] cur
    simpa using h2
  intro bs
  induction bs with
  | nil => intro _ hne; exact absurd rfl hne
  | cons b r ih =>
    intro hgood _
    have hb := hgood b (by simp)
    have hlines : flattenChunks (b :: r) ++ ext
        = b.1 :: (b.2 ++ (flattenChunks r ++ ext)) := by
      simp [flattenChunks, catMap, List.append_assoc]
    have hcore : chunkAux (b.2 ++ (flattenChunks r ++ ext)) (some (b.1, []))
        = chunksExt (b :: r) ext := by
      rw [chunkAux_nonheading b.2 hb.2 (flattenChunks r ++ ext) (b.1, [])]
      simp only [List.nil_append]
      cases r with
      | nil =>
        have he : flattenChunks ([] : List (Str × List Str)) ++ ext = ext := by
          simp [flattenChunks, catMap]
        rw [he, hfin (b.1, b.2)]
        rfl
      | cons b2 r2 =>
        have ih2 := ih (fun x hx => hgood x (by simp [hx])) (by simp)
        rw [ih2.1 (b.1, b.2)]
        rfl
    constructor
    · intro cur
      rw [hlines, chunkAux, if_pos hb.1, hcore]
    · rw [hlines, chunkAux, if_pos hb.1, hcore]

theorem trim_body_lines2 (d : Str) (hne : d ≠ []) (h1 : trimLeft d = d)
    (h2 : trimRight d = d) :
    trim (joinNL ([] :: ((splitLines d ++ [[]]) ++ [[]]))) = d := by
  have hsn := splitLines_ne_nil d
  have e1 : joinNL ([] :: ((splitLines d ++ [[]]) ++ [[]]))
      = '\n' :: joinNL ((splitLines d ++ [[]]) ++ [[]]) := by
    cases hsp : splitLines d with
    | nil => exact absurd hsp hsn
    | cons a r => rfl
  rw [e1, joinNL_concat_empty _ (by simp [hsn]), joinNL_concat_empty _ hsn,
    joinNL_splitLines]
  obtain ⟨c, r, rfl⟩ : ∃ c r, d = c :: r := by
    cases d with
    | nil => exact absurd rfl hne
    | cons c r => exact ⟨c, r, rfl⟩
  have hc : isWS c = false := trimLeft_stable_head (c :: r) hne h1 c r rfl
  unfold trim
  have htl : trimLeft ('\n' :: (((c :: r) ++ ['\n']) ++ ['\n']))
      = ((c :: r) ++ ['\n']) ++ ['\n'] := by
    unfold trimLeft
    rw [List.dropWhile_cons, if_pos (by decide)]
    have hh := trimLeft_of_head c ((r ++ ['\n']) ++ ['\n']) hc
    unfold trimLeft at hh
    simpa [List.append_assoc] using hh
  rw [htl, trimRight_append, if_pos (by decide), trimRight_append,
    if_pos (by decide)]
  exact h2

theorem parseChunk_round_ext (t : Task) (lv : Nat) (hWF : WFTask t)
    (hpar : ∀ p, t.parent_id = some p → trim p = p)
    (ex : List Str) (hex : ex = [] ∨ ex = [[]]) :
    parseChunk (headingLineOf t lv) (nodeTail t ++ ex) = orgNodeOf t := by
  have hrun := takeWhile_runG (fun l2 => decide (trim l2 ≠ ((":END:").data)))
    (drawerPropLines t) (drawerPropLines_not_end t) ((":END:").data) (by decide)
    ([] :: (descLinesOf t ++ ex))
  have hprops := drawerPropLines_parse t hWF hpar
  have hd1 := hWF.2.2.2.2.2.1
  have hd2 := hWF.2.2.2.2.2.2.1
  have hbody : trim (joinNL ([] :: (descLinesOf t ++ ex))) = t.description := by
    unfold descLinesOf
    by_cases hd : t.description ≠ ([] : Str)
    · rw [if_pos hd, trim_stable t.description hd1 hd2]
      rcases hex with rfl | rfl
      · rw [List.append_nil]
        exact trim_body_lines t.description hd hd1 hd2
      · exact trim_body_lines2 t.description hd hd1 hd2
    · rw [if_neg hd]
      simp only [ne_eq, not_not] at hd
      rw [hd]
      rcases hex with rfl | rfl
      · rfl
      · rfl
  unfold nodeTail
  simp only [parseChunk]
  rw [parseHeading_round t lv hWF]
  cases hdue : t.due_date with
  | none =>
    have hsl : schedLinesOf t = [] := by unfold schedLinesOf; rw [hdue]
    rw [hsl]
    have hps : parseSched ((":PROPERTIES:").data) = none := by rfl
    simp only [List.nil_append, List.cons_append, List.append_assoc]
    simp only [hps]
    rw [if_pos (by rfl :
      trim ((":PROPERTIES:").data) = ((":PROPERTIES:").data))]
    simp only [List.cons_append, List.nil_append, List.append_assoc] at hrun ⊢
    rw [hrun.1, hrun.2]
    simp only [List.drop_succ_cons, List.drop_zero]
    rw [hprops, hbody]
    unfold orgNodeOf
    rw [hdue]
    rfl
  | some d =>
    have hdv : d.Valid := hWF.2.2.2.2.2.2.2.2.2.2.2.2.2.2.1 d hdue
    have hsl : schedLinesOf t
        = [(("SCHEDULED: <").data) ++ d.schedFmt ++ ['>']] := by
      unfold schedLinesOf; rw [hdue]
    rw [hsl]
    have hpl := parseSched_line d hdv
    simp only [List.cons_append, List.nil_append, List.append_assoc] at hpl ⊢
    simp only [hpl]
    rw [if_pos (by rfl :
      trim ((":PROPERTIES:").data) = ((":PROPERTIES:").data))]
    simp only [List.cons_append, List.nil_append, List.append_assoc] at hrun ⊢
    rw [hrun.1, hrun.2]
    simp only [List.drop_succ_cons, List.drop_zero]
    rw [hprops, hbody]
    unfold orgNodeOf
    rw [hdue]
    rfl

/-! ### Per-file load of saved output -/

theorem chunksExt_map_parse (ex : List Str) (hex : ex = [] ∨ ex = [[]]) :
    ∀ bs : List (Task × Nat), (∀ b ∈ bs, SavedTaskOK b.1) →
      (chunksExt (bs.map blockChunk) ex).map (fun c => parseChunk c.1 c.2)
        = bs.map (fun b => orgNodeOf b.1) := by
  intro bs
  induction bs with
  | nil => intro _; rfl
  | cons b r ih =>
    intro hok
    have hb := hok b (by simp)
    have hparse0 := parseChunk_round_ext b.1 b.2 hb.1
      (fun p hp => (hb.2 p hp).1)
    cases r with
    | nil =>
      have e : chunksExt ([b].map blockChunk) ex
          = [((blockChunk b).1, (blockChunk b).2 ++ ex)] := rfl
      rw [e]
      simp only [List.map_cons, List.map_nil]
      rw [show (blockChunk b).1 = headingLineOf b.1 b.2 from rfl,
        show (blockChunk b).2 = nodeTail b.1 from rfl]
      rw [hparse0 ex hex]
    | cons b2 r2 =>
      have e : chunksExt ((b :: b2 :: r2).map blockChunk) ex
          = blockChunk b :: chunksExt ((b2 :: r2).map blockChunk) ex := rfl
      rw [e]
      simp only [List.map_cons]
      have hparse := hparse0 [] (Or.inl rfl)
      rw [List.append_nil] at hparse
      rw [show (blockChunk b).1 = headingLineOf b.1 b.2 from rfl,
        show (blockChunk b).2 = nodeTail b.1 from rfl, hparse]
      have := ih (fun x hx => hok x (by simp [hx]))
      simp only [List.map_cons] at this
      rw [this]

theorem blocks_ok (m : List (Str × Task)) (P : Task → Prop)
    (hQm : ∀ kv ∈ m, P kv.2) (fuel : Nat) (ts : List Task)
    (hts : ∀ t ∈ ts, P t) :
    ∀ b ∈ catMap (fun t => blocksOf m fuel t 1) (sortByCreated ts),
      P b.1 ∧ 1 ≤ b.2 := by
  intro b hb
  rw [mem_catMap] at hb
  obtain ⟨t0, ht0, hbt⟩ := hb
  have ht0m : t0 ∈ ts := (sortByCreated_mem ts t0).mp ht0
  exact blocksOf_mem_facts m P hQm fuel t0 1 (hts t0 ht0m) b hbt

theorem linesOfBlocks_flatten (bs : List (Task × Nat)) :
    linesOfBlocks bs = flattenChunks (bs.map blockChunk) := by
  induction bs with
  | nil => rfl
  | cons b r ih =>
    unfold linesOfBlocks at ih ⊢
    rw [catMap]
    simp only [List.map_cons]
    rw [show flattenChunks (blockChunk b :: List.map blockChunk r)
        = (blockChunk b).1 :: ((blockChunk b).2
            ++ flattenChunks (List.map blockChunk r)) from rfl]
    rw [nodeLines_decomp b.1 b.2, ih]
    rfl

theorem fileLines_noNL (m : List (Str × Task)) (fuel : Nat) (fn : Str)
    (ts : List Task) (hfn : noNL fn)
    (hQm : ∀ kv ∈ m, SavedTaskOK kv.2) (hts : ∀ t ∈ ts, SavedTaskOK t) :
    ∀ l ∈ fileLines m fuel fn ts, l.all (fun c => c ≠ '\n') = true := by
  intro l hl
  unfold fileLines at hl
  rcases List.mem_cons.mp hl with rfl | hl
  · rw [List.all_eq_true]
    intro c hc
    simp only [decide_eq_true_eq]
    rcases List.mem_append.mp hc with hc | hc
    · fin_cases hc <;> simp
    · have hcf : c ∈ fn := replaceDotOrg_subset fn c hc
      unfold noNL at hfn
      rw [List.all_eq_true] at hfn
      simpa using hfn c hcf
  rcases List.mem_cons.mp hl with rfl | hl
  · rfl
  · unfold linesOfBlocks at hl
    rw [mem_catMap] at hl
    obtain ⟨b, hb, hlb⟩ := hl
    have hok := blocks_ok m SavedTaskOK hQm fuel ts hts b hb
    exact nodeLines_noNL b.1 b.2 hok.1.1 (fun p hp => (hok.1.2 p hp).2) l hlb

theorem splitLines_orgSaveFile (m : List (Str × Task)) (fuel : Nat) (fn : Str)
    (ts : List Task) (hfn : noNL fn)
    (hQm : ∀ kv ∈ m, SavedTaskOK kv.2) (hts : ∀ t ∈ ts, SavedTaskOK t) :
    splitLines (orgSaveFile m fuel fn ts) = fileLines m fuel fn ts ++ [[]] := by
  rw [orgSaveFile_render]
  have h2 := splitLines_renderLines (fileLines m fuel fn ts)
    (fileLines_noNL m fuel fn ts hfn hQm hts) []
  rw [List.append_nil] at h2
  rw [h2]
  rfl

theorem parseOrgFile_save (m : List (Str × Task)) (fuel : Nat) (fn : Str)
    (ts : List Task) (hfn : noNL fn)
    (hQm : ∀ kv ∈ m, SavedTaskOK kv.2) (hts : ∀ t ∈ ts, SavedTaskOK t)
    (hne : ts ≠ []) :
    parseOrgFile (orgSaveFile m (fuel + 1) fn ts)
      = (catMap (fun t => blocksOf m (fuel + 1) t 1) (sortByCreated ts)).map
          (fun b => orgNodeOf b.1) := by
  have hblocks := blocks_ok m SavedTaskOK hQm (fuel + 1) ts hts
  have hbne : catMap (fun t => blocksOf m (fuel + 1) t 1) (sortByCreated ts)
      ≠ [] := by
    obtain ⟨t0, ht0⟩ := List.exists_mem_of_ne_nil ts hne
    have ht0s : t0 ∈ sortByCreated ts := (sortByCreated_mem ts t0).mpr ht0
    have hmem : (t0, 1) ∈ catMap (fun t => blocksOf m (fuel + 1) t 1)
        (sortByCreated ts) := by
      rw [mem_catMap]
      exact ⟨t0, ht0s, by rw [blocksOf_succ]; simp⟩
    exact List.ne_nil_of_mem hmem
  unfold parseOrgFile
  rw [splitLines_orgSaveFile m (fuel + 1) fn ts hfn hQm hts]
  unfold fileLines chunkNodes
  have htitle : isHeadingLine ((("#+TITLE: ").data) ++ replaceDotOrg fn)
      = false := rfl
  have hpre := chunkAux_preamble [(("#+TITLE: ").data) ++ replaceDotOrg fn, []]
    (by
      intro x hx
      rcases List.mem_cons.mp hx with rfl | hx
      · exact htitle
      rcases List.mem_singleton.mp hx with rfl
      · exact isHeadingLine_nil)
    (linesOfBlocks (catMap (fun t => blocksOf m (fuel + 1) t 1)
      (sortByCreated ts)) ++ [[]])
  have hshape : ((((("#+TITLE: ").data) ++ replaceDotOrg fn) :: [] ::
      linesOfBlocks (catMap (fun t => blocksOf m (fuel + 1) t 1)
        (sortByCreated ts))) ++ [[]])
      = [(("#+TITLE: ").data) ++ replaceDotOrg fn, []] ++
        (linesOfBlocks (catMap (fun t => blocksOf m (fuel + 1) t 1)
          (sortByCreated ts)) ++ [[]]) := by simp
  rw [hshape, hpre]
  rw [linesOfBlocks_flatten]
  have hflat := (chunkAux_flatten [[]] (by intro l hl; fin_cases hl; rfl)
    ((catMap (fun t => blocksOf m (fuel + 1) t 1) (sortByCreated ts)).map
      blockChunk)
    (by
      intro b hb
      rw [List.mem_map] at hb
      obtain ⟨b0, hb0, rfl⟩ := hb
      have hok := hblocks b0 hb0
      refine ⟨isHeadingLine_headingLineOf b0.1 b0.2 hok.2, ?_⟩
      exact nodeLines_tail_nonheading b0.1 hok.1.1)
    (by simpa using hbne)).2
  rw [hflat]
  exact chunksExt_map_parse [[]] (Or.inr rfl) _
    (fun b hb => (hblocks b hb).1)

/-! ### Grouping by file -/

theorem mem_gupsert (acc : List (Option Str × List Task)) (fn : Option Str)
    (t : Task) (g : Option Str × List Task) (h : g ∈ gupsert acc fn t) :
    (∃ g0 ∈ acc, g.1 = g0.1 ∧
      (g.2 = g0.2 ∨ (g.2 = g0.2 ++ [t] ∧ g.1 = fn)))
      ∨ g = (fn, [t]) := by
  induction acc with
  | nil =>
    rw [gupsert] at h
    rcases List.mem_singleton.mp h with rfl
    exact Or.inr rfl
  | cons g0 r ih =>
    obtain ⟨f, l⟩ := g0
    rw [gupsert] at h
    by_cases he : f = fn
    · rw [if_pos he] at h
      rcases List.mem_cons.mp h with rfl | h
      · exact Or.inl ⟨(f, l), by simp, rfl, Or.inr ⟨rfl, he⟩⟩
      · exact Or.inl ⟨g, by simp [h], rfl, Or.inl rfl⟩
    · rw [if_neg he] at h
      rcases List.mem_cons.mp h with rfl | h
      · exact Or.inl ⟨(f, l), by simp, rfl, Or.inl rfl⟩
      · rcases ih h with ⟨g1, hg1, he1, hm1⟩ | he1
        · exact Or.inl ⟨g1, by simp [hg1], he1, hm1⟩
        · exact Or.inr he1

theorem gupsert_covers (acc : List (Option Str × List Task)) (fn : Option Str)
    (t : Task) : ∃ g ∈ gupsert acc fn t, g.1 = fn ∧ t ∈ g.2 := by
  induction acc with
  | nil => exact ⟨(fn, [t]), by simp [gupsert]⟩
  | cons g0 r ih =>
    obtain ⟨f, l⟩ := g0
    rw [gupsert]
    by_cases he : f = fn
    · rw [if_pos he]
      exact ⟨(f, l ++ [t]), by simp, he, by simp⟩
    · rw [if_neg he]
      obtain ⟨g, hg, hgf, hgt⟩ := ih
      exact ⟨g, by simp [hg], hgf, hgt⟩

theorem gupsert_keeps (acc : List (Option Str × List Task)) (fn : Option Str)
    (t : Task) :
    ∀ g0 ∈ acc, ∀ x ∈ g0.2, ∃ g ∈ gupsert acc fn t, x ∈ g.2 := by
  induction acc with
  | nil => intro g0 hg0; exact absurd hg0 (List.not_mem_nil g0)
  | cons ga r ih =>
    obtain ⟨f, l⟩ := ga
    intro g0 hg0 x hx
    rw [gupsert]
    by_cases he : f = fn
    · rw [if_pos he]
      rcases List.mem_cons.mp hg0 with rfl | hg0
      · exact ⟨(f, l ++ [t]), by simp, by simp at hx ⊢; exact Or.inl hx⟩
      · exact ⟨g0, by simp [hg0], hx⟩
    · rw [if_neg he]
      rcases List.mem_cons.mp hg0 with rfl | hg0
      · exact ⟨(f, l), by simp, hx⟩
      · obtain ⟨g, hg, hgx⟩ := ih g0 hg0 x hx
        exact ⟨g, by simp [hg], hgx⟩

theorem gupsert_ne_nil (acc : List (Option Str × List Task)) (fn : Option Str)
    (t : Task) (hacc : ∀ g ∈ acc, g.2 ≠ []) :
    ∀ g ∈ gupsert acc fn t, g.2 ≠ [] := by
  intro g hg
  rcases mem_gupsert acc fn t g hg with ⟨g0, hg0, _, hm⟩ | rfl
  · rcases hm with hm | ⟨hm, _⟩
    · rw [hm]; exact hacc g0 hg0
    · rw [hm]; simp
  · simp

theorem groupFold_facts (ts : List Task) :
    ∀ acc : List (Option Str × List Task),
      (∀ g ∈ acc, g.2 ≠ []) →
      ∀ g ∈ ts.foldl (fun a t => gupsert a t.file t) acc,
        g.2 ≠ [] ∧
        ((∃ g0 ∈ acc, g.1 = g0.1) ∨ (∃ x ∈ ts, g.1 = x.file)) ∧
        (∀ y ∈ g.2, (∃ g0 ∈ acc, y ∈ g0.2) ∨ y ∈ ts) := by
  induction ts with
  | nil =>
    intro acc hacc g hg
    exact ⟨hacc g hg, Or.inl ⟨g, hg, rfl⟩, fun y hy => Or.inl ⟨g, hg, hy⟩⟩
  | cons t r ih =>
    intro acc hacc g hg
    rw [List.foldl_cons] at hg
    have h2 := ih (gupsert acc t.file t) (gupsert_ne_nil acc t.file t hacc) g hg
    refine ⟨h2.1, ?_, ?_⟩
    · rcases h2.2.1 with ⟨g0, hg0, he⟩ | ⟨x, hx, he⟩
      · rcases mem_gupsert acc t.file t g0 hg0 with ⟨g1, hg1, he1, _⟩ | rfl
        · exact Or.inl ⟨g1, hg1, he.trans he1⟩
        · exact Or.inr ⟨t, by simp, by simpa using he⟩
      · exact Or.inr ⟨x, by simp [hx], he⟩
    · intro y hy
      rcases h2.2.2 y hy with ⟨g0, hg0, hy0⟩ | hy0
      · rcases mem_gupsert acc t.file t g0 hg0 with ⟨g1, hg1, _, hm⟩ | rfl
        · rcases hm with hm | ⟨hm, _⟩
          · exact Or.inl ⟨g1, hg1, by rw [hm] at hy0; exact hy0⟩
          · rw [hm] at hy0
            rcases List.mem_append.mp hy0 with hy0 | hy0
            · exact Or.inl ⟨g1, hg1, hy0⟩
            · rcases List.mem_singleton.mp hy0 with rfl
              exact Or.inr (by simp)
        · simp only at hy0
          rcases List.mem_singleton.mp hy0 with rfl
          exact Or.inr (by simp)
      · exact Or.inr (by simp [hy0])

theorem groupFold_covers (ts : List Task) :
    ∀ acc : List (Option Str × List Task), ∀ x : Task,
      ((∃ g ∈ acc, x ∈ g.2) ∨ x ∈ ts) →
      ∃ g ∈ ts.foldl (fun a t => gupsert a t.file t) acc, x ∈ g.2 := by
  induction ts with
  | nil =>
    intro acc x hx
    rcases hx with hx | hx
    · exact hx
    · exact absurd hx (List.not_mem_nil x)
  | cons t r ih =>
    intro acc x hx
    rw [List.foldl_cons]
    apply ih
    rcases hx with ⟨g, hg, hxg⟩ | hx
    · exact Or.inl (gupsert_keeps acc t.file t g hg x hxg)
    · rcases List.mem_cons.mp hx with rfl | hx
      · obtain ⟨g, hg, _, hxg⟩ := gupsert_covers acc x.file x
        exact Or.inl ⟨g, hg, hxg⟩
      · exact Or.inr hx

theorem groupByFile_facts (ts : List Task) :
    ∀ g ∈ groupByFile ts,
      g.2 ≠ [] ∧ (∃ x ∈ ts, g.1 = x.file) ∧ (∀ y ∈ g.2, y ∈ ts) := by
  intro g hg
  have h := groupFold_facts ts [] (by simp) g hg
  refine ⟨h.1, ?_, ?_⟩
  · rcases h.2.1 with ⟨g0, hg0, _⟩ | he
    · exact absurd hg0 (List.not_mem_nil g0)
    · exact he
  · intro y hy
    rcases h.2.2 y hy with ⟨g0, hg0, _⟩ | hym
    · exact absurd hg0 (List.not_mem_nil g0)
    · exact hym

theorem groupByFile_covers (ts : List Task) :
    ∀ x ∈ ts, ∃ g ∈ groupByFile ts, x ∈ g.2 := by
  intro x hx
  exact groupFold_covers ts [] x (Or.inr hx)

/-! ### Folding the load over files and nodes -/

theorem orgLoadFile_fold (fn : Str) (now : DT) (g : Task × Nat → RawRecord) :
    ∀ bs : List (Task × Nat),
      (∀ b ∈ bs, recordOfNode fn now (orgNodeOf b.1) = .ok (g b)) →
      ∀ acc : List RawRecord,
      (bs.map (fun b => orgNodeOf b.1)).foldl
        (fun acc n =>
          (match acc with
           | Except.error e => Except.error e
           | Except.ok rs =>
             match recordOfNode fn now n with
             | Except.error e => Except.error e
             | Except.ok r => Except.ok (rs ++ [r])
           : Except String (List RawRecord)))
        (Except.ok acc)
        = Except.ok (acc ++ bs.map g) := by
  intro bs
  induction bs with
  | nil => intro _ acc; simp
  | cons b r ih =>
    intro h acc
    simp only [List.map_cons, List.foldl_cons]
    rw [h b (by simp)]
    rw [ih (fun x hx => h x (by simp [hx])) (acc ++ [g b])]
    simp

theorem orgLoadFile_save (m : List (Str × Task)) (fuel : Nat) (fn : Str)
    (ts : List Task) (now : DT) (hfn : noNL fn)
    (hQm : ∀ kv ∈ m, SavedTaskOK kv.2) (hts : ∀ t ∈ ts, SavedTaskOK t)
    (hne : ts ≠ []) :
    orgLoadFile fn (orgSaveFile m (fuel + 1) fn ts) now
      = .ok ((catMap (fun t => blocksOf m (fuel + 1) t 1)
          (sortByCreated ts)).map (fun b => recordOf fn b.1)) := by
  unfold orgLoadFile
  rw [parseOrgFile_save m fuel fn ts hfn hQm hts hne]
  have h := orgLoadFile_fold fn now (fun b => recordOf fn b.1)
    (catMap (fun t => blocksOf m (fuel + 1) t 1) (sortByCreated ts))
    (fun b hb =>
      recordOfNode_round fn now b.1
        (blocks_ok m SavedTaskOK hQm (fuel + 1) ts hts b hb).1.1) []
  simpa using h

theorem save_fold_ok (m : List (Str × Task)) (fuel : Nat) :
    ∀ gs : List (Option Str × List Task),
      (∀ g ∈ gs, ∃ fn, g.1 = some fn) →
      ∀ outs : List (Str × Str),
      gs.foldl
        (fun acc g =>
          (match acc with
           | Except.error e => Except.error e
           | Except.ok outs =>
             match g.1 with
             | none => Except.error "TypeError: path join with None"
             | some fn => Except.ok (outs ++ [(fn, orgSaveFile m fuel fn g.2)])
           : Except String (List (Str × Str))))
        (Except.ok outs)
        = Except.ok (outs ++ gs.map (fun g =>
            ((g.1).getD [], orgSaveFile m fuel ((g.1).getD []) g.2))) := by
  intro gs
  induction gs with
  | nil => intro _ outs; simp
  | cons g r ih =>
    intro h outs
    obtain ⟨fn, hfn⟩ := h g (by simp)
    simp only [List.foldl_cons, List.map_cons]
    rw [hfn]
    rw [ih (fun x hx => h x (by simp [hx])) (outs ++ [(fn, orgSaveFile m fuel fn g.2)])]
    simp [hfn]

theorem save_tasks_ok (mgr : Manager)
    (hfile : ∀ g ∈ groupByFile (mgr.tasks.map Prod.snd), ∃ fn, g.1 = some fn) :
    save_tasks mgr
      = .ok ((groupByFile (mgr.tasks.map Prod.snd)).map
          (fun g => ((g.1).getD [],
            orgSaveFile mgr.tasks (mgr.tasks.length + 1) ((g.1).getD []) g.2))) := by
  unfold save_tasks
  have h := save_fold_ok mgr.tasks (mgr.tasks.length + 1)
    (groupByFile (mgr.tasks.map Prod.snd)) hfile []
  simpa using h

theorem orgLoad_fold (now : DT) (f : Str × Str → List RawRecord) :
    ∀ dir : List (Str × Str),
      (∀ p ∈ dir, ((".org").data).isSuffixOf p.1 = true ∧
        orgLoadFile p.1 p.2 now = .ok (f p)) →
      ∀ acc : List RawRecord,
      dir.foldl
        (fun acc p =>
          (match acc with
           | Except.error e => Except.error e
           | Except.ok rs =>
             if ((".org").data).isSuffixOf p.1 then
               match orgLoadFile p.1 p.2 now with
               | Except.error e => Except.error e
               | Except.ok r2 => Except.ok (rs ++ r2)
             else Except.ok rs
           : Except String (List RawRecord)))
        (Except.ok acc)
        = Except.ok (acc ++ catMap f dir) := by
  intro dir
  induction dir with
  | nil => intro _ acc; simp [catMap]
  | cons p r ih =>
    intro h acc
    have hp := h p (by simp)
    simp only [List.foldl_cons]
    rw [if_pos hp.1, hp.2]
    rw [ih (fun x hx => h x (by simp [hx])) (acc ++ f p)]
    simp [catMap, List.append_assoc]

theorem orgLoad_ok (dir : List (Str × Str)) (now : DT)
    (f : Str × Str → List RawRecord)
    (h : ∀ p ∈ dir, ((".org").data).isSuffixOf p.1 = true ∧
      orgLoadFile p.1 p.2 now = .ok (f p)) :
    orgLoad dir now = .ok (catMap f dir) := by
  unfold orgLoad
  have h2 := orgLoad_fold now f dir h []
  simpa using h2

/-! ### The temp map and the rebuild loop -/

theorem mem_aupsert (m : List (Str × Task)) (k : Str) (v : Task)
    (kv : Str × Task) (h : kv ∈ aupsert m k v) : kv = (k, v) ∨ kv ∈ m := by
  induction m with
  | nil =>
    rw [aupsert] at h
    rcases List.mem_singleton.mp h with rfl
    exact Or.inl rfl
  | cons kv0 r ih =>
    obtain ⟨k0, v0⟩ := kv0
    rw [aupsert] at h
    by_cases he : k0 = k
    · rw [if_pos he] at h
      rcases List.mem_cons.mp h with rfl | h
      · exact Or.inl rfl
      · exact Or.inr (by simp [h])
    · rw [if_neg he] at h
      rcases List.mem_cons.mp h with rfl | h
      · exact Or.inr (by simp)
      · rcases ih h with he2 | he2
        · exact Or.inl he2
        · exact Or.inr (by simp [he2])

theorem alookup_isSome_of_mem (m : List (Str × Task)) (k : Str) (v : Task)
    (h : (k, v) ∈ m) : (alookup m k).isSome = true := by
  induction m with
  | nil => exact absurd h (List.not_mem_nil (k, v))
  | cons kv0 r ih =>
    rw [alookup]
    by_cases he : kv0.1 = k
    · rw [if_pos he]; rfl
    · rw [if_neg he]
      rcases List.mem_cons.mp h with he2 | h2
      · exact absurd (by rw [← he2]) he
      · exact ih h2

theorem alookup_eq_of_mem_nodup (m : List (Str × Task))
    (hn : (m.map Prod.fst).Nodup) (k : Str) (v : Task) (h : (k, v) ∈ m) :
    alookup m k = some v := by
  induction m with
  | nil => exact absurd h (List.not_mem_nil (k, v))
  | cons kv0 r ih =>
    rw [alookup]
    rcases List.mem_cons.mp h with he | h2
    · rw [if_pos (by rw [← he])]
      rw [← he]
    · have hk0 : kv0.1 ≠ k := by
        intro he2
        have : k ∈ r.map Prod.fst := List.mem_map.mpr ⟨(k, v), h2, rfl⟩
        rw [List.map_cons, List.nodup_cons] at hn
        exact hn.1 (he2 ▸ this)
      rw [if_neg hk0]
      exact ih (by rw [List.map_cons, List.nodup_cons] at hn; exact hn.2) h2

theorem buildTemp_entry (records : List RawRecord) :
    ∀ kv ∈ buildTemp records, ∃ r ∈ records, r.id = kv.1 ∧ kv.2 = taskOfRecord r := by
  unfold buildTemp
  suffices h : ∀ (m : List (Str × Task)),
      ∀ kv ∈ records.foldl (fun m r => aupsert m r.id (taskOfRecord r)) m,
        kv ∈ m ∨ ∃ r ∈ records, r.id = kv.1 ∧ kv.2 = taskOfRecord r by
    intro kv hkv
    rcases h [] kv hkv with h2 | h2
    · exact absurd h2 (List.not_mem_nil kv)
    · exact h2
  induction records with
  | nil => intro m kv hkv; exact Or.inl hkv
  | cons r rs ih =>
    intro m kv hkv
    rw [List.foldl_cons] at hkv
    rcases ih (aupsert m r.id (taskOfRecord r)) kv hkv with h2 | ⟨r2, hr2, he2⟩
    · rcases mem_aupsert m r.id (taskOfRecord r) kv h2 with rfl | h3
      · exact Or.inr ⟨r, by simp, rfl, rfl⟩
      · exact Or.inl h3
    · exact Or.inr ⟨r2, by simp [hr2], he2⟩

theorem buildTemp_lookup_entry (records : List RawRecord) (k : Str) (t : Task)
    (h : alookup (buildTemp records) k = some t) :
    ∃ r ∈ records, r.id = k ∧ t = taskOfRecord r := by
  have hm := alookup_mem (buildTemp records) k t h
  obtain ⟨r, hr, he1, he2⟩ := buildTemp_entry records (k, t) hm
  exact ⟨r, hr, he1, he2⟩

theorem sameCore_refl (t : Task) : sameCore t t :=
  ⟨rfl, rfl, rfl, rfl, rfl, rfl, rfl⟩

theorem sameCore_trans (a b c : Task) (h1 : sameCore a b) (h2 : sameCore b c) :
    sameCore a c := by
  obtain ⟨x1, x2, x3, x4, x5, x6, x7⟩ := h1
  obtain ⟨y1, y2, y3, y4, y5, y6, y7⟩ := h2
  exact ⟨x1.trans y1, x2.trans y2, x3.trans y3, x4.trans y4, x5.trans y5,
    x6.trans y6, x7.trans y7⟩

theorem sameCore_children (t : Task) (cs : List Str) :
    sameCore t { t with children := cs } :=
  ⟨rfl, rfl, rfl, rfl, rfl, rfl, rfl⟩

theorem rebuildStep_back (m : List (Str × Task)) (j : Str)
    (hres : ResolvedParents m) :
    ∀ k t', alookup (rebuildStep m j) k = some t' →
      ∃ t, alookup m k = some t ∧ sameCore t t' := by
  intro k t' h
  unfold rebuildStep at h
  cases hj : alookup m j with
  | none =>
    rw [hj] at h
    exact ⟨t', h, sameCore_refl t'⟩
  | some t0 =>
    simp only [hj] at h
    generalize hcl : ({ t0 with children := ([] : List Str) } : Task) = cl at h
    cases hp0 : t0.parent_id with
    | none =>
      rw [hp0] at h
      subst hcl
      simp only [rebuildLink] at h
      rw [alookup_aupsert] at h
      by_cases hjk : j = k
      · rw [if_pos hjk] at h
        have ht' : t' = { t0 with children := [], parent_id := none } :=
          (Option.some.inj h).symm
        refine ⟨t0, by rw [← hjk]; exact hj, ?_⟩
        rw [ht']
        exact ⟨rfl, rfl, rfl, rfl, rfl, rfl, by simp [hp0]⟩
      · rw [if_neg hjk, alookup_aupsert] at h
        rw [if_neg hjk] at h
        exact ⟨t', h, sameCore_refl t'⟩
    | some p =>
      rw [hp0] at h
      subst hcl
      have hrp := hres j t0 hj p hp0
      simp only [rebuildLink] at h
      rw [if_pos hrp.1] at h
      have hm1p : (alookup (aupsert m j { t0 with children := [] }) p).isSome
          = true := by
        rw [alookup_isSome_aupsert]
        rcases hrp.2 with h2
        by_cases hjp : j = p <;> simp [hjp, h2]
      cases hpt : alookup (aupsert m j { t0 with children := [] }) p with
      | none => rw [hpt] at hm1p; simp at hm1p
      | some pt =>
        rw [hpt] at h
        rw [alookup_aupsert] at h
        by_cases hpk : p = k
        · rw [if_pos hpk] at h
          have ht' : t' = { pt with children := pt.children ++ [j] } :=
            (Option.some.inj h).symm
          rw [alookup_aupsert] at hpt
          by_cases hjp : j = p
          · rw [if_pos hjp] at hpt
            have hpt2 : pt = { t0 with children := [] } :=
              (Option.some.inj hpt).symm
            refine ⟨t0, by rw [← hpk, ← hjp]; exact hj, ?_⟩
            rw [ht', hpt2]
            exact ⟨rfl, rfl, rfl, rfl, rfl, rfl, rfl⟩
          · rw [if_neg hjp] at hpt
            refine ⟨pt, by rw [← hpk]; exact hpt, ?_⟩
            rw [ht']
            exact ⟨rfl, rfl, rfl, rfl, rfl, rfl, rfl⟩
        · rw [if_neg hpk, alookup_aupsert] at h
          by_cases hjk : j = k
          · rw [if_pos hjk] at h
            have ht' : t' = { t0 with children := [] } :=
              (Option.some.inj h).symm
            refine ⟨t0, by rw [← hjk]; exact hj, ?_⟩
            rw [ht']
            exact ⟨rfl, rfl, rfl, rfl, rfl, rfl, rfl⟩
          · rw [if_neg hjk] at h
            exact ⟨t', h, sameCore_refl t'⟩

theorem rebuildStep_hres (m : List (Str × Task)) (j : Str)
    (hres : ResolvedParents m) : ResolvedParents (rebuildStep m j) := by
  intro k t' h p hp
  obtain ⟨t, ht, hc⟩ := rebuildStep_back m j hres k t' h
  have hp2 : t.parent_id = some p := by rw [hc.2.2.2.2.2.2, hp]
  have h3 := hres k t ht p hp2
  refine ⟨h3.1, ?_⟩
  rw [rebuildStep_preserves]
  exact h3.2

theorem rebuild_fold_back (js : List Str) :
    ∀ m, ResolvedParents m →
      ∀ k t', alookup (js.foldl rebuildStep m) k = some t' →
        ∃ t, alookup m k = some t ∧ sameCore t t' := by
  induction js with
  | nil => intro m _ k t' h; exact ⟨t', h, sameCore_refl t'⟩
  | cons j r ih =>
    intro m hres k t' h
    rw [List.foldl_cons] at h
    obtain ⟨tmid, hmid, hc2⟩ :=
      ih (rebuildStep m j) (rebuildStep_hres m j hres) k t' h
    obtain ⟨t, ht, hc1⟩ := rebuildStep_back m j hres k tmid hmid
    exact ⟨t, ht, sameCore_trans t tmid t' hc1 hc2⟩

theorem rebuildLinks_back (m : List (Str × Task)) (hres : ResolvedParents m) :
    ∀ k t', alookup (rebuildLinks m) k = some t' →
      ∃ t, alookup m k = some t ∧ sameCore t t' :=
  rebuild_fold_back (m.map Prod.fst) m hres

theorem taskOfRecord_recordOf (fn : Str) (t : Task)
    (hp : ∀ p, t.parent_id = some p → p ≠ []) :
    sameCore { t with due_date := t.due_date.map DT.truncMin, children := [] }
      (taskOfRecord (recordOf fn t)) := by
  unfold taskOfRecord recordOf
  refine ⟨rfl, rfl, rfl, rfl, rfl, rfl, ?_⟩
  simp only
  cases hpa : t.parent_id with
  | none => rfl
  | some p =>
    symm
    show (if p ≠ ([] : Str) then some p else none) = some p
    rw [if_pos (hp p hpa)]

theorem catMap_map {α β γ : Type} (f : β → List γ) (g : α → β) (l : List α) :
    catMap f (l.map g) = catMap (fun a => f (g a)) l := by
  induction l with
  | nil => rfl
  | cons x r ih => simp only [List.map_cons, catMap, ih]

theorem orgLoad_zip_fold (now : DT) :
    ∀ l : List ((Str × Str) × List RawRecord),
      (∀ q ∈ l, ((".org").data).isSuffixOf q.1.1 = true ∧
        orgLoadFile q.1.1 q.1.2 now = .ok q.2) →
      ∀ acc : List RawRecord,
      (l.map Prod.fst).foldl
        (fun acc p =>
          (match acc with
           | Except.error e => Except.error e
           | Except.ok rs =>
             if ((".org").data).isSuffixOf p.1 then
               match orgLoadFile p.1 p.2 now with
               | Except.error e => Except.error e
               | Except.ok r2 => Except.ok (rs ++ r2)
             else Except.ok rs
           : Except String (List RawRecord)))
        (Except.ok acc)
        = Except.ok (acc ++ catMap Prod.snd l) := by
  intro l
  induction l with
  | nil => intro _ acc; simp [catMap]
  | cons q r ih =>
    intro h acc
    have hq := h q (by simp)
    simp only [List.map_cons, List.foldl_cons]
    rw [if_pos hq.1, hq.2]
    rw [ih (fun x hx => h x (by simp [hx])) (acc ++ q.2)]
    simp [catMap, List.append_assoc]

theorem orgLoad_ok_zip (now : DT) (l : List ((Str × Str) × List RawRecord))
    (h : ∀ q ∈ l, ((".org").data).isSuffixOf q.1.1 = true ∧
      orgLoadFile q.1.1 q.1.2 now = .ok q.2) :
    orgLoad (l.map Prod.fst) now = .ok (catMap Prod.snd l) := by
  unfold orgLoad
  have h2 := orgLoad_zip_fold now l h []
  simpa using h2

/-! ### Round-trip assembly -/

theorem invState_savedOK (m : List (Str × Task)) (hInv : InvState m) :
    ∀ kv ∈ m, SavedTaskOK kv.2 := by
  intro kv hkv
  refine ⟨(hInv.2.1 kv hkv).2, ?_⟩
  intro p hp
  have h3 := hInv.2.2.1 kv hkv p hp
  cases hpt : alookup m p with
  | none => rw [hpt] at h3; simp at h3
  | some pt =>
    have hmem := alookup_mem m p pt hpt
    have h4 := hInv.2.1 (p, pt) hmem
    have hid : pt.id = p := h4.1
    have hWFp := h4.2
    constructor
    · rw [← hid]
      exact trim_stable pt.id (hWFp.2.2.2.2.2.2.2.2.2.2.1)
        (hWFp.2.2.2.2.2.2.2.2.2.2.2.1)
    · rw [← hid]
      exact hWFp.2.2.2.2.2.2.2.2.2.2.2.2.1

theorem roundTrip_ok (mgr : Manager) (now : DT) (hInv : InvState mgr.tasks) :
    roundTrip mgr now = .ok (load_tasks (savedRecords mgr.tasks)) := by
  have hSav := invState_savedOK mgr.tasks hInv
  have hQts : ∀ t ∈ mgr.tasks.map Prod.snd, SavedTaskOK t := by
    intro t ht
    rw [List.mem_map] at ht
    obtain ⟨kv, hkv, rfl⟩ := ht
    exact hSav kv hkv
  have hgfacts := groupByFile_facts (mgr.tasks.map Prod.snd)
  have hfn : ∀ g ∈ groupByFile (mgr.tasks.map Prod.snd),
      ∃ fn, g.1 = some fn ∧ ((".org").data).isSuffixOf fn = true ∧ noNL fn := by
    intro g hg
    obtain ⟨x, hx, he⟩ := (hgfacts g hg).2.1
    rw [List.mem_map] at hx
    obtain ⟨kv, hkv, rfl⟩ := hx
    obtain ⟨f, hf, hsuf, hnl⟩ := (hSav kv hkv).1.2.2.2.2.2.2.2.2.2.2.2.2.2.2.2.2
    exact ⟨f, by rw [he, hf], hsuf, hnl⟩
  have hsave := save_tasks_ok mgr
    (fun g hg => by obtain ⟨fn, hfn2, _, _⟩ := hfn g hg; exact ⟨fn, hfn2⟩)
  unfold roundTrip
  simp only [hsave]
  unfold loadFromDir
  have hload : orgLoad
      ((groupByFile (mgr.tasks.map Prod.snd)).map
        (fun g => ((g.1).getD [],
          orgSaveFile mgr.tasks (mgr.tasks.length + 1) ((g.1).getD []) g.2)))
      now = .ok (savedRecords mgr.tasks) := by
    have hmapfst :
        ((groupByFile (mgr.tasks.map Prod.snd)).map
          (fun g => (((g.1).getD [],
            orgSaveFile mgr.tasks (mgr.tasks.length + 1) ((g.1).getD []) g.2),
            (catMap (fun t => blocksOf mgr.tasks (mgr.tasks.length + 1) t 1)
              (sortByCreated g.2)).map
              (fun b => recordOf ((g.1).getD []) b.1)))).map Prod.fst
        = (groupByFile (mgr.tasks.map Prod.snd)).map
            (fun g => ((g.1).getD [],
              orgSaveFile mgr.tasks (mgr.tasks.length + 1) ((g.1).getD []) g.2)) := by
      rw [List.map_map]
      rfl
    rw [← hmapfst]
    have hzip := orgLoad_ok_zip now
      ((groupByFile (mgr.tasks.map Prod.snd)).map
        (fun g => (((g.1).getD [],
          orgSaveFile mgr.tasks (mgr.tasks.length + 1) ((g.1).getD []) g.2),
          (catMap (fun t => blocksOf mgr.tasks (mgr.tasks.length + 1) t 1)
            (sortByCreated g.2)).map
            (fun b => recordOf ((g.1).getD []) b.1))))
      (by
        intro q hq
        rw [List.mem_map] at hq
        obtain ⟨g, hg, rfl⟩ := hq
        obtain ⟨fn, hfn2, hsuf, hnl⟩ := hfn g hg
        have hgetD : (g.1).getD [] = fn := by rw [hfn2]; rfl
        simp only [hgetD]
        refine ⟨hsuf, ?_⟩
        exact orgLoadFile_save mgr.tasks mgr.tasks.length fn g.2 now hnl hSav
          (fun t ht => hQts t ((hgfacts g hg).2.2 t ht))
          (hgfacts g hg).1)
    rw [hzip]
    unfold savedRecords
    rw [catMap_map]
  simp only [hload]

theorem savedRecords_from (m : List (Str × Task)) :
    ∀ r ∈ savedRecords m, ∃ kv ∈ m, ∃ fn, r = recordOf fn kv.2 := by
  intro r hr
  unfold savedRecords at hr
  rw [mem_catMap] at hr
  obtain ⟨g, hg, hrg⟩ := hr
  rw [List.mem_map] at hrg
  obtain ⟨b, hb, rfl⟩ := hrg
  have hgfacts := groupByFile_facts (m.map Prod.snd)
  have hP := blocks_ok m (fun t => ∃ kv ∈ m, kv.2 = t)
    (fun kv hkv => ⟨kv, hkv, rfl⟩) (m.length + 1) g.2
    (fun t ht => by
      have := (hgfacts g hg).2.2 t ht
      rw [List.mem_map] at this
      obtain ⟨kv, hkv, rfl⟩ := this
      exact ⟨kv, hkv, rfl⟩) b hb
  obtain ⟨kv, hkv, he⟩ := hP.1
  exact ⟨kv, hkv, (g.1).getD [], by rw [he]⟩

theorem savedRecords_cover (m : List (Str × Task)) (hInv : InvState m) :
    ∀ kv ∈ m, ∃ r ∈ savedRecords m, r.id = kv.1 := by
  intro kv hkv
  have hval : kv.2 ∈ m.map Prod.snd := List.mem_map.mpr ⟨kv, hkv, rfl⟩
  obtain ⟨g, hg, hmem⟩ := groupByFile_covers (m.map Prod.snd) kv.2 hval
  have hsorted : kv.2 ∈ sortByCreated g.2 := (sortByCreated_mem g.2 kv.2).mpr hmem
  have hblock : (kv.2, 1) ∈ catMap (fun t => blocksOf m (m.length + 1) t 1)
      (sortByCreated g.2) := by
    rw [mem_catMap]
    exact ⟨kv.2, hsorted, by rw [blocksOf_succ]; simp⟩
  refine ⟨recordOf ((g.1).getD []) kv.2, ?_, ?_⟩
  · unfold savedRecords
    rw [mem_catMap]
    exact ⟨g, hg, List.mem_map.mpr ⟨(kv.2, 1), hblock, rfl⟩⟩
  · show kv.2.id = kv.1
    exact (hInv.2.1 kv hkv).1

theorem buildTemp_saved_keys (m : List (Str × Task)) (hInv : InvState m) :
    ∀ k, (alookup (buildTemp (savedRecords m)) k).isSome
      = (alookup m k).isSome := by
  have hbool : ∀ (a b : Bool), (a = true → b = true) → (b = true → a = true)
      → a = b := by decide
  intro k
  apply hbool
  · intro h
    rw [Option.isSome_iff_exists] at h
    obtain ⟨t0, ht0⟩ := h
    obtain ⟨r, hr, hrid, _⟩ := buildTemp_lookup_entry (savedRecords m) k t0 ht0
    obtain ⟨kv, hkv, fn, he⟩ := savedRecords_from m r hr
    have hid : r.id = kv.2.id := by rw [he]; rfl
    have hk : k = kv.1 := by rw [← hrid, hid, (hInv.2.1 kv hkv).1]
    rw [hk]
    exact alookup_isSome_of_mem m kv.1 kv.2 hkv
  · intro h
    rw [Option.isSome_iff_exists] at h
    obtain ⟨t, ht⟩ := h
    obtain ⟨r, hr, hrid⟩ := savedRecords_cover m hInv (k, t) (alookup_mem m k t ht)
    have := buildTemp_mem (savedRecords m) r hr
    rw [hrid] at this
    exact this

theorem buildTemp_saved_res (m : List (Str × Task)) (hInv : InvState m) :
    ResolvedParents (buildTemp (savedRecords m)) := by
  intro k t0 ht0 p hp
  obtain ⟨r, hr, hrid, hteq⟩ := buildTemp_lookup_entry (savedRecords m) k t0 ht0
  obtain ⟨kv, hkv, fn, he⟩ := savedRecords_from m r hr
  have hpar : kv.2.parent_id = some p ∧ p ≠ [] := by
    rw [hteq, he] at hp
    have hp2 : (match kv.2.parent_id with
        | some q => if q ≠ ([] : Str) then some q else none
        | none => (none : Option Str)) = some p := hp
    cases hpa : kv.2.parent_id with
    | none =>
      simp only [hpa] at hp2
      exact absurd hp2 (by simp)
    | some q =>
      simp only [hpa] at hp2
      by_cases hq : q ≠ ([] : Str)
      · rw [if_pos hq] at hp2
        have := Option.some.inj hp2
        subst this
        exact ⟨rfl, hq⟩
      · rw [if_neg hq] at hp2
        simp at hp2
  have h3 := hInv.2.2.1 kv hkv p hpar.1
  refine ⟨hpar.2, ?_⟩
  rw [buildTemp_saved_keys m hInv]
  exact h3.2

theorem c1WTask_WF : WFTask c1WTask := by
  refine ⟨by decide, by decide, by decide, by decide, ?_, by decide, by decide,
    by decide, ?_, by decide, by decide, by decide,
    by unfold noNL; decide, ?_, ?_, by decide,
    ⟨(("tasks.org").data), rfl, by decide, by unfold noNL; decide⟩⟩
  · intro _
    exact ⟨by decide, by decide, by decide⟩
  · intro tg htg
    exact absurd htg (List.not_mem_nil tg)
  · intro a h
    exact Option.noConfusion h
  · intro d h
    exact Option.noConfusion h

theorem c1WMgr_Inv : InvState c1WMgr.tasks := by
  refine ⟨by decide, ?_, ?_, ?_⟩
  · intro kv hkv
    rcases List.mem_singleton.mp hkv with rfl
    exact ⟨by decide, c1WTask_WF⟩
  · intro kv hkv p hp
    rcases List.mem_singleton.mp hkv with rfl
    exact Option.noConfusion hp
  · intro kv hkv
    rcases List.mem_singleton.mp hkv with rfl
    refine ⟨by decide, ?_⟩
    intro c
    constructor
    · intro hc
      exact absurd hc (List.not_mem_nil c)
    · rintro ⟨kv2, hkv2, _, hpar⟩
      rcases List.mem_singleton.mp hkv2 with rfl
      exact Option.noConfusion hpar

/-- **C1** (amended).  For every manager holding a well-formed task forest
(`InvState`: distinct strip-stable ids keying their own tasks, single-line
colon-free titles, strip-stable descriptions, truthy resolvable parents,
`children` the inverse of `parent_id`, `.org` file names), saving and then
loading succeeds and reconstructs the same key set, and every task keeps
its title, status, priority, due date to the minute, description, tags
(in order), and parent link.  (The claim's full parent/child-structure
equality fails in general: `children` is rebuilt by the buggy loop of
claim C9, and non-strip-stable text is normalized, see the
counterexample.) -/
theorem c1_save_load_round_trip (mgr : Manager) (now : DT)
    (hInv : InvState mgr.tasks) :
    ∃ mgr', roundTrip mgr now = .ok mgr' ∧
      (∀ k, (alookup mgr'.tasks k).isSome = (alookup mgr.tasks k).isSome) ∧
      (∀ k t, alookup mgr.tasks k = some t →
        ∃ t', alookup mgr'.tasks k = some t' ∧
          t'.title = t.title ∧ t'.status = t.status ∧
          t'.priority = t.priority ∧
          t'.due_date = t.due_date.map DT.truncMin ∧
          t'.description = t.description ∧ t'.tags = t.tags ∧
          t'.parent_id = t.parent_id) := by
  refine ⟨load_tasks (savedRecords mgr.tasks), roundTrip_ok mgr now hInv,
    ?_, ?_⟩
  · intro k
    show (alookup (rebuildLinks (buildTemp (savedRecords mgr.tasks))) k).isSome
      = (alookup mgr.tasks k).isSome
    rw [rebuildLinks_preserves, buildTemp_saved_keys mgr.tasks hInv]
  · intro k t ht
    have hks : (alookup (load_tasks (savedRecords mgr.tasks)).tasks k).isSome
        = true := by
      show (alookup (rebuildLinks (buildTemp (savedRecords mgr.tasks)))
        k).isSome = true
      rw [rebuildLinks_preserves, buildTemp_saved_keys mgr.tasks hInv, ht]
      rfl
    obtain ⟨t', ht'⟩ := Option.isSome_iff_exists.mp hks
    obtain ⟨t0, ht0, hcore2⟩ :=
      rebuildLinks_back (buildTemp (savedRecords mgr.tasks))
        (buildTemp_saved_res mgr.tasks hInv) k t' ht'
    obtain ⟨r, hr, hrid, hteq⟩ :=
      buildTemp_lookup_entry (savedRecords mgr.tasks) k t0 ht0
    obtain ⟨kv, hkv, fn, he⟩ := savedRecords_from mgr.tasks r hr
    have hidkv : kv.2.id = kv.1 := (hInv.2.1 kv hkv).1
    have hk : kv.1 = k := by
      rw [← hidkv]
      rw [he] at hrid
      exact hrid
    have hkvm : (k, kv.2) ∈ mgr.tasks := by
      have h2 : kv = (kv.1, kv.2) := rfl
      rw [h2, hk] at hkv
      exact hkv
    have hkv2 : kv.2 = t := by
      have hl := alookup_eq_of_mem_nodup mgr.tasks hInv.1 k kv.2 hkvm
      rw [hl] at ht
      exact Option.some.inj ht
    have hpne : ∀ p, t.parent_id = some p → p ≠ [] := by
      intro p hp
      have hktm : (k, t) ∈ mgr.tasks := by rw [← hkv2]; exact hkvm
      exact (hInv.2.2.1 (k, t) hktm p hp).1
    have hA := taskOfRecord_recordOf fn t hpne
    have ht0eq : t0 = taskOfRecord (recordOf fn t) := by
      rw [hteq, he, hkv2]
    have hAc : sameCore
        { t with due_date := t.due_date.map DT.truncMin, children := [] }
        t' := by
      apply sameCore_trans _ t0 t' _ hcore2
      rw [ht0eq]
      exact hA
    exact ⟨t', ht', hAc.1.symm, hAc.2.1.symm, hAc.2.2.1.symm,
      hAc.2.2.2.1.symm, hAc.2.2.2.2.1.symm, hAc.2.2.2.2.2.1.symm,
      hAc.2.2.2.2.2.2.symm⟩

theorem c1_save_load_round_trip_witness :
    InvState c1WMgr.tasks ∧
    ∃ mgr', roundTrip c1WMgr cLoadNow = .ok mgr' ∧
      (∀ k, (alookup mgr'.tasks k).isSome = (alookup c1WMgr.tasks k).isSome) ∧
      (∀ k t, alookup c1WMgr.tasks k = some t →
        ∃ t', alookup mgr'.tasks k = some t' ∧
          t'.title = t.title ∧ t'.status = t.status ∧
          t'.priority = t.priority ∧
          t'.due_date = t.due_date.map DT.truncMin ∧
          t'.description = t.description ∧ t'.tags = t.tags ∧
          t'.parent_id = t.parent_id) :=
  ⟨c1WMgr_Inv, c1_save_load_round_trip c1WMgr cLoadNow c1WMgr_Inv⟩

/-- C1 counterexample to the claim's universal scope: a task whose
description begins with a space round-trips to the stripped text, so
`load(save(T))` does not reproduce every forest's descriptions. -/
theorem c1_strip_loses_description_whitespace :
    c1BadTask.description = ((" x").data) ∧
    ((rtOk c1BadMgr cLoadNow).bind
        (fun m2 => alookup m2.tasks (("b1").data))).map Task.description
      = some (("x").data) ∧
    ((" x").data) ≠ (("x").data) := by
  refine ⟨rfl, ?_, by decide⟩
  decide

/-! ### Group structure facts for the double-serialization claim -/

theorem groupFold_file (ts : List Task) :
    ∀ acc : List (Option Str × List Task),
      (∀ g ∈ acc, ∀ y ∈ g.2, y.file = g.1) →
      ∀ g ∈ ts.foldl (fun a t => gupsert a t.file t) acc,
        ∀ y ∈ g.2, y.file = g.1 := by
  induction ts with
  | nil => intro acc hacc g hg; exact hacc g hg
  | cons t r ih =>
    intro acc hacc g hg
    rw [List.foldl_cons] at hg
    refine ih (gupsert acc t.file t) ?_ g hg
    intro g2 hg2 y hy
    rcases mem_gupsert acc t.file t g2 hg2 with ⟨g0, hg0, hfst, hm⟩ | rfl
    · rcases hm with hm | ⟨hm, hfn⟩
      · rw [hm] at hy
        rw [hfst]
        exact hacc g0 hg0 y hy
      · rw [hm] at hy
        rcases List.mem_append.mp hy with hy | hy
        · rw [hfst]
          exact hacc g0 hg0 y hy
        · rcases List.mem_singleton.mp hy with rfl
          rw [hfn]
    · rcases List.mem_singleton.mp hy with rfl
      rfl

theorem groupByFile_file (ts : List Task) :
    ∀ g ∈ groupByFile ts, ∀ y ∈ g.2, y.file = g.1 :=
  groupFold_file ts [] (by simp)

theorem gupsert_fst (acc : List (Option Str × List Task)) (fn : Option Str)
    (t : Task) :
    (gupsert acc fn t).map Prod.fst
      = if fn ∈ acc.map Prod.fst then acc.map Prod.fst
        else acc.map Prod.fst ++ [fn] := by
  induction acc with
  | nil => simp [gupsert]
  | cons g0 r ih =>
    obtain ⟨f, l⟩ := g0
    rw [gupsert]
    by_cases he : f = fn
    · rw [if_pos he]
      subst he
      simp
    · rw [if_neg he]
      simp only [List.map_cons, ih]
      by_cases hm : fn ∈ r.map Prod.fst
      · rw [if_pos hm, if_pos (by simp [hm])]
      · rw [if_neg hm, if_neg (by simp [hm, Ne.symm he])]
        simp

theorem groupFold_fst_nodup (ts : List Task) :
    ∀ acc : List (Option Str × List Task),
      (acc.map Prod.fst).Nodup →
      ((ts.foldl (fun a t => gupsert a t.file t) acc).map Prod.fst).Nodup := by
  induction ts with
  | nil => intro acc hacc; exact hacc
  | cons t r ih =>
    intro acc hacc
    rw [List.foldl_cons]
    refine ih (gupsert acc t.file t) ?_
    rw [gupsert_fst]
    by_cases hm : t.file ∈ acc.map Prod.fst
    · rw [if_pos hm]; exact hacc
    · rw [if_neg hm]
      rw [List.nodup_append]
      exact ⟨hacc, List.nodup_singleton _, by simpa using hm⟩

theorem groupByFile_fst_nodup (ts : List Task) :
    ((groupByFile ts).map Prod.fst).Nodup :=
  groupFold_fst_nodup ts [] (by simp)

theorem groupByFile_same_file (ts : List Task) (g1 g2 : Option Str × List Task)
    (h1 : g1 ∈ groupByFile ts) (h2 : g2 ∈ groupByFile ts)
    (he : g1.1 = g2.1) : g1 = g2 :=
  List.inj_on_of_nodup_map (groupByFile_fst_nodup ts) h1 h2 he

/-! ### Counting duplicate id lines -/

theorem idline_mem_nodeLines (t : Task) (lv : Nat) :
    (((":id: ").data) ++ t.id) ∈ nodeLines t lv := by
  rw [nodeLines_decomp]
  simp [drawerPropLines]

theorem countP_catMap_two {α : Type} (f : α → List Str) (pl : Str → Bool)
    (l : List α) (a b : α) (ha : a ∈ l) (hb : b ∈ l) (hne : a ≠ b)
    (h1 : 1 ≤ (f a).countP pl) (h2 : 1 ≤ (f b).countP pl) :
    2 ≤ (catMap f l).countP pl := by
  obtain ⟨s, u, rfl⟩ := List.append_of_mem ha
  have hbm : b ∈ s ∨ b ∈ u := by
    rcases List.mem_append.mp hb with hbs | hbu
    · exact Or.inl hbs
    · rcases List.mem_cons.mp hbu with rfl | hbu
      · exact absurd rfl hne.symm
      · exact Or.inr hbu
  rw [catMap_append, List.countP_append, catMap, List.countP_append]
  rcases hbm with hbm | hbm
  · obtain ⟨s1, s2, rfl⟩ := List.append_of_mem hbm
    rw [catMap_append, List.countP_append, catMap, List.countP_append]
    omega
  · obtain ⟨u1, u2, rfl⟩ := List.append_of_mem hbm
    rw [catMap_append, List.countP_append, catMap, List.countP_append]
    omega

theorem aupsert_nodup (m : List (Str × Task)) (k : Str) (v : Task)
    (h : (m.map Prod.fst).Nodup) : ((aupsert m k v).map Prod.fst).Nodup := by
  induction m with
  | nil => simp [aupsert]
  | cons kv r ih =>
    rw [aupsert]
    by_cases he : kv.1 = k
    · rw [if_pos he]
      rw [List.map_cons, List.nodup_cons] at h ⊢
      rw [← he]
      exact h
    · rw [if_neg he]
      rw [List.map_cons, List.nodup_cons] at h ⊢
      refine ⟨?_, ih h.2⟩
      intro hmem
      rw [List.mem_map] at hmem
      obtain ⟨kv2, hkv2, hfst⟩ := hmem
      rcases mem_aupsert r k v kv2 hkv2 with rfl | hkv2m
      · exact he hfst.symm
      · exact h.1 (List.mem_map.mpr ⟨kv2, hkv2m, hfst⟩)

theorem buildTemp_keys_nodup (records : List RawRecord) :
    ((buildTemp records).map Prod.fst).Nodup := by
  unfold buildTemp
  suffices h : ∀ m : List (Str × Task), (m.map Prod.fst).Nodup →
      ((records.foldl (fun m r => aupsert m r.id (taskOfRecord r)) m).map
        Prod.fst).Nodup from h [] (by simp)
  induction records with
  | nil => intro m hm; exact hm
  | cons r rs ih =>
    intro m hm
    rw [List.foldl_cons]
    exact ih (aupsert m r.id (taskOfRecord r)) (aupsert_nodup m r.id _ hm)

theorem c10P_WF : WFTask c10P := by
  refine ⟨by decide, by decide, by decide, by decide, ?_, by decide, by decide,
    by decide, ?_, by decide, by decide, by decide,
    by unfold noNL; decide, ?_, ?_, by decide,
    ⟨(("tasks.org").data), rfl, by decide, by unfold noNL; decide⟩⟩
  · intro _
    exact ⟨by decide, by decide, by decide⟩
  · intro tg htg
    exact absurd htg (List.not_mem_nil tg)
  · intro a h
    exact Option.noConfusion h
  · intro d h
    exact Option.noConfusion h

theorem c10C_WF : WFTask c10C := by
  refine ⟨by decide, by decide, by decide, by decide, ?_, by decide, by decide,
    by decide, ?_, by decide, by decide, by decide,
    by unfold noNL; decide, ?_, ?_, by decide,
    ⟨(("tasks.org").data), rfl, by decide, by unfold noNL; decide⟩⟩
  · intro _
    exact ⟨by decide, by decide, by decide⟩
  · intro tg htg
    exact absurd htg (List.not_mem_nil tg)
  · intro a h
    exact Option.noConfusion h
  · intro d h
    exact Option.noConfusion h

theorem c10Mgr_Inv : InvState c10Mgr.tasks := by
  refine ⟨by decide, ?_, ?_, ?_⟩
  · intro kv hkv
    rcases List.mem_cons.mp hkv with rfl | hkv
    · exact ⟨by decide, c10P_WF⟩
    rcases List.mem_singleton.mp hkv with rfl
    exact ⟨by decide, c10C_WF⟩
  · intro kv hkv pstr hp
    rcases List.mem_cons.mp hkv with rfl | hkv
    · exact Option.noConfusion hp
    rcases List.mem_singleton.mp hkv with rfl
    have hpv : pstr = (("p1").data) := (Option.some.inj hp).symm
    subst hpv
    exact ⟨by decide, by decide⟩
  · intro kv hkv
    rcases List.mem_cons.mp hkv with rfl | hkv
    · refine ⟨by decide, ?_⟩
      intro cstr
      constructor
      · intro hc
        rcases List.mem_singleton.mp hc with rfl
        exact ⟨((("c1").data), c10C), by decide, rfl, rfl⟩
      · rintro ⟨kv2, hkv2, he, hpa⟩
        rcases List.mem_cons.mp hkv2 with rfl | hkv2
        · exact Option.noConfusion hpa
        rcases List.mem_singleton.mp hkv2 with rfl
        rw [← he]
        decide
    rcases List.mem_singleton.mp hkv with rfl
    refine ⟨by decide, ?_⟩
    intro cstr
    constructor
    · intro hc
      exact absurd hc (List.not_mem_nil cstr)
    · rintro ⟨kv2, hkv2, he, hpa⟩
      rcases List.mem_cons.mp hkv2 with rfl | hkv2
      · exact Option.noConfusion hpa
      rcases List.mem_singleton.mp hkv2 with rfl
      have := Option.some.inj hpa
      exact absurd this (by decide)

/-- **C10** (confirmed).  `save_tasks` hands the whole map to the codec:
each task is written at depth 1 in its file's group and re-written beneath
its parent, so a task whose parent lives in the same file has its `:id:`
drawer line in that file at least twice; on load, the duplicates collapse
only because the record dictionary is keyed by id (the temp map's keys are
distinct and the child's key is present). -/
theorem c10_child_in_parent_file_serialized_twice (mgr : Manager)
    (hInv : InvState mgr.tasks) (ck pk : Str) (c p : Task)
    (hck : alookup mgr.tasks ck = some c)
    (hpk : alookup mgr.tasks pk = some p)
    (hpar : c.parent_id = some pk)
    (hfile : c.file = p.file) :
    ∃ dir, save_tasks mgr = .ok dir ∧
      (∃ e ∈ dir, 2 ≤ (splitLines e.2).countP
        (fun l => l = (((":id: ").data) ++ c.id))) ∧
      ((buildTemp (savedRecords mgr.tasks)).map Prod.fst).Nodup ∧
      (alookup (buildTemp (savedRecords mgr.tasks)) ck).isSome = true := by
  have hSav := invState_savedOK mgr.tasks hInv
  have hQts : ∀ t ∈ mgr.tasks.map Prod.snd, SavedTaskOK t := by
    intro t ht
    rw [List.mem_map] at ht
    obtain ⟨kv, hkv, rfl⟩ := ht
    exact hSav kv hkv
  have hgfacts := groupByFile_facts (mgr.tasks.map Prod.snd)
  have hfn : ∀ g ∈ groupByFile (mgr.tasks.map Prod.snd),
      ∃ fn, g.1 = some fn ∧ ((".org").data).isSuffixOf fn = true ∧ noNL fn := by
    intro g hg
    obtain ⟨x, hx, he⟩ := (hgfacts g hg).2.1
    rw [List.mem_map] at hx
    obtain ⟨kv, hkv, rfl⟩ := hx
    obtain ⟨f, hf, hsuf, hnl⟩ := (hSav kv hkv).1.2.2.2.2.2.2.2.2.2.2.2.2.2.2.2.2
    exact ⟨f, by rw [he, hf], hsuf, hnl⟩
  have hsave := save_tasks_ok mgr
    (fun g hg => by obtain ⟨fn, hfn2, _, _⟩ := hfn g hg; exact ⟨fn, hfn2⟩)
  refine ⟨_, hsave, ?_, buildTemp_keys_nodup _, ?_⟩
  · have hcm : (ck, c) ∈ mgr.tasks := alookup_mem _ _ _ hck
    have hpm : (pk, p) ∈ mgr.tasks := alookup_mem _ _ _ hpk
    have hcv : c ∈ mgr.tasks.map Prod.snd := List.mem_map.mpr ⟨(ck, c), hcm, rfl⟩
    have hpv : p ∈ mgr.tasks.map Prod.snd := List.mem_map.mpr ⟨(pk, p), hpm, rfl⟩
    obtain ⟨gc, hgc, hcgc⟩ := groupByFile_covers _ c hcv
    obtain ⟨gp, hgp, hpgp⟩ := groupByFile_covers _ p hpv
    have hgceq : gc = gp := by
      apply groupByFile_same_file _ gc gp hgc hgp
      rw [← groupByFile_file _ gc hgc c hcgc, ← groupByFile_file _ gp hgp p hpgp]
      exact hfile
    subst hgceq
    obtain ⟨fn, hfn2, hsuf, hnl⟩ := hfn gc hgc
    have hgetD : (gc.1).getD [] = fn := by rw [hfn2]; rfl
    refine ⟨((gc.1).getD [],
      orgSaveFile mgr.tasks (mgr.tasks.length + 1) ((gc.1).getD []) gc.2),
      List.mem_map.mpr ⟨gc, hgc, rfl⟩, ?_⟩
    have htsOK : ∀ t ∈ gc.2, SavedTaskOK t :=
      fun t ht => hQts t ((hgfacts gc hgc).2.2 t ht)
    rw [hgetD, splitLines_orgSaveFile mgr.tasks (mgr.tasks.length + 1) fn gc.2
      hnl hSav htsOK]
    have hc1 : (c, 1) ∈ catMap
        (fun t => blocksOf mgr.tasks (mgr.tasks.length + 1) t 1)
        (sortByCreated gc.2) := by
      rw [mem_catMap]
      exact ⟨c, (sortByCreated_mem _ c).mpr hcgc, by rw [blocksOf_succ]; simp⟩
    have hckch : ck ∈ p.children := by
      have hiff := (hInv.2.2.2 (pk, p) hpm).2 ck
      exact hiff.mpr ⟨(ck, c), hcm, rfl, hpar⟩
    have hcfm : c ∈ p.children.filterMap (alookup mgr.tasks) :=
      List.mem_filterMap.mpr ⟨ck, hckch, hck⟩
    obtain ⟨len0, hlen0⟩ : ∃ len0, mgr.tasks.length = len0 + 1 := by
      cases hml : mgr.tasks.length with
      | zero =>
        have : mgr.tasks = [] := List.eq_nil_of_length_eq_zero hml
        rw [this] at hcm
        exact absurd hcm (List.not_mem_nil _)
      | succ n => exact ⟨n, rfl⟩
    have hc2 : (c, 2) ∈ catMap
        (fun t => blocksOf mgr.tasks (mgr.tasks.length + 1) t 1)
        (sortByCreated gc.2) := by
      rw [mem_catMap]
      refine ⟨p, (sortByCreated_mem _ p).mpr hpgp, ?_⟩
      rw [blocksOf_succ]
      refine List.mem_cons.mpr (Or.inr ?_)
      rw [mem_catMap]
      refine ⟨c, (sortByCreated_mem _ c).mpr hcfm, ?_⟩
      rw [hlen0, blocksOf_succ]
      simp
    have hone : ∀ lv, 1 ≤ (nodeLines c lv).countP
        (fun l => decide (l = (((":id: ").data) ++ c.id))) := by
      intro lv
      exact List.countP_pos_iff.mpr
        ⟨(((":id: ").data) ++ c.id), idline_mem_nodeLines c lv, by simp⟩
    have hcat : 2 ≤ (catMap (fun b => nodeLines b.1 b.2)
        (catMap (fun t => blocksOf mgr.tasks (mgr.tasks.length + 1) t 1)
          (sortByCreated gc.2))).countP
        (fun l => decide (l = (((":id: ").data) ++ c.id))) := by
      exact countP_catMap_two (fun b => nodeLines b.1 b.2) _ _ (c, 1) (c, 2)
        hc1 hc2 (by simp) (hone 1) (hone 2)
    unfold fileLines
    rw [List.countP_append, List.countP_cons, List.countP_cons]
    unfold linesOfBlocks
    omega
  · rw [buildTemp_saved_keys mgr.tasks hInv, hck]
    rfl

theorem c10_child_in_parent_file_serialized_twice_witness :
    InvState c10Mgr.tasks ∧
    alookup c10Mgr.tasks (("c1").data) = some c10C ∧
    alookup c10Mgr.tasks (("p1").data) = some c10P ∧
    c10C.parent_id = some (("p1").data) ∧ c10C.file = c10P.file ∧
    (∃ dir, save_tasks c10Mgr = .ok dir ∧
      (∃ e ∈ dir, 2 ≤ (splitLines e.2).countP
        (fun l => l = (((":id: ").data) ++ c10C.id))) ∧
      ((buildTemp (savedRecords c10Mgr.tasks)).map Prod.fst).Nodup ∧
      (alookup (buildTemp (savedRecords c10Mgr.tasks))
        (("c1").data)).isSome = true) :=
  ⟨c10Mgr_Inv, by decide, by decide, rfl, rfl,
    c10_child_in_parent_file_serialized_twice c10Mgr c10Mgr_Inv
      (("c1").data) (("p1").data) c10C c10P (by decide) (by decide) rfl rfl⟩

end NeuroPlan
